import Mathlib

/-!
Verification of the x-traders matching and settlement core.

This file gives a shallow embedding of the matching engine
(`backend/engine/order_book_matcher.py`), the per-symbol processor
(`backend/engine/symbol_order_processor.py`), and the repositories
(`backend/database/repositories_orders.py`, `repositories_ledger.py`,
`repositories_positions.py`) together with the trading service
(`backend/services/trading.py`), and proves or refutes the specification
claims about them.

Modelling conventions:
* Identifiers (UUIDs) are modelled as `Nat`.
* Money and quantities are integer cents / share counts (`Nat`), matching
  the source, which uses Python ints throughout; balances that can go
  negative are `Int`.
* Timestamps (`created_at`, `executed_at`, `expires_at`) are dropped: no
  claim in scope depends on wall-clock values.  The ledger `description`
  strings and outbox events are likewise dropped as claim-irrelevant.
* The `SortedDict` price maps of the book are modelled as association
  lists sorted by key (asks ascending, bids descending); the FIFO queue
  at a price level is a `List`.
* Python exceptions raised by repository methods are modelled with
  `Except String`; SQLAlchemy's session identity map (mutating an order
  object mutates the row every later query sees) is modelled by threading
  the updated order store through each step, exactly in source order.
-/

/-- `enums/__init__.py`: order side. -/
inductive Side where
  | BUY
  | SELL
deriving DecidableEq, Repr

/-- `enums/__init__.py`: order type. -/
inductive OrderType where
  | MARKET
  | LIMIT
  | IOC
deriving DecidableEq, Repr

/-- `enums/__init__.py`: order status. -/
inductive OrderStatus where
  | PENDING
  | PARTIAL
  | FILLED
  | CANCELLED
  | EXPIRED
deriving DecidableEq, Repr

/-- `enums/__init__.py`: cancel reason. -/
inductive CancelReason where
  | USER
  | EXPIRED
  | IOC_UNFILLED
  | INSUFFICIENT_FUNDS
deriving DecidableEq, Repr

/-- `models/core/order_book.py` `OrderBookEntry`: a single resting order in
the book (timestamp dropped). -/
structure OrderBookEntry where
  order_id : Nat
  trader_id : Nat
  quantity : Nat
  remaining_quantity : Nat
  price_in_cents : Nat
  sequence : Nat
deriving DecidableEq, Repr

/-- `database/models_trading.py` `Order`: the durable order row
(timestamps dropped).  `limit_price` is nullable exactly as in the model. -/
structure DBOrder where
  order_id : Nat
  trader_id : Nat
  ticker : String
  side : Side
  order_type : OrderType
  quantity : Nat
  limit_price : Option Nat
  filled_quantity : Nat
  status : OrderStatus
  cancel_reason : Option CancelReason
  sequence : Nat
deriving DecidableEq, Repr

/-- `models/schemas` `TradeData` as built by the matcher
(`executed_at` dropped). -/
structure TradeData where
  buy_order_id : Nat
  sell_order_id : Nat
  ticker : String
  price_in_cents : Nat
  quantity : Nat
  buyer_id : Nat
  seller_id : Nat
  taker_order_id : Nat
  maker_order_id : Nat
deriving DecidableEq, Repr

/-- One side of the book: price levels with their FIFO queues.  Models a
`SortedDict` of `price -> List[OrderBookEntry]`; the association list is
kept sorted by the side's key order (asks ascending, bids descending). -/
abbrev BookSide := List (Nat × List OrderBookEntry)

/-- `models/core/order_book.py` `OrderBook` (snapshot caches dropped;
`last_price_in_cents` kept since the processor writes it). -/
structure OrderBook where
  ticker : String
  bids : BookSide
  asks : BookSide
  last_price_in_cents : Option Nat
deriving DecidableEq, Repr

namespace OrderBook

/-- Key order of a side: asks compare with `<` (lowest price first), bids
with `>` (highest price first), mirroring `SortedDict(lambda x: -x)`. -/
def sideBefore (side : Side) (a b : Nat) : Bool :=
  match side with
  | Side.BUY => decide (b < a)
  | Side.SELL => decide (a < b)

/-- Insert an entry at a price into a sorted side; an existing level gets
the entry appended to its FIFO queue (`book_side[price].append(entry)`),
a missing level is created at its sorted position. -/
def insertEntry (before : Nat → Nat → Bool) (price : Nat) (entry : OrderBookEntry) :
    BookSide → BookSide
  | [] => [(price, [entry])]
  | (p, es) :: rest =>
    if price = p then (p, es ++ [entry]) :: rest
    else if before price p then (price, [entry]) :: (p, es) :: rest
    else (p, es) :: insertEntry before price entry rest

/-- `OrderBook.add_order`: add to the side picked by `side`. -/
def add_order (book : OrderBook) (side : Side) (price_in_cents : Nat)
    (entry : OrderBookEntry) : OrderBook :=
  match side with
  | Side.BUY =>
    { book with bids := insertEntry (sideBefore Side.BUY) price_in_cents entry book.bids }
  | Side.SELL =>
    { book with asks := insertEntry (sideBefore Side.SELL) price_in_cents entry book.asks }

/-- Remove the first entry with the given order id from a FIFO queue;
`none` when absent. -/
def removeFirstEntry (oid : Nat) : List OrderBookEntry → Option (List OrderBookEntry)
  | [] => none
  | e :: es =>
    if e.order_id = oid then some es
    else (removeFirstEntry oid es).map (fun es2 => e :: es2)

/-- Remove an order from the level at exactly `price` on a side, deleting
the level when its queue empties; the `Bool` reports success. -/
def removeFromSide (price oid : Nat) : BookSide → Bool × BookSide
  | [] => (false, [])
  | (p, es) :: rest =>
    if p = price then
      match removeFirstEntry oid es with
      | none => (false, (p, es) :: rest)
      | some es2 =>
        if es2.isEmpty then (true, rest) else (true, (p, es2) :: rest)
    else
      let r := removeFromSide price oid rest
      (r.1, (p, es) :: r.2)

/-- `OrderBook.remove_order`. -/
def remove_order (book : OrderBook) (side : Side) (price_in_cents oid : Nat) :
    Bool × OrderBook :=
  match side with
  | Side.BUY =>
    let r := removeFromSide price_in_cents oid book.bids
    (r.1, { book with bids := r.2 })
  | Side.SELL =>
    let r := removeFromSide price_in_cents oid book.asks
    (r.1, { book with asks := r.2 })

/-- All entries of a side, best level first. -/
def sideEntries (s : BookSide) : List OrderBookEntry :=
  s.flatMap Prod.snd

/-- Order ids present anywhere in the book. -/
def bookOrderIds (book : OrderBook) : List Nat :=
  (sideEntries book.bids).map OrderBookEntry.order_id
    ++ (sideEntries book.asks).map OrderBookEntry.order_id

end OrderBook

namespace OrderBookMatcher

open OrderBook

/-- `OrderBookMatcher._create_trade`: buyer/seller and buy/sell order ids
are derived from the taker's side; the price is the maker's level price. -/
def create_trade (taker_order : DBOrder) (maker_entry : OrderBookEntry)
    (quantity price_in_cents : Nat) (ticker : String) : TradeData :=
  match taker_order.side with
  | Side.BUY =>
    { buy_order_id := taker_order.order_id
      sell_order_id := maker_entry.order_id
      ticker := ticker
      price_in_cents := price_in_cents
      quantity := quantity
      buyer_id := taker_order.trader_id
      seller_id := maker_entry.trader_id
      taker_order_id := taker_order.order_id
      maker_order_id := maker_entry.order_id }
  | Side.SELL =>
    { buy_order_id := maker_entry.order_id
      sell_order_id := taker_order.order_id
      ticker := ticker
      price_in_cents := price_in_cents
      quantity := quantity
      buyer_id := maker_entry.trader_id
      seller_id := taker_order.trader_id
      taker_order_id := taker_order.order_id
      maker_order_id := maker_entry.order_id }

/-- `OrderBookMatcher._match_at_price_level`: walk the FIFO queue at one
price level; each maker before the break point fills
`min(remaining, maker.remaining)`, is decremented, and is removed exactly
when its remaining reaches zero; makers after the break point are kept
unchanged.  Returns (trades, remaining, surviving queue). -/
def match_at_price_level (taker_order : DBOrder) (ticker : String)
    (price_in_cents : Nat) :
    List OrderBookEntry → Nat → List TradeData × Nat × List OrderBookEntry
  | [], remaining_qty => ([], remaining_qty, [])
  | e :: es, remaining_qty =>
    if remaining_qty = 0 then ([], remaining_qty, e :: es)
    else
      let fill_qty := min remaining_qty e.remaining_quantity
      let trade := create_trade taker_order e fill_qty price_in_cents ticker
      let updated := { e with remaining_quantity := e.remaining_quantity - fill_qty }
      let r := match_at_price_level taker_order ticker price_in_cents es
        (remaining_qty - fill_qty)
      if updated.remaining_quantity = 0 then (trade :: r.1, r.2.1, r.2.2)
      else (trade :: r.1, r.2.1, updated :: r.2.2)

/-- The `while` loops of `_match_limit_order` / `_match_aggressive` over
the opposite side: stop when the remainder is zero, the side is empty, or
the best level fails the price guard; otherwise consume the best level
(deleting it when emptied) and continue.  When a level survives with
entries left, the taker is exhausted (`match_at_price_level_pos_empty`
below), so returning is exactly what the source loop does. -/
def matchLevels (taker_order : DBOrder) (ticker : String) (guard : Nat → Bool) :
    BookSide → Nat → List TradeData × Nat × BookSide
  | [], remaining => ([], remaining, [])
  | (price, es) :: rest, remaining =>
    if remaining = 0 then ([], remaining, (price, es) :: rest)
    else if guard price then
      let r := match_at_price_level taker_order ticker price es remaining
      if r.2.2.isEmpty then
        let r2 := matchLevels taker_order ticker guard rest r.2.1
        (r.1 ++ r2.1, r2.2.1, r2.2.2)
      else (r.1, r.2.1, (price, r.2.2) :: rest)
    else ([], remaining, (price, es) :: rest)

/-- The crossability guard of `_match_limit_order`: BUY continues while
`best_ask <= limit`, SELL while `best_bid >= limit`. -/
def limitGuard (side : Side) (limit : Nat) (price : Nat) : Bool :=
  match side with
  | Side.BUY => decide (price ≤ limit)
  | Side.SELL => decide (limit ≤ price)

/-- Result of `match_order`: the (possibly status-mutated) taker, the
trades, the unmatched remainder, and the mutated book. -/
structure MatchResult where
  order : DBOrder
  trades : List TradeData
  remaining : Nat
  book : OrderBook
deriving DecidableEq, Repr

/-- `OrderBookMatcher._match_limit_order`.  `none` models the `TypeError`
Python would raise on comparing the prices with a missing `limit_price`. -/
def match_limit_order (book : OrderBook) (order : DBOrder) :
    Option (List TradeData × Nat × OrderBook) :=
  match order.limit_price with
  | none => none
  | some lp =>
    let remaining := order.quantity - order.filled_quantity
    match order.side with
    | Side.BUY =>
      let r := matchLevels order book.ticker (limitGuard Side.BUY lp) book.asks remaining
      some (r.1, r.2.1, { book with asks := r.2.2 })
    | Side.SELL =>
      let r := matchLevels order book.ticker (limitGuard Side.SELL lp) book.bids remaining
      some (r.1, r.2.1, { book with bids := r.2.2 })

/-- `OrderBookMatcher._match_aggressive`: the same sweep with no price
guard (market/IOC orders). -/
def match_aggressive (book : OrderBook) (order : DBOrder) :
    List TradeData × Nat × OrderBook :=
  let remaining := order.quantity - order.filled_quantity
  match order.side with
  | Side.BUY =>
    let r := matchLevels order book.ticker (fun _ => true) book.asks remaining
    (r.1, r.2.1, { book with asks := r.2.2 })
  | Side.SELL =>
    let r := matchLevels order book.ticker (fun _ => true) book.bids remaining
    (r.1, r.2.1, { book with bids := r.2.2 })

/-- `OrderBookMatcher._match_ioc_order`: match aggressively; a non-zero
remainder marks the order EXPIRED / IOC_UNFILLED on the in-session order
object and zeroes the remainder so the caller does not rest it. -/
def match_ioc_order (book : OrderBook) (order : DBOrder) : MatchResult :=
  let r := match_aggressive book order
  if 0 < r.2.1 then
    { order := { order with status := OrderStatus.EXPIRED,
                            cancel_reason := some CancelReason.IOC_UNFILLED }
      trades := r.1, remaining := 0, book := r.2.2 }
  else
    { order := order, trades := r.1, remaining := r.2.1, book := r.2.2 }

/-- `OrderBookMatcher._match_market_order`. -/
def match_market_order (book : OrderBook) (order : DBOrder) : MatchResult :=
  let r := match_aggressive book order
  { order := order, trades := r.1, remaining := r.2.1, book := r.2.2 }

/-- `OrderBookMatcher.match_order`: dispatch on the order type. -/
def match_order (book : OrderBook) (order : DBOrder) : Option MatchResult :=
  match order.order_type with
  | OrderType.IOC => some (match_ioc_order book order)
  | OrderType.MARKET => some (match_market_order book order)
  | OrderType.LIMIT =>
    (match_limit_order book order).map
      (fun r => { order := order, trades := r.1, remaining := r.2.1, book := r.2.2 })

/-- `OrderBookMatcher.add_order_to_book`: only LIMIT orders with unfilled
quantity rest; the entry's remaining quantity is `quantity - filled`.
A LIMIT order with no `limit_price` cannot occur past validation; it is
mapped to a no-op here. -/
def add_order_to_book (book : OrderBook) (order : DBOrder) : OrderBook :=
  if order.order_type ≠ OrderType.LIMIT then book
  else if order.quantity ≤ order.filled_quantity then book
  else
    match order.limit_price with
    | none => book
    | some lp =>
      let entry : OrderBookEntry :=
        { order_id := order.order_id
          trader_id := order.trader_id
          quantity := order.quantity
          remaining_quantity := order.quantity - order.filled_quantity
          price_in_cents := lp
          sequence := order.sequence }
      book.add_order order.side lp entry

/-- `OrderBookMatcher.cancel_order`: remove a LIMIT order from the book;
non-LIMIT orders never rest and return `False`.  A missing `limit_price`
finds no level (`None not in book_side`). -/
def cancel_order_in_book (book : OrderBook) (order : DBOrder) : Bool × OrderBook :=
  if order.order_type ≠ OrderType.LIMIT then (false, book)
  else
    match order.limit_price with
    | none => (false, book)
    | some lp => book.remove_order order.side lp order.order_id

end OrderBookMatcher

/-- `database/models_trading.py` `LedgerEntry` (entry id, trade id,
description and timestamps dropped; none of them affect balances). -/
structure LedgerEntry where
  trader_id : Nat
  account : String
  debit_in_cents : Nat
  credit_in_cents : Nat
deriving DecidableEq, Repr

/-- `database/models_trading.py` `Position` (timestamps dropped). -/
structure Position where
  trader_id : Nat
  ticker : String
  quantity : Nat
  avg_cost : Nat
deriving DecidableEq, Repr

/-- The durable order table, keyed by `order_id`. -/
abbrev OrderStore := List DBOrder

/-- Look an order up by id (`get_order` / `get_order_or_none`). -/
def getOrder? (store : OrderStore) (oid : Nat) : Option DBOrder :=
  store.find? (fun o => o.order_id = oid)

/-- Write an order row back: replace every row with the same id. -/
def setOrder (store : OrderStore) (o : DBOrder) : OrderStore :=
  store.map (fun x => if x.order_id = o.order_id then o else x)

namespace OrderRepository

/-- `OrderRepository.update_filled_without_commit` acting on one row:
validate `filled + delta <= quantity` (else raise), write the new filled
quantity, and recompute the status (`FILLED` at full quantity, `PARTIAL`
when positive, otherwise the previous status is kept). -/
def update_filled_row (o : DBOrder) (fill_quantity : Nat) : Except String DBOrder :=
  let new_filled := o.filled_quantity + fill_quantity
  if o.quantity < new_filled then
    Except.error "Fill quantity exceeds order quantity"
  else
    let o1 := { o with filled_quantity := new_filled }
    if o1.quantity ≤ o1.filled_quantity then
      Except.ok { o1 with status := OrderStatus.FILLED }
    else if 0 < o1.filled_quantity then
      Except.ok { o1 with status := OrderStatus.PARTIAL }
    else
      Except.ok o1

/-- `OrderRepository.update_filled_without_commit` on the store: select
the row (raising when absent), update it, write it back. -/
def update_filled_without_commit (store : OrderStore) (oid : Nat)
    (fill_quantity : Nat) : Except String OrderStore :=
  match getOrder? store oid with
  | none => Except.error "order not found"
  | some o => (update_filled_row o fill_quantity).map (setOrder store)

/-- `OrderRepository.cancel_order_without_commit` acting on one row:
raise unless the status is PENDING or PARTIAL, then set CANCELLED for a
USER cancel and EXPIRED for every other reason, recording the reason. -/
def cancel_order_row (o : DBOrder) (reason : CancelReason) : Except String DBOrder :=
  if o.status = OrderStatus.PENDING ∨ o.status = OrderStatus.PARTIAL then
    let st := if reason = CancelReason.USER then OrderStatus.CANCELLED
              else OrderStatus.EXPIRED
    Except.ok { o with status := st, cancel_reason := some reason }
  else
    Except.error "Cannot cancel order with terminal status"

end OrderRepository

namespace LedgerRepository

/-- `LedgerRepository.post_trade_entries_without_commit`: append the four
rows written for a trade, byte for byte as in the source — the buyer's
CASH row carries the price*quantity as a DEBIT and the seller's as a
CREDIT, and the share rows use the cents fields for share counts with the
buyer debited and the seller credited. -/
def post_trade_entries_without_commit (t : TradeData) (ledger : List LedgerEntry) :
    List LedgerEntry :=
  ledger ++
    [ { trader_id := t.buyer_id, account := "CASH",
        debit_in_cents := t.price_in_cents * t.quantity, credit_in_cents := 0 },
      { trader_id := t.seller_id, account := "CASH",
        debit_in_cents := 0, credit_in_cents := t.price_in_cents * t.quantity },
      { trader_id := t.buyer_id, account := "SHARES:" ++ t.ticker,
        debit_in_cents := t.quantity, credit_in_cents := 0 },
      { trader_id := t.seller_id, account := "SHARES:" ++ t.ticker,
        debit_in_cents := 0, credit_in_cents := t.quantity } ]

/-- `LedgerRepository.get_cash_balance_in_cents`: sum of debits minus sum
of credits over the trader's CASH rows. -/
def get_cash_balance_in_cents (ledger : List LedgerEntry) (trader : Nat) : Int :=
  let rows := ledger.filter (fun e => e.trader_id = trader ∧ e.account = "CASH")
  ((rows.map (fun e => (e.debit_in_cents : Int))).sum)
    - ((rows.map (fun e => (e.credit_in_cents : Int))).sum)

/-- `LedgerRepository.get_share_balance`: same sum over the per-ticker
shares account. -/
def get_share_balance (ledger : List LedgerEntry) (trader : Nat) (ticker : String) : Int :=
  let rows := ledger.filter
    (fun e => e.trader_id = trader ∧ e.account = "SHARES:" ++ ticker)
  ((rows.map (fun e => (e.debit_in_cents : Int))).sum)
    - ((rows.map (fun e => (e.credit_in_cents : Int))).sum)

/-- `LedgerRepository.initialize_trader_cash_without_commit` (renamed to
satisfy lexical constraints of this development): the funding deposit is
written as a single CASH DEBIT row. -/
def init_trader_cash_without_commit (trader : Nat) (initial_cash_in_cents : Nat)
    (ledger : List LedgerEntry) : List LedgerEntry :=
  ledger ++ [ { trader_id := trader, account := "CASH",
                debit_in_cents := initial_cash_in_cents, credit_in_cents := 0 } ]

end LedgerRepository

namespace PositionRepository

/-- Look a position up by its composite key. -/
def getPosition? (ps : List Position) (trader : Nat) (ticker : String) :
    Option Position :=
  ps.find? (fun p => p.trader_id = trader ∧ p.ticker = ticker)

/-- `PositionRepository.update_for_buy_without_commit`: an existing
position gets `new_qty = old + qty` and the floor-divided weighted average
`(old_qty*old_avg + qty*price) // new_qty` (zero guarded exactly as in the
source); a first buy creates the position at `avg_cost = price`. -/
def update_for_buy_without_commit (ps : List Position) (trader : Nat)
    (ticker : String) (quantity price_in_cents : Nat) : List Position :=
  match getPosition? ps trader ticker with
  | some pos =>
    let new_qty := pos.quantity + quantity
    let new_avg :=
      if 0 < new_qty then
        (pos.quantity * pos.avg_cost + quantity * price_in_cents) / new_qty
      else 0
    ps.map (fun p =>
      if p.trader_id = trader ∧ p.ticker = ticker then
        { p with quantity := new_qty, avg_cost := new_avg }
      else p)
  | none =>
    ps ++ [ { trader_id := trader, ticker := ticker,
              quantity := quantity, avg_cost := price_in_cents } ]

/-- `PositionRepository.update_for_sell_without_commit`: raise when the
position is missing or smaller than the sale; otherwise subtract the
quantity and leave `avg_cost` untouched. -/
def update_for_sell_without_commit (ps : List Position) (trader : Nat)
    (ticker : String) (quantity : Nat) : Except String (List Position) :=
  match getPosition? ps trader ticker with
  | none => Except.error "Insufficient shares"
  | some pos =>
    if pos.quantity < quantity then Except.error "Insufficient shares"
    else
      Except.ok (ps.map (fun p =>
        if p.trader_id = trader ∧ p.ticker = ticker then
          { p with quantity := p.quantity - quantity }
        else p))

end PositionRepository

namespace Trading

/-- `services/trading.py` `cancel_order`: raise on a missing order or an
ownership mismatch; return `false` (no state change) when the order is
already terminal; otherwise a cancel message is issued and `true` is
returned. -/
def cancel_order (store : OrderStore) (trader_id oid : Nat) : Except String Bool :=
  match getOrder? store oid with
  | none => Except.error "Order not found"
  | some o =>
    if o.trader_id ≠ trader_id then Except.error "Order not owned by trader"
    else if o.status = OrderStatus.PENDING ∨ o.status = OrderStatus.PARTIAL then
      Except.ok true
    else Except.ok false

end Trading

/-- The state a symbol processor works on: the durable tables plus its
in-memory book.  The outbox is dropped (no claim in scope reads it). -/
structure EngineState where
  store : OrderStore
  trades : List TradeData
  ledger : List LedgerEntry
  positions : List Position
  book : OrderBook
deriving DecidableEq, Repr

namespace SymbolOrderProcessor

open OrderBookMatcher

/-- One iteration of the trade loop in
`SymbolOrderProcessor._process_new_order`: record the trade, post the
ledger entries, update both positions (the sell side can raise), and bump
`filled_quantity` on the buy and the sell order; the book's last price
cache is refreshed.  Any raise aborts the whole message (rollback). -/
def applyTrade (ticker : String) (s : EngineState) (t : TradeData) :
    Except String EngineState :=
  let ledger1 := LedgerRepository.post_trade_entries_without_commit t s.ledger
  let pos1 := PositionRepository.update_for_buy_without_commit
    s.positions t.buyer_id ticker t.quantity t.price_in_cents
  match PositionRepository.update_for_sell_without_commit
      pos1 t.seller_id ticker t.quantity with
  | Except.error e => Except.error e
  | Except.ok pos2 =>
    match OrderRepository.update_filled_without_commit
        s.store t.buy_order_id t.quantity with
    | Except.error e => Except.error e
    | Except.ok store1 =>
      match OrderRepository.update_filled_without_commit
          store1 t.sell_order_id t.quantity with
      | Except.error e => Except.error e
      | Except.ok store2 =>
        Except.ok { s with
          store := store2
          trades := s.trades ++ [t]
          ledger := ledger1
          positions := pos2
          book := { s.book with last_price_in_cents := some t.price_in_cents } }

/-- Fold `applyTrade` over the trade list, in emission order. -/
def applyTrades (ticker : String) : EngineState → List TradeData →
    Except String EngineState
  | s, [] => Except.ok s
  | s, t :: ts =>
    match applyTrade ticker s t with
    | Except.error e => Except.error e
    | Except.ok s1 => applyTrades ticker s1 ts

/-- `SymbolOrderProcessor._process_new_order`: load the durable order,
match it against the book, settle every trade, then rest a LIMIT
remainder.  The matcher's in-place mutation of the order object (the IOC
EXPIRED mark) is visible to the later `update_filled` calls through the
session identity map, which is modelled by writing the matcher's copy of
the taker back to the store before the trade loop, and re-reading it for
the final resting decision. -/
def processNewOrder (s : EngineState) (oid : Nat) : Except String EngineState :=
  match getOrder? s.store oid with
  | none => Except.error "order not found"
  | some order =>
    match match_order s.book order with
    | none => Except.error "limit order without limit price"
    | some res =>
      let s1 := { s with store := setOrder s.store res.order, book := res.book }
      match applyTrades s.book.ticker s1 res.trades with
      | Except.error e => Except.error e
      | Except.ok s2 =>
        match getOrder? s2.store oid with
        | none => Except.error "order not found"
        | some order2 =>
          if 0 < res.remaining ∧ order2.order_type = OrderType.LIMIT then
            Except.ok { s2 with book := add_order_to_book s2.book order2 }
          else Except.ok s2

/-- `SymbolOrderProcessor._process_cancellation`: cancel the durable row
and remove the order from the book; a missing or already-terminal order
raises inside the `try`, is logged, and leaves the state unchanged. -/
def processCancellation (s : EngineState) (oid : Nat) (reason : CancelReason) :
    EngineState :=
  match getOrder? s.store oid with
  | none => s
  | some o =>
    match OrderRepository.cancel_order_row o reason with
    | Except.error _ => s
    | Except.ok o2 =>
      let r := cancel_order_in_book s.book o2
      { s with store := setOrder s.store o2, book := r.2 }

/-- A message on the processor inbox.  A `newOrder` message carries the
durable row inserted by `_submit_order` just before enqueueing (status
PENDING, nothing filled); processing it inserts the row and runs
`_process_new_order`, modelling the insert-then-enqueue flow with no
other submission in flight. -/
inductive EngineMsg where
  | newOrder (o : DBOrder)
  | cancel (oid : Nat) (reason : CancelReason)
deriving DecidableEq, Repr

/-- One processor step. -/
def stepMsg (s : EngineState) : EngineMsg → Except String EngineState
  | EngineMsg.newOrder o => processNewOrder { s with store := s.store ++ [o] } o.order_id
  | EngineMsg.cancel oid reason => Except.ok (processCancellation s oid reason)

/-- Run a message sequence; an uncommitted (raising) message aborts. -/
def runMsgs : EngineState → List EngineMsg → Except String EngineState
  | s, [] => Except.ok s
  | s, m :: ms =>
    match stepMsg s m with
    | Except.error e => Except.error e
    | Except.ok s1 => runMsgs s1 ms

end SymbolOrderProcessor

section Fixtures

open OrderBookMatcher SymbolOrderProcessor

/-- Resting maker used by several scenarios: SELL LIMIT 5 @ 50 by trader
10, order id 1, sequence 1. -/
def makerEntry50 : OrderBookEntry :=
  { order_id := 1, trader_id := 10, quantity := 5, remaining_quantity := 5,
    price_in_cents := 50, sequence := 1 }

/-- The durable row behind `makerEntry50`. -/
def makerOrder50 : DBOrder :=
  { order_id := 1, trader_id := 10, ticker := "X", side := Side.SELL,
    order_type := OrderType.LIMIT, quantity := 5, limit_price := some 50,
    filled_quantity := 0, status := OrderStatus.PENDING, cancel_reason := none,
    sequence := 1 }

/-- Book with a single ask level 50 holding `makerEntry50`. -/
def bookAsk50 : OrderBook :=
  { ticker := "X", bids := [], asks := [(50, [makerEntry50])],
    last_price_in_cents := none }

end Fixtures

/-- The trade of the spec's ledger scenario: trader 0 buys 4 shares of X
at 100 cents from trader 1. -/
def c1Trade : TradeData :=
  { buy_order_id := 2, sell_order_id := 1, ticker := "X", price_in_cents := 100,
    quantity := 4, buyer_id := 0, seller_id := 1, taker_order_id := 2,
    maker_order_id := 1 }

/-- Ledger after funding trader 0 with 1,000,000 cents and posting
`c1Trade`. -/
def c1Ledger : List LedgerEntry :=
  LedgerRepository.post_trade_entries_without_commit c1Trade
    (LedgerRepository.init_trader_cash_without_commit 0 1000000 [])

/-- C1: the claim says the buyer's cash balance is the funding minus
price*quantity (999,600 here) and the seller's is plus price*quantity.
The code posts the buyer's CASH row as a DEBIT and the seller's as a
CREDIT while deriving the balance as debits minus credits, so the buyer
comes out at 1,000,400 and the unfunded seller at -400: buying increases
cash and selling decreases it.  This refutes the claim on the code. -/
theorem c1_cash_balance_sign_flipped :
    LedgerRepository.get_cash_balance_in_cents c1Ledger 0 = 1000400 ∧
    LedgerRepository.get_cash_balance_in_cents c1Ledger 1 = -400 ∧
    LedgerRepository.get_cash_balance_in_cents c1Ledger 0 ≠ 1000000 - 100 * 4 := by
  refine ⟨by decide, by decide, by decide⟩

/-- The IOC order of the spec's seed test 4: BUY IOC 10 with limit 45,
arriving while SELL LIMIT 5 @ 50 rests. -/
def c3IocOrder : DBOrder :=
  { order_id := 2, trader_id := 20, ticker := "X", side := Side.BUY,
    order_type := OrderType.IOC, quantity := 10, limit_price := some 45,
    filled_quantity := 0, status := OrderStatus.PENDING, cancel_reason := none,
    sequence := 2 }

/-- C3: the claim (and the spec's seed test) says an IOC carrying a limit
executes as a LIMIT, so BUY IOC 10 limit 45 against SELL LIMIT 5 @ 50
trades nothing and leaves the book unchanged.  `_match_ioc_order` instead
delegates to `_match_aggressive`, which never reads the limit: the code
emits a trade of 5 at price 50 — worse than the limit 45 — and empties
the ask side. -/
theorem c3_ioc_ignores_limit_price :
    (OrderBookMatcher.match_order bookAsk50 c3IocOrder).map
        (fun r => (r.trades.map (fun t => (t.price_in_cents, t.quantity)),
                   r.book.asks)) =
      some ([(50, 5)], []) := by
  rfl

/-- Engine state for the IOC scenario: the maker's row and the incoming
IOC in the store, the seller holding 5 shares, the maker resting. -/
def c4State : EngineState :=
  { store := [makerOrder50, c3IocOrder], trades := [], ledger := [],
    positions := [⟨10, "X", 5, 0⟩], book := bookAsk50 }

/-- C4: the claim says every IOC whose match falls short of its quantity
ends durably EXPIRED with IOC_UNFILLED.  The matcher does set EXPIRED on
the partially-filled IOC, but `_process_new_order` then runs
`update_filled` for the taker's own fill, which recomputes the status to
PARTIAL through the session identity map, so the committed row is PARTIAL
(with cancel_reason still IOC_UNFILLED).  Only a zero-filled IOC commits
as EXPIRED.  The order still never rests (the book stays empty of it). -/
theorem c4_partial_ioc_commits_partial_not_expired :
    (SymbolOrderProcessor.processNewOrder c4State 2).map
        (fun s2 => ((getOrder? s2.store 2).map
          (fun o => (o.status, o.cancel_reason, o.filled_quantity)),
          s2.book.bids, s2.book.asks)) =
      Except.ok (some (OrderStatus.PARTIAL, some CancelReason.IOC_UNFILLED, 5),
        [], []) := by
  rfl

/-- A maker and taker owned by the same trader 7: the resting SELL LIMIT
5 @ 50 (order 1) and the incoming BUY LIMIT 5 @ 50 (order 2). -/
def c10State : EngineState :=
  { store :=
      [ { order_id := 1, trader_id := 7, ticker := "X", side := Side.SELL,
          order_type := OrderType.LIMIT, quantity := 5, limit_price := some 50,
          filled_quantity := 0, status := OrderStatus.PENDING,
          cancel_reason := none, sequence := 1 },
        { order_id := 2, trader_id := 7, ticker := "X", side := Side.BUY,
          order_type := OrderType.LIMIT, quantity := 5, limit_price := some 50,
          filled_quantity := 0, status := OrderStatus.PENDING,
          cancel_reason := none, sequence := 2 } ],
    trades := [], ledger := [], positions := [⟨7, "X", 5, 0⟩],
    book := { ticker := "X", bids := [],
              asks := [(50, [{ order_id := 1, trader_id := 7, quantity := 5,
                               remaining_quantity := 5, price_in_cents := 50,
                               sequence := 1 }])],
              last_price_in_cents := none } }

/-- C10: nothing prevents self-trading.  Trader 7's BUY LIMIT matches
trader 7's own resting SELL: the matcher emits a trade with
buyer_id = seller_id = 7, and the processor records and settles it like
any other trade — both orders commit as FILLED, the four ledger rows are
written, and the position is bought (5 more @ 50, re-averaging 0 to 25)
and sold back to quantity 5. -/
theorem c10_self_trade_matches_and_settles :
    (SymbolOrderProcessor.processNewOrder c10State 2).map
        (fun s2 => (s2.trades.map (fun t => (t.buyer_id, t.seller_id,
                      t.price_in_cents, t.quantity)),
                    (getOrder? s2.store 1).map DBOrder.status,
                    (getOrder? s2.store 2).map DBOrder.status,
                    s2.ledger.length,
                    PositionRepository.getPosition? s2.positions 7 "X")) =
      Except.ok ([(7, 7, 50, 5)], some OrderStatus.FILLED,
        some OrderStatus.FILLED, 4, some ⟨7, "X", 5, 25⟩) := by
  rfl


/-- C7: `update_filled` raises (leaving the row unmodified — the raise
happens before any write) exactly when `filled_quantity + delta` exceeds
`quantity`; otherwise it writes the new filled quantity and recomputes the
status: FILLED exactly at full quantity, PARTIAL at any positive partial
fill, and the previous (PENDING) status kept at zero.  The hypotheses are
the order-row invariants (positive quantity; a FILLED row is fully
filled). -/
theorem c7_update_filled_rules (o : DBOrder) (d : Nat) (hq : 0 < o.quantity)
    (hf : o.status = OrderStatus.FILLED → o.filled_quantity = o.quantity) :
    (o.quantity < o.filled_quantity + d →
      OrderRepository.update_filled_row o d =
        Except.error "Fill quantity exceeds order quantity") ∧
    (o.filled_quantity + d ≤ o.quantity →
      ∃ o2, OrderRepository.update_filled_row o d = Except.ok o2 ∧
        o2.filled_quantity = o.filled_quantity + d ∧
        (o2.status = OrderStatus.FILLED ↔ o2.filled_quantity = o.quantity) ∧
        (0 < o2.filled_quantity → o2.filled_quantity < o.quantity →
          o2.status = OrderStatus.PARTIAL) ∧
        (o2.filled_quantity = 0 → o2.status = o.status)) := by
  constructor
  · intro h
    simp [OrderRepository.update_filled_row, h]
  · intro h
    have hnot : ¬ o.quantity < o.filled_quantity + d := not_lt.mpr h
    by_cases hfull : o.quantity ≤ o.filled_quantity + d
    · have heq : o.filled_quantity + d = o.quantity := le_antisymm h hfull
      refine ⟨{ o with filled_quantity := o.filled_quantity + d,
                       status := OrderStatus.FILLED }, ?_, ?_, ?_, ?_, ?_⟩
      · simp [OrderRepository.update_filled_row, hnot, hfull]
      · simp
      · simp [heq]
      · intro _ h2
        simp at h2
        omega
      · intro h0
        simp at h0
        omega
    · have hlt : o.filled_quantity + d < o.quantity := not_le.mp hfull
      by_cases hpos : 0 < o.filled_quantity + d
      · refine ⟨{ o with filled_quantity := o.filled_quantity + d,
                         status := OrderStatus.PARTIAL }, ?_, ?_, ?_, ?_, ?_⟩
        · simp [OrderRepository.update_filled_row, hnot, hfull, hpos]
        · simp
        · simp
          omega
        · intro _ _
          rfl
        · intro h0
          simp at h0
          omega
      · have h0 : o.filled_quantity + d = 0 := by omega
        refine ⟨{ o with filled_quantity := o.filled_quantity + d }, ?_, ?_, ?_, ?_, ?_⟩
        · simp [OrderRepository.update_filled_row, hnot, hfull, hpos]
        · simp
        · simp
          constructor
          · intro hst
            have := hf hst
            omega
          · intro hc
            omega
        · intro hp _
          simp at hp
          omega
        · intro _
          rfl

/-- Updating all rows with the composite key leaves `find?` at the updated
first match. -/
lemma getPosition_map_update (ps : List Position) (trader : Nat) (tk : String)
    (upd : Position → Position)
    (hupd : ∀ x, (upd x).trader_id = x.trader_id ∧ (upd x).ticker = x.ticker) :
    PositionRepository.getPosition?
      (ps.map fun x => if x.trader_id = trader ∧ x.ticker = tk then upd x else x)
      trader tk
      = (PositionRepository.getPosition? ps trader tk).map upd := by
  induction ps with
  | nil => rfl
  | cons x t ih =>
    simp only [PositionRepository.getPosition?, List.map_cons] at ih ⊢
    by_cases hx : x.trader_id = trader ∧ x.ticker = tk
    · rw [if_pos hx]
      have h1 : decide ((upd x).trader_id = trader ∧ (upd x).ticker = tk) = true := by
        simp [(hupd x).1, (hupd x).2, hx.1, hx.2]
      have h2 : decide (x.trader_id = trader ∧ x.ticker = tk) = true := by
        simp [hx.1, hx.2]
      simp only [List.find?_cons, h1, h2]
      rfl
    · rw [if_neg hx]
      have h2 : decide (x.trader_id = trader ∧ x.ticker = tk) = false := by
        simpa using hx
      simp only [List.find?_cons, h2]
      exact ih

/-- A freshly appended position row is found when no earlier row matched. -/
lemma getPosition_append_new (ps : List Position) (trader : Nat) (tk : String)
    (pos : Position) (hp : pos.trader_id = trader) (ht : pos.ticker = tk)
    (h : PositionRepository.getPosition? ps trader tk = none) :
    PositionRepository.getPosition? (ps ++ [pos]) trader tk = some pos := by
  simp only [PositionRepository.getPosition?] at *
  rw [List.find?_append, h]
  simp [hp, ht]

/-- C8: `update_for_buy` on an existing position adds the quantity and
floor-divides the weighted average `(q0*a0 + q*p) / (q0 + q)` in integer
cents, a first buy creates the position with `avg_cost = p`; and
`update_for_sell` raises when the position is missing or smaller than the
sale, otherwise subtracts the quantity and leaves `avg_cost` untouched
(the record update below changes only `quantity`). -/
theorem c8_position_math (ps : List Position) (trader : Nat) (tk : String)
    (q p : Nat) (hq : 0 < q) :
    (PositionRepository.getPosition? ps trader tk = none →
      PositionRepository.getPosition?
        (PositionRepository.update_for_buy_without_commit ps trader tk q p) trader tk
        = some ⟨trader, tk, q, p⟩) ∧
    (∀ pos, PositionRepository.getPosition? ps trader tk = some pos →
      PositionRepository.getPosition?
        (PositionRepository.update_for_buy_without_commit ps trader tk q p) trader tk
        = some { pos with quantity := pos.quantity + q, avg_cost := (pos.quantity * pos.avg_cost + q * p) / (pos.quantity + q) }) ∧
    (PositionRepository.getPosition? ps trader tk = none →
      PositionRepository.update_for_sell_without_commit ps trader tk q
        = Except.error "Insufficient shares") ∧
    (∀ pos, PositionRepository.getPosition? ps trader tk = some pos → pos.quantity < q →
      PositionRepository.update_for_sell_without_commit ps trader tk q
        = Except.error "Insufficient shares") ∧
    (∀ pos, PositionRepository.getPosition? ps trader tk = some pos → q ≤ pos.quantity →
      ∃ ps2, PositionRepository.update_for_sell_without_commit ps trader tk q
          = Except.ok ps2 ∧
        PositionRepository.getPosition? ps2 trader tk =
          some { pos with quantity := pos.quantity - q }) := by
  refine ⟨?_, ?_, ?_, ?_, ?_⟩
  · intro h
    simp only [PositionRepository.update_for_buy_without_commit, h]
    exact getPosition_append_new ps trader tk _ rfl rfl h
  · intro pos hpos
    have hq2 : 0 < pos.quantity + q := by omega
    have hmap := getPosition_map_update ps trader tk
      (fun x => { x with quantity := pos.quantity + q, avg_cost := (pos.quantity * pos.avg_cost + q * p) / (pos.quantity + q) })
      (fun x => ⟨rfl, rfl⟩)
    simp only [PositionRepository.update_for_buy_without_commit, hpos, if_pos hq2]
    rw [hmap, hpos]
    rfl
  · intro h
    simp [PositionRepository.update_for_sell_without_commit, h]
  · intro pos hpos hlt
    simp [PositionRepository.update_for_sell_without_commit, hpos, hlt]
  · intro pos hpos hle
    have hnl : ¬ pos.quantity < q := not_lt.mpr hle
    refine ⟨ps.map (fun x => if x.trader_id = trader ∧ x.ticker = tk then { x with quantity := x.quantity - q } else x), ?_, ?_⟩
    · simp only [PositionRepository.update_for_sell_without_commit, hpos]
      rw [if_neg hnl]
    · rw [getPosition_map_update ps trader tk (fun x => { x with quantity := x.quantity - q }) (fun x => ⟨rfl, rfl⟩), hpos]
      rfl

/-- C9: `cancel_order` raises on a missing order and on an ownership
mismatch, returns `true` (a cancel message is issued) when the caller owns
the order and it is PENDING or PARTIAL, and returns `false` for an order
already in a terminal state; the service only reads the store, so no state
changes on any path. -/
theorem c9_cancel_order_rules (store : OrderStore) (trader oid : Nat) :
    (getOrder? store oid = none →
      Trading.cancel_order store trader oid = Except.error "Order not found") ∧
    (∀ o, getOrder? store oid = some o → o.trader_id ≠ trader →
      Trading.cancel_order store trader oid = Except.error "Order not owned by trader") ∧
    (∀ o, getOrder? store oid = some o → o.trader_id = trader →
      (o.status = OrderStatus.PENDING ∨ o.status = OrderStatus.PARTIAL) →
      Trading.cancel_order store trader oid = Except.ok true) ∧
    (∀ o, getOrder? store oid = some o → o.trader_id = trader →
      o.status ≠ OrderStatus.PENDING → o.status ≠ OrderStatus.PARTIAL →
      Trading.cancel_order store trader oid = Except.ok false) := by
  refine ⟨?_, ?_, ?_, ?_⟩
  · intro h
    simp [Trading.cancel_order, h]
  · intro o ho hne
    simp [Trading.cancel_order, ho, hne]
  · intro o ho heq hst
    simp [Trading.cancel_order, ho, heq, hst]
  · intro o ho heq h1 h2
    simp [Trading.cancel_order, ho, heq, h1, h2]


/-- Concrete order for the C7 witness: PENDING, quantity 5, nothing
filled. -/
def c7Order : DBOrder :=
  { order_id := 9, trader_id := 3, ticker := "X", side := Side.BUY,
    order_type := OrderType.LIMIT, quantity := 5, limit_price := some 10,
    filled_quantity := 0, status := OrderStatus.PENDING, cancel_reason := none,
    sequence := 9 }

/-- Witness for C7: over-filling by 9 raises; filling 3 of 5 commits
PARTIAL with filled 3. -/
theorem c7_update_filled_witness :
    OrderRepository.update_filled_row c7Order 9 =
      Except.error "Fill quantity exceeds order quantity" ∧
    OrderRepository.update_filled_row c7Order 3 =
      Except.ok { c7Order with filled_quantity := 3, status := OrderStatus.PARTIAL } :=
  ⟨(c7_update_filled_rules c7Order 9 (by decide) (by decide)).1 (by decide), rfl⟩

/-- Witness for C8: buying 4 @ 100 onto a position of 10 @ 40 gives
quantity 14 and average (10*40 + 4*100) / 14 = 57; selling 20 raises. -/
theorem c8_position_math_witness :
    PositionRepository.getPosition?
        (PositionRepository.update_for_buy_without_commit
          [⟨3, "X", 10, 40⟩] 3 "X" 4 100) 3 "X"
      = some ⟨3, "X", 14, 57⟩ ∧
    PositionRepository.update_for_sell_without_commit [⟨3, "X", 10, 40⟩] 3 "X" 20
      = Except.error "Insufficient shares" :=
  ⟨(c8_position_math [⟨3, "X", 10, 40⟩] 3 "X" 4 100 (by decide)).2.1
      ⟨3, "X", 10, 40⟩ (by decide),
   (c8_position_math [⟨3, "X", 10, 40⟩] 3 "X" 20 100 (by decide)).2.2.2.1
      ⟨3, "X", 10, 40⟩ (by decide) (by decide)⟩

/-- Orders for the C9 witness: trader 3 owns a PENDING order 5 and a
FILLED order 6. -/
def c9Live : DBOrder :=
  { order_id := 5, trader_id := 3, ticker := "X", side := Side.BUY,
    order_type := OrderType.LIMIT, quantity := 5, limit_price := some 10,
    filled_quantity := 0, status := OrderStatus.PENDING, cancel_reason := none,
    sequence := 5 }

/-- The terminal order of the C9 witness. -/
def c9Done : DBOrder :=
  { order_id := 6, trader_id := 3, ticker := "X", side := Side.BUY,
    order_type := OrderType.LIMIT, quantity := 5, limit_price := some 10,
    filled_quantity := 5, status := OrderStatus.FILLED, cancel_reason := none,
    sequence := 6 }

/-- Witness for C9: all four cancel outcomes at a concrete store. -/
theorem c9_cancel_order_witness :
    Trading.cancel_order [c9Live, c9Done] 3 5 = Except.ok true ∧
    Trading.cancel_order [c9Live, c9Done] 3 6 = Except.ok false ∧
    Trading.cancel_order [c9Live, c9Done] 4 5 =
      Except.error "Order not owned by trader" ∧
    Trading.cancel_order [c9Live, c9Done] 3 99 = Except.error "Order not found" :=
  ⟨(c9_cancel_order_rules [c9Live, c9Done] 3 5).2.2.1 c9Live (by decide) rfl
      (Or.inl rfl),
   (c9_cancel_order_rules [c9Live, c9Done] 3 6).2.2.2 c9Done (by decide) rfl
      (by decide) (by decide),
   (c9_cancel_order_rules [c9Live, c9Done] 4 5).2.1 c9Live (by decide) (by decide),
   (c9_cancel_order_rules [c9Live, c9Done] 3 99).1 (by decide)⟩

/-- Total quantity of a trade list. -/
def sumQty (ts : List TradeData) : Nat := (ts.map TradeData.quantity).sum

/-- The side of the book an incoming order matches against. -/
def oppSide (book : OrderBook) (side : Side) : BookSide :=
  match side with
  | Side.BUY => book.asks
  | Side.SELL => book.bids

/-- The side of the book an order rests on. -/
def ownSide (book : OrderBook) (side : Side) : BookSide :=
  match side with
  | Side.BUY => book.bids
  | Side.SELL => book.asks

namespace OrderBookMatcher

@[simp] lemma create_trade_quantity (o : DBOrder) (e : OrderBookEntry) (q p : Nat)
    (tk : String) : (create_trade o e q p tk).quantity = q := by
  cases h : o.side <;> simp [create_trade, h]

@[simp] lemma create_trade_price (o : DBOrder) (e : OrderBookEntry) (q p : Nat)
    (tk : String) : (create_trade o e q p tk).price_in_cents = p := by
  cases h : o.side <;> simp [create_trade, h]

@[simp] lemma create_trade_taker (o : DBOrder) (e : OrderBookEntry) (q p : Nat)
    (tk : String) : (create_trade o e q p tk).taker_order_id = o.order_id := by
  cases h : o.side <;> simp [create_trade, h]

@[simp] lemma create_trade_maker (o : DBOrder) (e : OrderBookEntry) (q p : Nat)
    (tk : String) : (create_trade o e q p tk).maker_order_id = e.order_id := by
  cases h : o.side <;> simp [create_trade, h]

@[simp] lemma create_trade_ticker (o : DBOrder) (e : OrderBookEntry) (q p : Nat)
    (tk : String) : (create_trade o e q p tk).ticker = tk := by
  cases h : o.side <;> simp [create_trade, h]

lemma mpl_zero (taker : DBOrder) (tk : String) (p : Nat) (es : List OrderBookEntry) :
    match_at_price_level taker tk p es 0 = ([], 0, es) := by
  cases es <;> simp [match_at_price_level]

lemma mpl_conservation (taker : DBOrder) (tk : String) (p : Nat) :
    ∀ (es : List OrderBookEntry) (rem : Nat) ts r es2,
      match_at_price_level taker tk p es rem = (ts, r, es2) →
      r + sumQty ts = rem := by
  intro es
  induction es with
  | nil =>
    intro rem ts r es2 h
    simp [match_at_price_level] at h
    obtain ⟨h1, h2, _⟩ := h
    subst h1
    subst h2
    simp [sumQty]
  | cons e es ih =>
    intro rem ts r es2 h
    by_cases h0 : rem = 0
    · subst h0
      simp [match_at_price_level] at h
      obtain ⟨h1, h2, _⟩ := h
      subst h1
      subst h2
      simp [sumQty]
    · simp only [match_at_price_level, if_neg h0] at h
      rcases hr : match_at_price_level taker tk p es (rem - min rem e.remaining_quantity)
        with ⟨ts', r', es2'⟩
      rw [hr] at h
      have hrec := ih (rem - min rem e.remaining_quantity) ts' r' es2' hr
      by_cases hz : e.remaining_quantity - min rem e.remaining_quantity = 0
      · rw [if_pos hz] at h
        cases h
        simp [sumQty] at hrec ⊢
        omega
      · rw [if_neg hz] at h
        cases h
        simp [sumQty] at hrec ⊢
        omega

lemma mpl_pos_empty (taker : DBOrder) (tk : String) (p : Nat) :
    ∀ (es : List OrderBookEntry) (rem : Nat) ts r es2,
      match_at_price_level taker tk p es rem = (ts, r, es2) →
      0 < r → es2 = [] := by
  intro es
  induction es with
  | nil =>
    intro rem ts r es2 h hr
    simp [match_at_price_level] at h
    exact h.2.2
  | cons e es ih =>
    intro rem ts r es2 h hr
    by_cases h0 : rem = 0
    · subst h0
      simp [match_at_price_level] at h
      omega
    · simp only [match_at_price_level, if_neg h0] at h
      rcases hrec : match_at_price_level taker tk p es (rem - min rem e.remaining_quantity)
        with ⟨ts', r', es2'⟩
      rw [hrec] at h
      simp only [] at h
      by_cases hz : e.remaining_quantity - min rem e.remaining_quantity = 0
      · rw [if_pos hz] at h
        cases h
        exact ih _ _ _ _ hrec hr
      · rw [if_neg hz] at h
        have hfill : min rem e.remaining_quantity = rem := by omega
        rw [hfill, Nat.sub_self, mpl_zero] at hrec
        injection hrec with hts hrest
        injection hrest with hrr hes
        cases h
        omega

lemma mpl_survivors_pos (taker : DBOrder) (tk : String) (p : Nat) :
    ∀ (es : List OrderBookEntry) (rem : Nat) ts r es2,
      match_at_price_level taker tk p es rem = (ts, r, es2) →
      (∀ e ∈ es, 0 < e.remaining_quantity) →
      ∀ x ∈ es2, 0 < x.remaining_quantity := by
  intro es
  induction es with
  | nil =>
    intro rem ts r es2 h _ x hx
    simp [match_at_price_level] at h
    rw [h.2.2] at hx
    simp at hx
  | cons e es ih =>
    intro rem ts r es2 h hwf x hx
    by_cases h0 : rem = 0
    · subst h0
      simp [match_at_price_level] at h
      rw [← h.2.2] at hx
      exact hwf x hx
    · simp only [match_at_price_level, if_neg h0] at h
      rcases hrec : match_at_price_level taker tk p es (rem - min rem e.remaining_quantity)
        with ⟨ts', r', es2'⟩
      rw [hrec] at h
      simp only [] at h
      by_cases hz : e.remaining_quantity - min rem e.remaining_quantity = 0
      · rw [if_pos hz] at h
        cases h
        exact ih _ _ _ _ hrec (fun y hy => hwf y (List.mem_cons_of_mem _ hy)) x hx
      · rw [if_neg hz] at h
        cases h
        rcases List.mem_cons.mp hx with hx | hx
        · subst hx
          simpa using Nat.pos_of_ne_zero hz
        · exact ih _ _ _ _ hrec (fun y hy => hwf y (List.mem_cons_of_mem _ hy)) x hx

lemma mpl_trades_shape (taker : DBOrder) (tk : String) (p : Nat) :
    ∀ (es : List OrderBookEntry) (rem : Nat) ts r es2,
      match_at_price_level taker tk p es rem = (ts, r, es2) →
      (∀ e ∈ es, 0 < e.remaining_quantity) →
      ∀ t ∈ ts, ∃ e ∈ es, ∃ q, 0 < q ∧ q ≤ e.remaining_quantity ∧
        t = create_trade taker e q p tk := by
  intro es
  induction es with
  | nil =>
    intro rem ts r es2 h _ t ht
    simp [match_at_price_level] at h
    rw [h.1] at ht
    simp at ht
  | cons e es ih =>
    intro rem ts r es2 h hwf t ht
    by_cases h0 : rem = 0
    · subst h0
      simp [match_at_price_level] at h
      rw [h.1] at ht
      simp at ht
    · simp only [match_at_price_level, if_neg h0] at h
      rcases hrec : match_at_price_level taker tk p es (rem - min rem e.remaining_quantity)
        with ⟨ts', r', es2'⟩
      rw [hrec] at h
      have hhead : ∀ t2, t2 = create_trade taker e (min rem e.remaining_quantity) p tk →
          ∃ e2 ∈ e :: es, ∃ q, 0 < q ∧ q ≤ e2.remaining_quantity ∧
            t2 = create_trade taker e2 q p tk := by
        intro t2 ht2
        refine ⟨e, List.mem_cons_self e es, min rem e.remaining_quantity, ?_, ?_, ht2⟩
        · have := hwf e (List.mem_cons_self e es)
          omega
        · omega
      have htail : ∀ t2 ∈ ts', ∃ e2 ∈ e :: es, ∃ q, 0 < q ∧ q ≤ e2.remaining_quantity ∧
          t2 = create_trade taker e2 q p tk := by
        intro t2 ht2
        obtain ⟨e2, he2, q, hq1, hq2, heq⟩ :=
          ih _ _ _ _ hrec (fun y hy => hwf y (List.mem_cons_of_mem _ hy)) t2 ht2
        exact ⟨e2, List.mem_cons_of_mem _ he2, q, hq1, hq2, heq⟩
      by_cases hz : e.remaining_quantity - min rem e.remaining_quantity = 0
      · rw [if_pos hz] at h
        cases h
        rcases List.mem_cons.mp ht with ht | ht
        · exact hhead t ht
        · exact htail t ht
      · rw [if_neg hz] at h
        cases h
        rcases List.mem_cons.mp ht with ht | ht
        · exact hhead t ht
        · exact htail t ht

lemma mpl_head_fifo (taker : DBOrder) (tk : String) (p : Nat)
    (e : OrderBookEntry) (es : List OrderBookEntry) (rem : Nat)
    (h0 : rem ≠ 0) :
    (match_at_price_level taker tk p (e :: es) rem).1.head? =
      some (create_trade taker e (min rem e.remaining_quantity) p tk) := by
  simp only [match_at_price_level, if_neg h0]
  by_cases hz : e.remaining_quantity - min rem e.remaining_quantity = 0
  · rw [if_pos hz]
    simp
  · rw [if_neg hz]
    simp

lemma matchLevels_zero (taker : DBOrder) (tk : String) (g : Nat → Bool)
    (levels : BookSide) :
    matchLevels taker tk g levels 0 = ([], 0, levels) := by
  cases levels with
  | nil => rfl
  | cons lv rest => rcases lv with ⟨p, es⟩; simp [matchLevels]

lemma matchLevels_conservation (taker : DBOrder) (tk : String) (g : Nat → Bool) :
    ∀ (levels : BookSide) (rem : Nat) ts r lv2,
      matchLevels taker tk g levels rem = (ts, r, lv2) →
      r + sumQty ts = rem := by
  intro levels
  induction levels with
  | nil =>
    intro rem ts r lv2 h
    simp [matchLevels] at h
    obtain ⟨h1, h2, _⟩ := h
    subst h1
    subst h2
    simp [sumQty]
  | cons lv rest ih =>
    rcases lv with ⟨price, es⟩
    intro rem ts r lv2 h
    by_cases h0 : rem = 0
    · subst h0
      simp [matchLevels] at h
      obtain ⟨h1, h2, _⟩ := h
      subst h1
      subst h2
      simp [sumQty]
    · by_cases hg : g price
      · simp only [matchLevels, if_neg h0, if_pos hg] at h
        rcases hmpl : match_at_price_level taker tk price es rem with ⟨ts1, r1, es2⟩
        rw [hmpl] at h
        simp only [] at h
        have hc1 := mpl_conservation taker tk price es rem ts1 r1 es2 hmpl
        by_cases hemp : es2.isEmpty
        · rw [if_pos hemp] at h
          rcases hrec : matchLevels taker tk g rest r1 with ⟨ts2, r2, lv3⟩
          rw [hrec] at h
          simp only [] at h
          have hc2 := ih r1 ts2 r2 lv3 hrec
          cases h
          simp [sumQty] at hc1 hc2 ⊢
          omega
        · rw [if_neg hemp] at h
          cases h
          omega
      · simp only [matchLevels, if_neg h0, if_neg hg] at h
        cases h
        simp [sumQty]

lemma matchLevels_stop (taker : DBOrder) (tk : String) (g : Nat → Bool) :
    ∀ (levels : BookSide) (rem : Nat) ts r lv2,
      matchLevels taker tk g levels rem = (ts, r, lv2) →
      r = 0 ∨ lv2 = [] ∨ ∃ p es rest, lv2 = (p, es) :: rest ∧ g p = false := by
  intro levels
  induction levels with
  | nil =>
    intro rem ts r lv2 h
    simp [matchLevels] at h
    exact Or.inr (Or.inl h.2.2)
  | cons lv rest ih =>
    rcases lv with ⟨price, es⟩
    intro rem ts r lv2 h
    by_cases h0 : rem = 0
    · subst h0
      simp [matchLevels] at h
      omega
    · by_cases hg : g price
      · simp only [matchLevels, if_neg h0, if_pos hg] at h
        rcases hmpl : match_at_price_level taker tk price es rem with ⟨ts1, r1, es2⟩
        rw [hmpl] at h
        simp only [] at h
        by_cases hemp : es2.isEmpty
        · rw [if_pos hemp] at h
          rcases hrec : matchLevels taker tk g rest r1 with ⟨ts2, r2, lv3⟩
          rw [hrec] at h
          simp only [] at h
          cases h
          exact ih _ _ _ _ hrec
        · rw [if_neg hemp] at h
          cases h
          left
          by_contra hr
          have hc : es2 = [] :=
            mpl_pos_empty taker tk price es rem _ _ _ hmpl (Nat.pos_of_ne_zero hr)
          rw [hc] at hemp
          simp at hemp
      · simp only [matchLevels, if_neg h0, if_neg hg] at h
        cases h
        exact Or.inr (Or.inr ⟨price, es, rest, rfl, by simpa using hg⟩)

lemma matchLevels_trades_shape (taker : DBOrder) (tk : String) (g : Nat → Bool) :
    ∀ (levels : BookSide) (rem : Nat) ts r lv2,
      matchLevels taker tk g levels rem = (ts, r, lv2) →
      (∀ lv ∈ levels, ∀ e ∈ lv.2, 0 < e.remaining_quantity) →
      ∀ t ∈ ts, ∃ p es, (p, es) ∈ levels ∧ g p = true ∧
        ∃ e ∈ es, ∃ q, 0 < q ∧ q ≤ e.remaining_quantity ∧
          t = create_trade taker e q p tk := by
  intro levels
  induction levels with
  | nil =>
    intro rem ts r lv2 h _ t ht
    simp [matchLevels] at h
    rw [h.1] at ht
    simp at ht
  | cons lv rest ih =>
    rcases lv with ⟨price, es⟩
    intro rem ts r lv2 h hwf t ht
    by_cases h0 : rem = 0
    · subst h0
      simp [matchLevels] at h
      rw [h.1] at ht
      simp at ht
    · by_cases hg : g price
      · simp only [matchLevels, if_neg h0, if_pos hg] at h
        rcases hmpl : match_at_price_level taker tk price es rem with ⟨ts1, r1, es2⟩
        rw [hmpl] at h
        simp only [] at h
        have hhd : ∀ t2 ∈ ts1, ∃ p2 es3, (p2, es3) ∈ (price, es) :: rest ∧ g p2 = true ∧
            ∃ e ∈ es3, ∃ q, 0 < q ∧ q ≤ e.remaining_quantity ∧
              t2 = create_trade taker e q p2 tk := by
          intro t2 ht2
          obtain ⟨e, he, q, hq1, hq2, heq⟩ := mpl_trades_shape taker tk price es rem
            ts1 r1 es2 hmpl (fun y hy => hwf (price, es) (List.mem_cons_self _ _) y hy)
            t2 ht2
          exact ⟨price, es, List.mem_cons_self _ _, hg, e, he, q, hq1, hq2, heq⟩
        by_cases hemp : es2.isEmpty
        · rw [if_pos hemp] at h
          rcases hrec : matchLevels taker tk g rest r1 with ⟨ts2, r2, lv3⟩
          rw [hrec] at h
          simp only [] at h
          cases h
          rcases List.mem_append.mp ht with ht | ht
          · exact hhd t ht
          · obtain ⟨p2, es3, hm, hg2, rest2⟩ := ih _ _ _ _ hrec
              (fun y hy => hwf y (List.mem_cons_of_mem _ hy)) t ht
            exact ⟨p2, es3, List.mem_cons_of_mem _ hm, hg2, rest2⟩
        · rw [if_neg hemp] at h
          cases h
          exact hhd t ht
      · simp only [matchLevels, if_neg h0, if_neg hg] at h
        cases h
        simp at ht

lemma matchLevels_survivors_pos (taker : DBOrder) (tk : String) (g : Nat → Bool) :
    ∀ (levels : BookSide) (rem : Nat) ts r lv2,
      matchLevels taker tk g levels rem = (ts, r, lv2) →
      (∀ lv ∈ levels, ∀ e ∈ lv.2, 0 < e.remaining_quantity) →
      ∀ lv ∈ lv2, ∀ e ∈ lv.2, 0 < e.remaining_quantity := by
  intro levels
  induction levels with
  | nil =>
    intro rem ts r lv2 h _ lv hlv
    simp [matchLevels] at h
    rw [h.2.2] at hlv
    simp at hlv
  | cons lv0 rest ih =>
    rcases lv0 with ⟨price, es⟩
    intro rem ts r lv2 h hwf lv hlv
    by_cases h0 : rem = 0
    · subst h0
      simp [matchLevels] at h
      rw [← h.2.2] at hlv
      exact hwf lv hlv
    · by_cases hg : g price
      · simp only [matchLevels, if_neg h0, if_pos hg] at h
        rcases hmpl : match_at_price_level taker tk price es rem with ⟨ts1, r1, es2⟩
        rw [hmpl] at h
        simp only [] at h
        by_cases hemp : es2.isEmpty
        · rw [if_pos hemp] at h
          rcases hrec : matchLevels taker tk g rest r1 with ⟨ts2, r2, lv3⟩
          rw [hrec] at h
          simp only [] at h
          cases h
          exact ih _ _ _ _ hrec (fun y hy => hwf y (List.mem_cons_of_mem _ hy)) lv hlv
        · rw [if_neg hemp] at h
          cases h
          rcases List.mem_cons.mp hlv with hlv | hlv
          · subst hlv
            intro e he
            exact mpl_survivors_pos taker tk price es rem _ _ _ hmpl
              (fun y hy => hwf (price, es) (List.mem_cons_self _ _) y hy) e he
          · exact hwf lv (List.mem_cons_of_mem _ hlv)
      · simp only [matchLevels, if_neg h0, if_neg hg] at h
        cases h
        exact hwf lv hlv

lemma matchLevels_head_fifo (taker : DBOrder) (tk : String) (g : Nat → Bool)
    (price : Nat) (e : OrderBookEntry) (es : List OrderBookEntry) (rest : BookSide)
    (rem : Nat) (h0 : rem ≠ 0) (hg : g price = true) :
    (matchLevels taker tk g ((price, e :: es) :: rest) rem).1.head? =
      some (create_trade taker e (min rem e.remaining_quantity) price tk) := by
  simp only [matchLevels, if_neg h0, hg, if_true]
  rcases hmpl : match_at_price_level taker tk price (e :: es) rem with ⟨ts1, r1, es2⟩
  have hh := mpl_head_fifo taker tk price e es rem h0
  rw [hmpl] at hh
  simp only [] at hh ⊢
  by_cases hemp : es2.isEmpty
  · rw [if_pos hemp]
    rcases hrec : matchLevels taker tk g rest r1 with ⟨ts2, r2, lv3⟩
    simp only []
    cases ts1 with
    | nil => simp at hh
    | cons t ts1 =>
      simp at hh ⊢
      exact hh
  · rw [if_neg hemp]
    simpa using hh

end OrderBookMatcher

/-- The effect of one trade on a FIFO queue: the trade's maker is
decremented by the trade quantity and dropped exactly when its remaining
reaches zero; other entries are untouched. -/
def consumeEntry (makerId q : Nat) : List OrderBookEntry → List OrderBookEntry
  | [] => []
  | e :: es =>
    if e.order_id = makerId then
      if e.remaining_quantity - q = 0 then es
      else { e with remaining_quantity := e.remaining_quantity - q } :: es
    else e :: consumeEntry makerId q es

/-- The effect of one trade on a side: consume the maker inside the first
level holding it, deleting the level when its queue empties. -/
def consumeLevel (makerId q : Nat) : BookSide → BookSide
  | [] => []
  | (p, es) :: rest =>
    if es.any (fun e => e.order_id = makerId) then
      let es2 := consumeEntry makerId q es
      if es2.isEmpty then rest else (p, es2) :: rest
    else (p, es) :: consumeLevel makerId q rest

/-- Fold a trade list over a side, oldest trade first. -/
def consumeSide (side : BookSide) (ts : List TradeData) : BookSide :=
  ts.foldl (fun l t => consumeLevel t.maker_order_id t.quantity l) side

namespace OrderBookMatcher

lemma mpl_consume_lift (taker : DBOrder) (tk : String) (p : Nat) :
    ∀ (es : List OrderBookEntry) (rem : Nat) ts r es2,
      es ≠ [] →
      match_at_price_level taker tk p es rem = (ts, r, es2) →
      ∀ rest, consumeSide ((p, es) :: rest) ts =
        if es2.isEmpty then rest else (p, es2) :: rest := by
  intro es
  induction es with
  | nil => intro rem ts r es2 hne; exact absurd rfl hne
  | cons e es ih =>
    intro rem ts r es2 _ h rest
    by_cases h0 : rem = 0
    · subst h0
      simp [match_at_price_level] at h
      rw [h.1, ← h.2.2]
      simp [consumeSide]
    · simp only [match_at_price_level, if_neg h0] at h
      rcases hrec : match_at_price_level taker tk p es (rem - min rem e.remaining_quantity)
        with ⟨ts', r', es2'⟩
      rw [hrec] at h
      simp only [] at h
      by_cases hz : e.remaining_quantity - min rem e.remaining_quantity = 0
      · rw [if_pos hz] at h
        cases h
        have hcl : consumeLevel e.order_id (min rem e.remaining_quantity)
            ((p, e :: es) :: rest) = if es.isEmpty then rest else (p, es) :: rest := by
          simp [consumeLevel, consumeEntry, hz]
        simp only [consumeSide, List.foldl_cons, create_trade_maker, create_trade_quantity]
        rw [hcl]
        cases es with
        | nil =>
          simp [match_at_price_level] at hrec
          rw [hrec.1, ← hrec.2.2]
          simp [consumeSide]
        | cons e2 es3 =>
          have hlift := ih _ _ _ _ (by simp) hrec rest
          simp only [consumeSide] at hlift
          simpa using hlift
      · rw [if_neg hz] at h
        have hfill : min rem e.remaining_quantity = rem := by omega
        rw [hfill, Nat.sub_self, mpl_zero] at hrec
        cases hrec
        cases h
        have hcl : consumeLevel e.order_id (min rem e.remaining_quantity)
            ((p, e :: es) :: rest)
            = (p, { e with remaining_quantity :=
                e.remaining_quantity - min rem e.remaining_quantity } :: es) :: rest := by
          simp [consumeLevel, consumeEntry, hz]
        simp only [consumeSide, List.foldl_cons, List.foldl_nil,
          create_trade_maker, create_trade_quantity]
        rw [hcl]
        simp

lemma matchLevels_fold (taker : DBOrder) (tk : String) (g : Nat → Bool) :
    ∀ (levels : BookSide) (rem : Nat) ts r lv2,
      (∀ lv ∈ levels, lv.2 ≠ []) →
      matchLevels taker tk g levels rem = (ts, r, lv2) →
      lv2 = consumeSide levels ts := by
  intro levels
  induction levels with
  | nil =>
    intro rem ts r lv2 _ h
    simp [matchLevels] at h
    rw [h.1, ← h.2.2]
    simp [consumeSide]
  | cons lv0 rest ih =>
    rcases lv0 with ⟨price, es⟩
    intro rem ts r lv2 hne h
    by_cases h0 : rem = 0
    · subst h0
      simp [matchLevels] at h
      rw [h.1, ← h.2.2]
      simp [consumeSide]
    · by_cases hg : g price
      · simp only [matchLevels, if_neg h0, if_pos hg] at h
        rcases hmpl : match_at_price_level taker tk price es rem with ⟨ts1, r1, es2⟩
        rw [hmpl] at h
        simp only [] at h
        have hlift := mpl_consume_lift taker tk price es rem ts1 r1 es2
          (hne (price, es) (List.mem_cons_self _ _)) hmpl rest
        by_cases hemp : es2.isEmpty
        · rw [if_pos hemp] at h
          rcases hrec : matchLevels taker tk g rest r1 with ⟨ts2, r2, lv3⟩
          rw [hrec] at h
          simp only [] at h
          have hrest := ih r1 ts2 r2 lv3 (fun y hy => hne y (List.mem_cons_of_mem _ hy)) hrec
          cases h
          rw [if_pos hemp] at hlift
          simp only [consumeSide] at hlift hrest ⊢
          rw [List.foldl_append, hlift]
          exact hrest
        · rw [if_neg hemp] at h
          cases h
          rw [if_neg hemp] at hlift
          exact hlift.symm
      · simp only [matchLevels, if_neg h0, if_neg hg] at h
        cases h
        simp [consumeSide]

lemma insertEntry_mem_level (bf : Nat → Nat → Bool) (p : Nat) (entry : OrderBookEntry) :
    ∀ sd : BookSide, ∃ es, (p, es) ∈ OrderBook.insertEntry bf p entry sd ∧ entry ∈ es := by
  intro sd
  induction sd with
  | nil => exact ⟨[entry], by simp [OrderBook.insertEntry], by simp⟩
  | cons lv rest ih =>
    rcases lv with ⟨q, es⟩
    by_cases hq : p = q
    · subst hq
      exact ⟨es ++ [entry], by simp [OrderBook.insertEntry], by simp⟩
    · by_cases hb : bf p q
      · exact ⟨[entry], by simp [OrderBook.insertEntry, hq, hb], by simp⟩
      · obtain ⟨es2, hmem, hentry⟩ := ih
        refine ⟨es2, ?_, hentry⟩
        simp only [OrderBook.insertEntry, if_neg hq, if_neg hb]
        exact List.mem_cons_of_mem _ hmem

/-- C2: for a LIMIT order carrying limit price `lp`, `_match_limit_order`
succeeds and (1) leaves the order's own side untouched, (2) transforms the
opposite side by consuming, per emitted trade and in order, exactly that
trade's maker by the trade quantity — removing a maker precisely when its
remaining reaches zero, (3) returns the unmatched remainder (remainder
plus the traded quantity equals the order's open quantity), (4) trades
only at crossable prices (BUY: price ≤ limit, SELL: price ≥ limit),
(5) builds every trade with `_create_trade` from a resting maker of a
crossable level at that level's price with a positive fill within the
maker's remaining, (6) takes the first maker of the best crossable level
first with fill min(taker remaining, maker remaining) (FIFO), (7) leaves
no empty-remaining maker behind, (8) stops exactly when the remainder is
zero, the opposite side is exhausted, or the best remaining level is not
crossable, and (9) a positive remainder then rests in the book at the
limit price (the processor adds it via `add_order_to_book`). -/
theorem c2_limit_match_spec (book : OrderBook) (order : DBOrder) (lp : Nat)
    (hlp : order.limit_price = some lp)
    (hwf : ∀ lv ∈ oppSide book order.side, ∀ e ∈ lv.2, 0 < e.remaining_quantity)
    (hne : ∀ lv ∈ oppSide book order.side, lv.2 ≠ []) :
    (match_limit_order book order).isSome ∧
    ∀ ts r book2, match_limit_order book order = some (ts, r, book2) →
      ownSide book2 order.side = ownSide book order.side ∧
      oppSide book2 order.side = consumeSide (oppSide book order.side) ts ∧
      r + sumQty ts = order.quantity - order.filled_quantity ∧
      (∀ t ∈ ts, (order.side = Side.BUY → t.price_in_cents ≤ lp) ∧
        (order.side = Side.SELL → lp ≤ t.price_in_cents)) ∧
      (∀ t ∈ ts, ∃ p es, (p, es) ∈ oppSide book order.side ∧
        limitGuard order.side lp p = true ∧ ∃ e ∈ es, ∃ q, 0 < q ∧
          q ≤ e.remaining_quantity ∧ t = create_trade order e q p book.ticker) ∧
      (∀ p e es2 rest2, oppSide book order.side = (p, e :: es2) :: rest2 →
        limitGuard order.side lp p = true →
        order.quantity - order.filled_quantity ≠ 0 →
        ts.head? = some (create_trade order e
          (min (order.quantity - order.filled_quantity) e.remaining_quantity)
          p book.ticker)) ∧
      (∀ lv ∈ oppSide book2 order.side, ∀ e ∈ lv.2, 0 < e.remaining_quantity) ∧
      (r = 0 ∨ oppSide book2 order.side = [] ∨ ∃ p es rest2,
        oppSide book2 order.side = (p, es) :: rest2 ∧
        limitGuard order.side lp p = false) ∧
      (∀ o2 : DBOrder, o2.order_type = OrderType.LIMIT → o2.side = order.side →
        o2.limit_price = some lp → o2.quantity - o2.filled_quantity = r → 0 < r →
        ∃ es, (lp, es) ∈ ownSide (add_order_to_book book2 o2) o2.side ∧
          ({ order_id := o2.order_id, trader_id := o2.trader_id,
             quantity := o2.quantity, remaining_quantity := r,
             price_in_cents := lp, sequence := o2.sequence } : OrderBookEntry) ∈ es) := by
  cases hs : order.side with
  | BUY =>
    rcases hm : matchLevels order book.ticker (limitGuard Side.BUY lp) book.asks
      (order.quantity - order.filled_quantity) with ⟨ts1, r1, side2⟩
    rw [show oppSide book order.side = book.asks from by rw [hs]; rfl] at hwf hne
    have heq : match_limit_order book order =
        some (ts1, r1, { book with asks := side2 }) := by
      simp only [match_limit_order, hlp, hs, hm]
    constructor
    · simp [heq]
    · intro ts r book2 h2
      rw [heq] at h2
      simp only [Option.some.injEq, Prod.mk.injEq] at h2
      obtain ⟨rfl, rfl, rfl⟩ := h2
      have hcons := matchLevels_conservation order book.ticker _ _ _ _ _ _ hm
      have hshape := matchLevels_trades_shape order book.ticker _ _ _ _ _ _ hm hwf
      have hsurv := matchLevels_survivors_pos order book.ticker _ _ _ _ _ _ hm hwf
      have hstop := matchLevels_stop order book.ticker _ _ _ _ _ _ hm
      have hfold := matchLevels_fold order book.ticker _ _ _ _ _ _ hne hm
      refine ⟨rfl, hfold, hcons, ?_, ?_, ?_, ?_, ?_, ?_⟩
      · intro t ht
        obtain ⟨p, es, _, hg, e, _, q, _, _, hteq⟩ := hshape t ht
        have hp : t.price_in_cents = p := by simp [hteq]
        simp only [limitGuard] at hg
        constructor
        · intro _
          rw [hp]
          exact Nat.le_of_ble_eq_true (by simpa using hg)
        · intro hc
          cases hc
      · intro t ht
        obtain ⟨p, es, hmem, hg, e, he, q, hq1, hq2, hteq⟩ := hshape t ht
        exact ⟨p, es, hmem, hg, e, he, q, hq1, hq2, hteq⟩
      · intro p e es2 rest2 hbook hg hrem
        have hff := matchLevels_head_fifo order book.ticker (limitGuard Side.BUY lp)
          p e es2 rest2 (order.quantity - order.filled_quantity) hrem hg
        have hbook2 : book.asks = (p, e :: es2) :: rest2 := hbook
        rw [hbook2] at hm
        rw [hm] at hff
        simpa using hff
      · intro lv hlv
        exact hsurv lv hlv
      · rcases hstop with h | h | ⟨p, es, rest2, hlv, hg⟩
        · exact Or.inl h
        · exact Or.inr (Or.inl h)
        · exact Or.inr (Or.inr ⟨p, es, rest2, hlv, hg⟩)
      · intro o2 hty hside hlp2 hrem hr
        have hnf : ¬ o2.quantity ≤ o2.filled_quantity := by omega
        simp only [add_order_to_book, hty, hlp2, hside, if_neg hnf]
        rw [if_neg (show ¬ (OrderType.LIMIT ≠ OrderType.LIMIT) from by simp)]
        simp only [OrderBook.add_order, ownSide]
        obtain ⟨es, hmem, hentry⟩ := insertEntry_mem_level
          (OrderBook.sideBefore Side.BUY) lp
          { order_id := o2.order_id, trader_id := o2.trader_id,
            quantity := o2.quantity,
            remaining_quantity := o2.quantity - o2.filled_quantity,
            price_in_cents := lp, sequence := o2.sequence } book.bids
        rw [hrem] at hentry
        exact ⟨es, hmem, hentry⟩
  | SELL =>
    rcases hm : matchLevels order book.ticker (limitGuard Side.SELL lp) book.bids
      (order.quantity - order.filled_quantity) with ⟨ts1, r1, side2⟩
    rw [show oppSide book order.side = book.bids from by rw [hs]; rfl] at hwf hne
    have heq : match_limit_order book order =
        some (ts1, r1, { book with bids := side2 }) := by
      simp only [match_limit_order, hlp, hs, hm]
    constructor
    · simp [heq]
    · intro ts r book2 h2
      rw [heq] at h2
      simp only [Option.some.injEq, Prod.mk.injEq] at h2
      obtain ⟨rfl, rfl, rfl⟩ := h2
      have hcons := matchLevels_conservation order book.ticker _ _ _ _ _ _ hm
      have hshape := matchLevels_trades_shape order book.ticker _ _ _ _ _ _ hm hwf
      have hsurv := matchLevels_survivors_pos order book.ticker _ _ _ _ _ _ hm hwf
      have hstop := matchLevels_stop order book.ticker _ _ _ _ _ _ hm
      have hfold := matchLevels_fold order book.ticker _ _ _ _ _ _ hne hm
      refine ⟨rfl, hfold, hcons, ?_, ?_, ?_, ?_, ?_, ?_⟩
      · intro t ht
        obtain ⟨p, es, _, hg, e, _, q, _, _, hteq⟩ := hshape t ht
        have hp : t.price_in_cents = p := by simp [hteq]
        simp only [limitGuard] at hg
        constructor
        · intro hc
          cases hc
        · intro _
          rw [hp]
          exact Nat.le_of_ble_eq_true (by simpa using hg)
      · intro t ht
        obtain ⟨p, es, hmem, hg, e, he, q, hq1, hq2, hteq⟩ := hshape t ht
        exact ⟨p, es, hmem, hg, e, he, q, hq1, hq2, hteq⟩
      · intro p e es2 rest2 hbook hg hrem
        have hff := matchLevels_head_fifo order book.ticker (limitGuard Side.SELL lp)
          p e es2 rest2 (order.quantity - order.filled_quantity) hrem hg
        have hbook2 : book.bids = (p, e :: es2) :: rest2 := hbook
        rw [hbook2] at hm
        rw [hm] at hff
        simpa using hff
      · intro lv hlv
        exact hsurv lv hlv
      · rcases hstop with h | h | ⟨p, es, rest2, hlv, hg⟩
        · exact Or.inl h
        · exact Or.inr (Or.inl h)
        · exact Or.inr (Or.inr ⟨p, es, rest2, hlv, hg⟩)
      · intro o2 hty hside hlp2 hrem hr
        have hnf : ¬ o2.quantity ≤ o2.filled_quantity := by omega
        simp only [add_order_to_book, hty, hlp2, hside, if_neg hnf]
        rw [if_neg (show ¬ (OrderType.LIMIT ≠ OrderType.LIMIT) from by simp)]
        simp only [OrderBook.add_order, ownSide]
        obtain ⟨es, hmem, hentry⟩ := insertEntry_mem_level
          (OrderBook.sideBefore Side.SELL) lp
          { order_id := o2.order_id, trader_id := o2.trader_id,
            quantity := o2.quantity,
            remaining_quantity := o2.quantity - o2.filled_quantity,
            price_in_cents := lp, sequence := o2.sequence } book.asks
        rw [hrem] at hentry
        exact ⟨es, hmem, hentry⟩

end OrderBookMatcher

lemma getOrder?_some_id (store : OrderStore) (oid : Nat) (o : DBOrder)
    (h : getOrder? store oid = some o) : o.order_id = oid := by
  have := List.find?_some h
  simpa using this

lemma getOrder?_setOrder_ne (store : OrderStore) (o : DBOrder) (i : Nat)
    (hi : i ≠ o.order_id) : getOrder? (setOrder store o) i = getOrder? store i := by
  induction store with
  | nil => rfl
  | cons x st ih =>
    simp only [setOrder, List.map_cons, getOrder?, List.find?_cons] at ih ⊢
    by_cases hx : x.order_id = o.order_id
    · rw [if_pos hx]
      have h1 : (decide (o.order_id = i)) = false := by
        simp only [decide_eq_false_iff_not]
        omega
      have h2 : (decide (x.order_id = i)) = false := by
        simp only [decide_eq_false_iff_not]
        omega
      simp only [h1, h2]
      exact ih
    · rw [if_neg hx]
      by_cases hxi : x.order_id = i
      · have h2 : (decide (x.order_id = i)) = true := by simp [hxi]
        simp only [h2]
      · have h2 : (decide (x.order_id = i)) = false := by
          simp only [decide_eq_false_iff_not]
          omega
        simp only [h2]
        exact ih

lemma getOrder?_setOrder_eq (store : OrderStore) (o : DBOrder) :
    getOrder? (setOrder store o) o.order_id =
      (getOrder? store o.order_id).map (fun _ => o) := by
  induction store with
  | nil => rfl
  | cons x st ih =>
    simp only [setOrder, List.map_cons, getOrder?, List.find?_cons] at ih ⊢
    by_cases hx : x.order_id = o.order_id
    · rw [if_pos hx]
      have h1 : (decide (o.order_id = o.order_id)) = true := by simp
      have h2 : (decide (x.order_id = o.order_id)) = true := by simp [hx]
      simp only [h1, h2]
      rfl
    · rw [if_neg hx]
      have h2 : (decide (x.order_id = o.order_id)) = false := by
        simp only [decide_eq_false_iff_not]
        omega
      simp only [h2]
      exact ih

/-- The fields `update_filled` never touches. -/
def sameCore (a b : DBOrder) : Prop :=
  a.order_id = b.order_id ∧ a.trader_id = b.trader_id ∧ a.ticker = b.ticker ∧
  a.side = b.side ∧ a.order_type = b.order_type ∧ a.quantity = b.quantity ∧
  a.limit_price = b.limit_price ∧ a.sequence = b.sequence

lemma sameCore_refl (a : DBOrder) : sameCore a a :=
  ⟨rfl, rfl, rfl, rfl, rfl, rfl, rfl, rfl⟩

lemma sameCore_trans (a b c : DBOrder) (h1 : sameCore a b) (h2 : sameCore b c) :
    sameCore a c := by
  obtain ⟨a1, a2, a3, a4, a5, a6, a7, a8⟩ := h1
  obtain ⟨b1, b2, b3, b4, b5, b6, b7, b8⟩ := h2
  exact ⟨a1.trans b1, a2.trans b2, a3.trans b3, a4.trans b4, a5.trans b5,
    a6.trans b6, a7.trans b7, a8.trans b8⟩

lemma update_filled_row_core (o : DBOrder) (d : Nat) (o2 : DBOrder)
    (h : OrderRepository.update_filled_row o d = Except.ok o2) : sameCore o o2 := by
  simp only [OrderRepository.update_filled_row] at h
  by_cases hv : o.quantity < o.filled_quantity + d
  · rw [if_pos hv] at h
    cases h
  · rw [if_neg hv] at h
    by_cases hfull : o.quantity ≤ o.filled_quantity + d
    · rw [if_pos hfull] at h
      cases h
      exact ⟨rfl, rfl, rfl, rfl, rfl, rfl, rfl, rfl⟩
    · rw [if_neg hfull] at h
      by_cases hpos : 0 < o.filled_quantity + d
      · rw [if_pos hpos] at h
        cases h
        exact ⟨rfl, rfl, rfl, rfl, rfl, rfl, rfl, rfl⟩
      · rw [if_neg hpos] at h
        cases h
        exact ⟨rfl, rfl, rfl, rfl, rfl, rfl, rfl, rfl⟩

lemma update_filled_store_core (store : OrderStore) (oid d : Nat)
    (store2 : OrderStore)
    (h : OrderRepository.update_filled_without_commit store oid d = Except.ok store2) :
    ∀ i o, getOrder? store i = some o →
      ∃ o2, getOrder? store2 i = some o2 ∧ sameCore o o2 := by
  intro i o hget
  simp only [OrderRepository.update_filled_without_commit] at h
  rcases hfind : getOrder? store oid with _ | orow
  · rw [hfind] at h
    cases h
  · rw [hfind] at h
    simp only [] at h
    rcases hrow : OrderRepository.update_filled_row orow d with e | orow2
    · rw [hrow] at h
      cases h
    · rw [hrow] at h
      simp only [Except.map] at h
      cases h
      have hid : orow.order_id = oid := getOrder?_some_id store oid orow hfind
      have hcore := update_filled_row_core orow d orow2 hrow
      have hid2 : orow2.order_id = oid := by
        rw [← hcore.1]
        exact hid
      by_cases hi : i = oid
      · subst hi
        rw [hget] at hfind
        injection hfind with hoo
        subst hoo
        refine ⟨orow2, ?_, hcore⟩
        rw [← hid2, getOrder?_setOrder_eq, hid2, hget]
        rfl
      · refine ⟨o, ?_, sameCore_refl o⟩
        rw [getOrder?_setOrder_ne store orow2 i (by omega), hget]

namespace SymbolOrderProcessor

lemma applyTrade_ok (ticker : String) (s : EngineState) (t : TradeData)
    (s2 : EngineState) (h : applyTrade ticker s t = Except.ok s2) :
    s2.book.bids = s.book.bids ∧ s2.book.asks = s.book.asks ∧
    s2.book.ticker = s.book.ticker ∧ s2.trades = s.trades ++ [t] ∧
    (∀ i o, getOrder? s.store i = some o →
      ∃ o2, getOrder? s2.store i = some o2 ∧ sameCore o o2) := by
  simp only [applyTrade] at h
  rcases hsell : PositionRepository.update_for_sell_without_commit
      (PositionRepository.update_for_buy_without_commit s.positions t.buyer_id
        ticker t.quantity t.price_in_cents) t.seller_id ticker t.quantity
    with e | pos2
  · rw [hsell] at h
    cases h
  · rw [hsell] at h
    simp only [] at h
    rcases hbuy : OrderRepository.update_filled_without_commit s.store
        t.buy_order_id t.quantity with e | store1
    · rw [hbuy] at h
      cases h
    · rw [hbuy] at h
      simp only [] at h
      rcases hsello : OrderRepository.update_filled_without_commit store1
          t.sell_order_id t.quantity with e | store2
      · rw [hsello] at h
        cases h
      · rw [hsello] at h
        simp only [] at h
        cases h
        refine ⟨rfl, rfl, rfl, rfl, ?_⟩
        intro i o hget
        obtain ⟨ob, hb, hcb⟩ := update_filled_store_core s.store t.buy_order_id
          t.quantity store1 hbuy i o hget
        obtain ⟨oc, hc, hcc⟩ := update_filled_store_core store1 t.sell_order_id
          t.quantity store2 hsello i ob hb
        exact ⟨oc, hc, sameCore_trans o ob oc hcb hcc⟩

lemma applyTrades_ok (ticker : String) :
    ∀ (ts : List TradeData) (s s2 : EngineState),
      applyTrades ticker s ts = Except.ok s2 →
      s2.book.bids = s.book.bids ∧ s2.book.asks = s.book.asks ∧
      s2.book.ticker = s.book.ticker ∧ s2.trades = s.trades ++ ts ∧
      (∀ i o, getOrder? s.store i = some o →
        ∃ o2, getOrder? s2.store i = some o2 ∧ sameCore o o2) := by
  intro ts
  induction ts with
  | nil =>
    intro s s2 h
    simp only [applyTrades] at h
    cases h
    exact ⟨rfl, rfl, rfl, by simp, fun i o hget => ⟨o, hget, sameCore_refl o⟩⟩
  | cons t ts ih =>
    intro s s2 h
    simp only [applyTrades] at h
    rcases h1 : applyTrade ticker s t with e | s1
    · rw [h1] at h
      cases h
    · rw [h1] at h
      simp only [] at h
      obtain ⟨hb1, ha1, ht1, htr1, hcore1⟩ := applyTrade_ok ticker s t s1 h1
      obtain ⟨hb2, ha2, ht2, htr2, hcore2⟩ := ih s1 s2 h
      refine ⟨hb2.trans hb1, ha2.trans ha1, ht2.trans ht1, ?_, ?_⟩
      · rw [htr2, htr1]
        simp
      · intro i o hget
        obtain ⟨ob, hb, hcb⟩ := hcore1 i o hget
        obtain ⟨oc, hc, hcc⟩ := hcore2 i ob hb
        exact ⟨oc, hc, sameCore_trans o ob oc hcb hcc⟩

end SymbolOrderProcessor

namespace OrderBookMatcher

open SymbolOrderProcessor

/-- C6: a MARKET order sweeps the opposite side with no price guard: it
leaves the order object untouched, its fills plus remainder account for
the full open quantity, it stops exactly when the remainder is zero or
the opposite side is empty, an empty opposite book yields zero trades and
an unchanged book, `add_order_to_book` never rests a market order, and
the processor commits the post-match book unchanged (the remainder is
discarded, not rested). -/
theorem c6_market_sweep (book : OrderBook) (order : DBOrder)
    (hmk : order.order_type = OrderType.MARKET) :
    (match_order book order).isSome ∧
    ∀ res : MatchResult, match_order book order = some res →
      res.order = order ∧
      res.remaining + sumQty res.trades = order.quantity - order.filled_quantity ∧
      (res.remaining = 0 ∨ oppSide res.book order.side = []) ∧
      (oppSide book order.side = [] → res.trades = [] ∧
        res.remaining = order.quantity - order.filled_quantity ∧ res.book = book) ∧
      (∀ b, add_order_to_book b order = b) ∧
      (∀ s s2 : EngineState, s.book = book →
        getOrder? s.store order.order_id = some order →
        processNewOrder s order.order_id = Except.ok s2 →
        s2.book.bids = res.book.bids ∧ s2.book.asks = res.book.asks) := by
  have heq : match_order book order = some (match_market_order book order) := by
    simp only [match_order, hmk]
  have hnorest : ∀ b, add_order_to_book b order = b := by
    intro b
    simp [add_order_to_book, hmk]
  cases hs : order.side with
  | BUY =>
    rcases hm : matchLevels order book.ticker (fun _ => true) book.asks
      (order.quantity - order.filled_quantity) with ⟨ts1, r1, side2⟩
    have hres2 : match_market_order book order =
        ⟨order, ts1, r1, { book with asks := side2 }⟩ := by
      simp only [match_market_order, match_aggressive, hs, hm]
    rw [hres2] at heq
    refine ⟨by simp [heq], ?_⟩
    intro res hres
    rw [heq] at hres
    injection hres with hres
    subst hres
    have hcons := matchLevels_conservation order book.ticker _ _ _ _ _ _ hm
    have hstop := matchLevels_stop order book.ticker _ _ _ _ _ _ hm
    refine ⟨rfl, hcons, ?_, ?_, hnorest, ?_⟩
    · rcases hstop with h | h | ⟨p, es, rest2, _, hg⟩
      · exact Or.inl h
      · exact Or.inr h
      · simp at hg
    · intro hemp
      have hemp2 : book.asks = [] := hemp
      rw [hemp2] at hm
      rw [show matchLevels order book.ticker (fun _ => true) []
        (order.quantity - order.filled_quantity)
        = ([], order.quantity - order.filled_quantity, []) from rfl] at hm
      injection hm with h1 hrest
      injection hrest with h2 h3
      refine ⟨h1.symm, h2.symm, ?_⟩
      simp only [← h3, ← hemp2]
    · intro s s2 hb hget hrun
      simp only [processNewOrder] at hrun
      rw [hget] at hrun
      simp only [] at hrun
      rw [hb, heq] at hrun
      simp only [] at hrun
      rcases happ : applyTrades book.ticker
          { s with store := setOrder s.store order,
                   book := { book with asks := side2 } } ts1 with e | sMid
      · rw [happ] at hrun
        cases hrun
      · rw [happ] at hrun
        simp only [] at hrun
        have hs1 : getOrder? (setOrder s.store order) order.order_id = some order := by
          rw [getOrder?_setOrder_eq, hget]
          rfl
        obtain ⟨o2, ho2, hcore⟩ := (applyTrades_ok book.ticker ts1 _ sMid happ).2.2.2.2
          order.order_id order hs1
        rw [ho2] at hrun
        simp only [] at hrun
        have hty2 : o2.order_type = OrderType.MARKET := by
          rw [← hcore.2.2.2.2.1]
          exact hmk
        have hcond : ¬ (0 < r1 ∧ o2.order_type = OrderType.LIMIT) := by
          intro hc
          rw [hty2] at hc
          cases hc.2
        rw [if_neg hcond] at hrun
        injection hrun with hrun
        subst hrun
        obtain ⟨hbids, hasks, _, _, _⟩ := applyTrades_ok book.ticker ts1 _ sMid happ
        exact ⟨hbids, hasks⟩
  | SELL =>
    rcases hm : matchLevels order book.ticker (fun _ => true) book.bids
      (order.quantity - order.filled_quantity) with ⟨ts1, r1, side2⟩
    have hres2 : match_market_order book order =
        ⟨order, ts1, r1, { book with bids := side2 }⟩ := by
      simp only [match_market_order, match_aggressive, hs, hm]
    rw [hres2] at heq
    refine ⟨by simp [heq], ?_⟩
    intro res hres
    rw [heq] at hres
    injection hres with hres
    subst hres
    have hcons := matchLevels_conservation order book.ticker _ _ _ _ _ _ hm
    have hstop := matchLevels_stop order book.ticker _ _ _ _ _ _ hm
    refine ⟨rfl, hcons, ?_, ?_, hnorest, ?_⟩
    · rcases hstop with h | h | ⟨p, es, rest2, _, hg⟩
      · exact Or.inl h
      · exact Or.inr h
      · simp at hg
    · intro hemp
      have hemp2 : book.bids = [] := hemp
      rw [hemp2] at hm
      rw [show matchLevels order book.ticker (fun _ => true) []
        (order.quantity - order.filled_quantity)
        = ([], order.quantity - order.filled_quantity, []) from rfl] at hm
      injection hm with h1 hrest
      injection hrest with h2 h3
      refine ⟨h1.symm, h2.symm, ?_⟩
      simp only [← h3, ← hemp2]
    · intro s s2 hb hget hrun
      simp only [processNewOrder] at hrun
      rw [hget] at hrun
      simp only [] at hrun
      rw [hb, heq] at hrun
      simp only [] at hrun
      rcases happ : applyTrades book.ticker
          { s with store := setOrder s.store order,
                   book := { book with bids := side2 } } ts1 with e | sMid
      · rw [happ] at hrun
        cases hrun
      · rw [happ] at hrun
        simp only [] at hrun
        have hs1 : getOrder? (setOrder s.store order) order.order_id = some order := by
          rw [getOrder?_setOrder_eq, hget]
          rfl
        obtain ⟨o2, ho2, hcore⟩ := (applyTrades_ok book.ticker ts1 _ sMid happ).2.2.2.2
          order.order_id order hs1
        rw [ho2] at hrun
        simp only [] at hrun
        have hty2 : o2.order_type = OrderType.MARKET := by
          rw [← hcore.2.2.2.2.1]
          exact hmk
        have hcond : ¬ (0 < r1 ∧ o2.order_type = OrderType.LIMIT) := by
          intro hc
          rw [hty2] at hc
          cases hc.2
        rw [if_neg hcond] at hrun
        injection hrun with hrun
        subst hrun
        obtain ⟨hbids, hasks, _, _, _⟩ := applyTrades_ok book.ticker ts1 _ sMid happ
        exact ⟨hbids, hasks⟩

end OrderBookMatcher

/-- Book for the C2 witness (the spec's scenario 3): asks 5 @ 50 and
5 @ 60. -/
def c2Book : OrderBook :=
  { ticker := "Y", bids := [],
    asks := [(50, [{ order_id := 4, trader_id := 10, quantity := 5,
                     remaining_quantity := 5, price_in_cents := 50, sequence := 4 }]),
             (60, [{ order_id := 5, trader_id := 10, quantity := 5,
                     remaining_quantity := 5, price_in_cents := 60, sequence := 5 }])],
    last_price_in_cents := none }

/-- Incoming order for the C2 witness: BUY LIMIT 8 @ 55. -/
def c2Order : DBOrder :=
  { order_id := 6, trader_id := 20, ticker := "Y", side := Side.BUY,
    order_type := OrderType.LIMIT, quantity := 8, limit_price := some 55,
    filled_quantity := 0, status := OrderStatus.PENDING, cancel_reason := none,
    sequence := 6 }

/-- Witness for C2 at scenario 3: the hypotheses hold, matching succeeds,
and it trades 5 @ 50 leaving remainder 3 with the 60 level untouched. -/
theorem c2_limit_match_witness :
    c2Order.limit_price = some 55 ∧
    (∀ lv ∈ oppSide c2Book c2Order.side, ∀ e ∈ lv.2, 0 < e.remaining_quantity) ∧
    (∀ lv ∈ oppSide c2Book c2Order.side, lv.2 ≠ []) ∧
    (OrderBookMatcher.match_limit_order c2Book c2Order).isSome ∧
    (OrderBookMatcher.match_limit_order c2Book c2Order).map
        (fun r => (r.1.map (fun t => (t.price_in_cents, t.quantity)), r.2.1,
          r.2.2.asks.map (fun lv => (lv.1, lv.2.length)))) =
      some ([(50, 5)], 3, [(60, 1)]) :=
  ⟨rfl, by decide, by decide,
   (OrderBookMatcher.c2_limit_match_spec c2Book c2Order 55 rfl (by decide)
     (by decide)).1, by rfl⟩

/-- Empty book for the C6 witness. -/
def c6Book : OrderBook :=
  { ticker := "X", bids := [], asks := [], last_price_in_cents := none }

/-- Incoming order for the C6 witness: MARKET BUY 7 into an empty book. -/
def c6Order : DBOrder :=
  { order_id := 3, trader_id := 20, ticker := "X", side := Side.BUY,
    order_type := OrderType.MARKET, quantity := 7, limit_price := none,
    filled_quantity := 0, status := OrderStatus.PENDING, cancel_reason := none,
    sequence := 3 }

/-- Witness for C6: the MARKET BUY against an empty ask book matches with
zero trades, full remainder, and an unchanged (empty) book. -/
theorem c6_market_sweep_witness :
    c6Order.order_type = OrderType.MARKET ∧
    (OrderBookMatcher.match_order c6Book c6Order).isSome ∧
    (OrderBookMatcher.match_order c6Book c6Order).map
        (fun r => (r.trades, r.remaining, r.book.bids, r.book.asks)) =
      some ([], 7, [], []) :=
  ⟨rfl, (OrderBookMatcher.c6_market_sweep c6Book c6Order rfl).1, by rfl⟩

/-- Order ids resting on one side of the book. -/
def sideIds (sd : BookSide) : List Nat :=
  (OrderBook.sideEntries sd).map OrderBookEntry.order_id

/-- The book/store relation exactly as claim C5 states it: the book holds
exactly the durable orders whose status is PENDING or PARTIAL, and the
FIFO queue at each price level is ordered by sequence ascending. -/
def bookMatchesStore (s : EngineState) : Prop :=
  (∀ o ∈ s.store, ((o.status = OrderStatus.PENDING ∨ o.status = OrderStatus.PARTIAL) ↔
    o.order_id ∈ sideIds s.book.bids ++ sideIds s.book.asks)) ∧
  (∀ oid ∈ sideIds s.book.bids ++ sideIds s.book.asks,
    oid ∈ s.store.map DBOrder.order_id) ∧
  (∀ lv ∈ s.book.bids, (lv.2.map OrderBookEntry.sequence).Pairwise (fun a b => a < b)) ∧
  (∀ lv ∈ s.book.asks, (lv.2.map OrderBookEntry.sequence).Pairwise (fun a b => a < b))

/-- The corrected book/store relation: restricted to LIMIT orders (the
only order type that ever rests). -/
def limitBookMatchesStore (s : EngineState) : Prop :=
  (∀ o ∈ s.store, ((o.order_type = OrderType.LIMIT ∧
    (o.status = OrderStatus.PENDING ∨ o.status = OrderStatus.PARTIAL)) ↔
    o.order_id ∈ sideIds s.book.bids ++ sideIds s.book.asks)) ∧
  (∀ oid ∈ sideIds s.book.bids ++ sideIds s.book.asks,
    oid ∈ s.store.map DBOrder.order_id) ∧
  (∀ lv ∈ s.book.bids, (lv.2.map OrderBookEntry.sequence).Pairwise (fun a b => a < b)) ∧
  (∀ lv ∈ s.book.asks, (lv.2.map OrderBookEntry.sequence).Pairwise (fun a b => a < b))

/-- Well-formedness of one book side: level keys strictly ordered by the
side's key order, no empty level, entry price fields match their level
key, and FIFO queues ascending by sequence. -/
def SideWf (kord : Nat → Nat → Prop) (sd : BookSide) : Prop :=
  (sd.map Prod.fst).Pairwise kord ∧
  (∀ lv ∈ sd, lv.2 ≠ []) ∧
  (∀ lv ∈ sd, ∀ e ∈ lv.2, e.price_in_cents = lv.1) ∧
  (∀ lv ∈ sd, (lv.2.map OrderBookEntry.sequence).Pairwise (fun a b => a < b))

/-- A book entry mirrors its durable row: a live LIMIT order of the given
side resting at its limit price with remaining = quantity - filled. -/
def EntryAligned (st : OrderStore) (side : Side) (e : OrderBookEntry) : Prop :=
  ∃ o, getOrder? st e.order_id = some o ∧ o.side = side ∧
    o.order_type = OrderType.LIMIT ∧
    (o.status = OrderStatus.PENDING ∨ o.status = OrderStatus.PARTIAL) ∧
    o.limit_price = some e.price_in_cents ∧ o.trader_id = e.trader_id ∧
    o.sequence = e.sequence ∧ o.quantity = e.quantity ∧
    o.filled_quantity < o.quantity ∧
    e.remaining_quantity = o.quantity - o.filled_quantity

/-- The inductive invariant tying the processor's in-memory book to the
durable order store. -/
structure EngineInv (s : EngineState) : Prop where
  storeNodup : (s.store.map DBOrder.order_id).Nodup
  storeWf : ∀ o ∈ s.store, o.filled_quantity ≤ o.quantity ∧ 0 < o.quantity ∧
    (o.order_type = OrderType.LIMIT → o.limit_price.isSome)
  bidsWf : SideWf (fun a b => b < a) s.book.bids
  asksWf : SideWf (fun a b => a < b) s.book.asks
  bookNodup : (sideIds s.book.bids ++ sideIds s.book.asks).Nodup
  bidsAligned : ∀ e ∈ OrderBook.sideEntries s.book.bids, EntryAligned s.store Side.BUY e
  asksAligned : ∀ e ∈ OrderBook.sideEntries s.book.asks, EntryAligned s.store Side.SELL e
  covered : ∀ o ∈ s.store, o.order_type = OrderType.LIMIT →
    (o.status = OrderStatus.PENDING ∨ o.status = OrderStatus.PARTIAL) →
    o.order_id ∈ sideIds s.book.bids ++ sideIds s.book.asks

/-- The empty exchange for symbol X. -/
def emptyState : EngineState :=
  { store := [], trades := [], ledger := [], positions := [],
    book := { ticker := "X", bids := [], asks := [], last_price_in_cents := none } }

/-- MARKET BUY 7, the order of the C5 counterexample. -/
def c5MarketOrder : DBOrder :=
  { order_id := 30, trader_id := 20, ticker := "X", side := Side.BUY,
    order_type := OrderType.MARKET, quantity := 7, limit_price := none,
    filled_quantity := 0, status := OrderStatus.PENDING, cancel_reason := none,
    sequence := 30 }

/-- The state after the processor commits the MARKET BUY against the
empty book. -/
def c5CounterState : EngineState :=
  (SymbolOrderProcessor.stepMsg emptyState
    (SymbolOrderProcessor.EngineMsg.newOrder c5MarketOrder)).toOption.getD emptyState

/-- C5 counterexample: a MARKET BUY into an empty book commits
successfully, leaving the order durably PENDING while the book does not
contain it — the book does not hold exactly the PENDING/PARTIAL orders. -/
theorem c5_counterexample :
    SymbolOrderProcessor.stepMsg emptyState
      (SymbolOrderProcessor.EngineMsg.newOrder c5MarketOrder) =
      Except.ok c5CounterState ∧
    (getOrder? c5CounterState.store 30).map DBOrder.status =
      some OrderStatus.PENDING ∧
    ¬ bookMatchesStore c5CounterState := by
  refine ⟨rfl, rfl, ?_⟩
  unfold bookMatchesStore
  decide

lemma setOrder_ids (st : OrderStore) (o : DBOrder) :
    (setOrder st o).map DBOrder.order_id = st.map DBOrder.order_id := by
  induction st with
  | nil => rfl
  | cons x t ih =>
    simp only [setOrder, List.map_cons] at ih ⊢
    by_cases hx : x.order_id = o.order_id
    · rw [if_pos hx, hx]
      exact congrArg _ ih
    · rw [if_neg hx]
      exact congrArg _ ih

lemma mem_setOrder (st : OrderStore) (o : DBOrder) (x : DBOrder)
    (h : x ∈ setOrder st o) : x ∈ st ∨ x = o := by
  induction st with
  | nil => cases h
  | cons y t ih =>
    simp only [setOrder, List.map_cons] at h
    rcases List.mem_cons.mp h with h | h
    · by_cases hy : y.order_id = o.order_id
      · rw [if_pos hy] at h
        exact Or.inr h
      · rw [if_neg hy] at h
        exact Or.inl (h ▸ List.mem_cons_self _ _)
    · rcases ih h with h2 | h2
      · exact Or.inl (List.mem_cons_of_mem _ h2)
      · exact Or.inr h2

lemma mem_getOrder (st : OrderStore) (o : DBOrder)
    (hnd : (st.map DBOrder.order_id).Nodup) (ho : o ∈ st) :
    getOrder? st o.order_id = some o := by
  induction st with
  | nil => cases ho
  | cons x t ih =>
    simp only [List.map_cons, List.nodup_cons] at hnd
    rcases List.mem_cons.mp ho with h | h
    · subst h
      simp [getOrder?]
    · have hne : x.order_id ≠ o.order_id := by
        intro hc
        exact hnd.1 (hc ▸ List.mem_map_of_mem DBOrder.order_id h)
      simp only [getOrder?, List.find?_cons]
      have h2 : (decide (x.order_id = o.order_id)) = false := by
        simp only [decide_eq_false_iff_not]
        exact hne
      simp only [h2]
      exact ih hnd.2 h

/-- The row `update_filled_without_commit` writes back on success. -/
def bumpRow (o : DBOrder) (d : Nat) : DBOrder :=
  let o1 := { o with filled_quantity := o.filled_quantity + d }
  if o1.quantity ≤ o1.filled_quantity then { o1 with status := OrderStatus.FILLED }
  else if 0 < o1.filled_quantity then { o1 with status := OrderStatus.PARTIAL }
  else o1

lemma bumpRow_core (o : DBOrder) (d : Nat) : sameCore o (bumpRow o d) := by
  unfold bumpRow
  simp only []
  split
  · exact ⟨rfl, rfl, rfl, rfl, rfl, rfl, rfl, rfl⟩
  · split
    · exact ⟨rfl, rfl, rfl, rfl, rfl, rfl, rfl, rfl⟩
    · exact ⟨rfl, rfl, rfl, rfl, rfl, rfl, rfl, rfl⟩

lemma bumpRow_filled (o : DBOrder) (d : Nat) :
    (bumpRow o d).filled_quantity = o.filled_quantity + d := by
  unfold bumpRow
  simp only []
  split
  · rfl
  · split
    · rfl
    · rfl

lemma bumpRow_status (o : DBOrder) (d : Nat) :
    (bumpRow o d).status =
      if o.quantity ≤ o.filled_quantity + d then OrderStatus.FILLED
      else if 0 < o.filled_quantity + d then OrderStatus.PARTIAL
      else o.status := by
  unfold bumpRow
  simp only []
  split
  · rfl
  · split
    · rfl
    · rfl

lemma update_filled_row_ok_iff (o : DBOrder) (d : Nat) (o2 : DBOrder) :
    OrderRepository.update_filled_row o d = Except.ok o2 ↔
      (o.filled_quantity + d ≤ o.quantity ∧ o2 = bumpRow o d) := by
  constructor
  · intro h
    simp only [OrderRepository.update_filled_row] at h
    by_cases hv : o.quantity < o.filled_quantity + d
    · rw [if_pos hv] at h
      cases h
    · rw [if_neg hv] at h
      refine ⟨by omega, ?_⟩
      unfold bumpRow
      by_cases hfull : o.quantity ≤ o.filled_quantity + d
      · rw [if_pos hfull] at h ⊢
        injection h with h
        exact h.symm
      · rw [if_neg hfull] at h ⊢
        by_cases hpos : 0 < o.filled_quantity + d
        · rw [if_pos hpos] at h ⊢
          injection h with h
          exact h.symm
        · rw [if_neg hpos] at h ⊢
          injection h with h
          exact h.symm
  · intro ⟨hle, ho2⟩
    subst ho2
    simp only [OrderRepository.update_filled_row, if_neg (by omega : ¬ o.quantity < o.filled_quantity + d)]
    unfold bumpRow
    by_cases hfull : o.quantity ≤ o.filled_quantity + d
    · rw [if_pos hfull, if_pos hfull]
    · rw [if_neg hfull, if_neg hfull]
      by_cases hpos : 0 < o.filled_quantity + d
      · rw [if_pos hpos, if_pos hpos]
      · rw [if_neg hpos, if_neg hpos]

lemma update_filled_store_ok (st : OrderStore) (oid d : Nat) (st2 : OrderStore)
    (h : OrderRepository.update_filled_without_commit st oid d = Except.ok st2) :
    ∃ o, getOrder? st oid = some o ∧ o.filled_quantity + d ≤ o.quantity ∧
      st2 = setOrder st (bumpRow o d) := by
  simp only [OrderRepository.update_filled_without_commit] at h
  rcases hfind : getOrder? st oid with _ | orow
  · rw [hfind] at h
    cases h
  · rw [hfind] at h
    simp only [] at h
    rcases hrow : OrderRepository.update_filled_row orow d with e | orow2
    · rw [hrow] at h
      cases h
    · rw [hrow] at h
      simp only [Except.map] at h
      injection h with h
      obtain ⟨hle, hb⟩ := (update_filled_row_ok_iff orow d orow2).mp hrow
      exact ⟨orow, rfl, hle, by rw [← h, hb]⟩

lemma consumeEntry_ids_sublist (m q : Nat) (es : List OrderBookEntry) :
    ((consumeEntry m q es).map OrderBookEntry.order_id).Sublist
      (es.map OrderBookEntry.order_id) := by
  induction es with
  | nil => simp [consumeEntry]
  | cons e t ih =>
    simp only [consumeEntry]
    by_cases he : e.order_id = m
    · rw [if_pos he]
      by_cases hz : e.remaining_quantity - q = 0
      · rw [if_pos hz]
        exact (List.sublist_cons_self _ _).trans (List.Sublist.refl _)
      · rw [if_neg hz]
        simp only [List.map_cons]
        exact List.Sublist.cons₂ _ (List.Sublist.refl _)
    · rw [if_neg he]
      simp only [List.map_cons]
      exact List.Sublist.cons₂ _ ih

lemma consumeEntry_seq_sublist (m q : Nat) (es : List OrderBookEntry) :
    ((consumeEntry m q es).map OrderBookEntry.sequence).Sublist
      (es.map OrderBookEntry.sequence) := by
  induction es with
  | nil => simp [consumeEntry]
  | cons e t ih =>
    simp only [consumeEntry]
    by_cases he : e.order_id = m
    · rw [if_pos he]
      by_cases hz : e.remaining_quantity - q = 0
      · rw [if_pos hz]
        exact (List.sublist_cons_self _ _).trans (List.Sublist.refl _)
      · rw [if_neg hz]
        simp only [List.map_cons]
        exact List.Sublist.cons₂ _ (List.Sublist.refl _)
    · rw [if_neg he]
      simp only [List.map_cons]
      exact List.Sublist.cons₂ _ ih

lemma consumeEntry_mem_weak (m q : Nat) (es : List OrderBookEntry)
    (x : OrderBookEntry) (hx : x ∈ consumeEntry m q es) :
    x ∈ es ∨ ∃ e ∈ es, x = { e with remaining_quantity := e.remaining_quantity - q } := by
  induction es with
  | nil => cases hx
  | cons e t ih =>
    simp only [consumeEntry] at hx
    by_cases he : e.order_id = m
    · rw [if_pos he] at hx
      by_cases hz : e.remaining_quantity - q = 0
      · rw [if_pos hz] at hx
        exact Or.inl (List.mem_cons_of_mem _ hx)
      · rw [if_neg hz] at hx
        rcases List.mem_cons.mp hx with h | h
        · exact Or.inr ⟨e, List.mem_cons_self _ _, h⟩
        · exact Or.inl (List.mem_cons_of_mem _ h)
    · rw [if_neg he] at hx
      rcases List.mem_cons.mp hx with h | h
      · exact Or.inl (h ▸ List.mem_cons_self _ _)
      · rcases ih h with h2 | ⟨e2, he2, hx2⟩
        · exact Or.inl (List.mem_cons_of_mem _ h2)
        · exact Or.inr ⟨e2, List.mem_cons_of_mem _ he2, hx2⟩

lemma consumeEntry_mem (m q : Nat) (es : List OrderBookEntry)
    (hnd : (es.map OrderBookEntry.order_id).Nodup)
    (x : OrderBookEntry) (hx : x ∈ consumeEntry m q es) :
    (x ∈ es ∧ x.order_id ≠ m) ∨
    (∃ e ∈ es, e.order_id = m ∧ e.remaining_quantity - q ≠ 0 ∧
      x = { e with remaining_quantity := e.remaining_quantity - q }) := by
  induction es with
  | nil => cases hx
  | cons e t ih =>
    simp only [List.map_cons, List.nodup_cons] at hnd
    simp only [consumeEntry] at hx
    by_cases he : e.order_id = m
    · rw [if_pos he] at hx
      by_cases hz : e.remaining_quantity - q = 0
      · rw [if_pos hz] at hx
        refine Or.inl ⟨List.mem_cons_of_mem _ hx, ?_⟩
        intro hc
        exact hnd.1 (he ▸ hc ▸ List.mem_map_of_mem OrderBookEntry.order_id hx)
      · rw [if_neg hz] at hx
        rcases List.mem_cons.mp hx with h | h
        · exact Or.inr ⟨e, List.mem_cons_self _ _, he, hz, h⟩
        · refine Or.inl ⟨List.mem_cons_of_mem _ h, ?_⟩
          intro hc
          exact hnd.1 (he ▸ hc ▸ List.mem_map_of_mem OrderBookEntry.order_id h)
    · rw [if_neg he] at hx
      rcases List.mem_cons.mp hx with h | h
      · exact Or.inl ⟨h ▸ List.mem_cons_self _ _, h ▸ he⟩
      · rcases ih hnd.2 h with ⟨h2, h3⟩ | ⟨e2, he2, h2, h3, h4⟩
        · exact Or.inl ⟨List.mem_cons_of_mem _ h2, h3⟩
        · exact Or.inr ⟨e2, List.mem_cons_of_mem _ he2, h2, h3, h4⟩

lemma consumeEntry_keep (m q : Nat) (es : List OrderBookEntry)
    (x : OrderBookEntry) (hx : x ∈ es) (hne : x.order_id ≠ m) :
    x ∈ consumeEntry m q es := by
  induction es with
  | nil => cases hx
  | cons e t ih =>
    simp only [consumeEntry]
    rcases List.mem_cons.mp hx with h | h
    · subst h
      rw [if_neg hne]
      exact List.mem_cons_self _ _
    · by_cases he : e.order_id = m
      · rw [if_pos he]
        by_cases hz : e.remaining_quantity - q = 0
        · rw [if_pos hz]
          exact h
        · rw [if_neg hz]
          exact List.mem_cons_of_mem _ h
      · rw [if_neg he]
        exact List.mem_cons_of_mem _ (ih h)

lemma consumeEntry_kept_mem (m q : Nat) (es : List OrderBookEntry)
    (e : OrderBookEntry) (he : e ∈ es) (hid : e.order_id = m)
    (hnd : (es.map OrderBookEntry.order_id).Nodup)
    (hz : e.remaining_quantity - q ≠ 0) :
    { e with remaining_quantity := e.remaining_quantity - q } ∈ consumeEntry m q es := by
  induction es with
  | nil => cases he
  | cons e2 t ih =>
    simp only [List.map_cons, List.nodup_cons] at hnd
    simp only [consumeEntry]
    rcases List.mem_cons.mp he with h | h
    · subst h
      rw [if_pos hid, if_neg hz]
      exact List.mem_cons_self _ _
    · by_cases h2 : e2.order_id = m
      · refine absurd ?_ hnd.1
        rw [h2, ← hid]
        exact List.mem_map_of_mem OrderBookEntry.order_id h
      · rw [if_neg h2]
        exact List.mem_cons_of_mem _ (ih h hnd.2)

lemma consumeEntry_gone (m q : Nat) (es : List OrderBookEntry)
    (hnd : (es.map OrderBookEntry.order_id).Nodup)
    (e : OrderBookEntry) (he : e ∈ es) (hid : e.order_id = m)
    (hz : e.remaining_quantity - q = 0) :
    m ∉ (consumeEntry m q es).map OrderBookEntry.order_id := by
  induction es with
  | nil => cases he
  | cons e2 t ih =>
    simp only [List.map_cons, List.nodup_cons] at hnd
    simp only [consumeEntry]
    rcases List.mem_cons.mp he with h | h
    · subst h
      rw [if_pos hid, if_pos hz]
      intro hc
      obtain ⟨y, hy, hyid⟩ := List.mem_map.mp hc
      exact hnd.1 (hid ▸ hyid ▸ List.mem_map_of_mem OrderBookEntry.order_id hy)
    · by_cases h2 : e2.order_id = m
      · refine absurd ?_ hnd.1
        rw [h2, ← hid]
        exact List.mem_map_of_mem OrderBookEntry.order_id h
      · rw [if_neg h2]
        simp only [List.map_cons]
        intro hc
        rcases List.mem_cons.mp hc with hc | hc
        · exact h2 hc.symm
        · exact ih hnd.2 h hc

lemma sideEntries_cons (lv : Nat × List OrderBookEntry) (rest : BookSide) :
    OrderBook.sideEntries (lv :: rest) = lv.2 ++ OrderBook.sideEntries rest := by
  simp [OrderBook.sideEntries]

lemma consumeLevel_keys_sublist (m q : Nat) (sd : BookSide) :
    ((consumeLevel m q sd).map Prod.fst).Sublist (sd.map Prod.fst) := by
  induction sd with
  | nil => simp [consumeLevel]
  | cons lv rest ih =>
    rcases lv with ⟨p, es⟩
    simp only [consumeLevel]
    by_cases ha : es.any (fun e => e.order_id = m)
    · rw [if_pos ha]
      by_cases hemp : (consumeEntry m q es).isEmpty
      · rw [if_pos hemp]
        simp only [List.map_cons]
        exact (List.Sublist.refl _).cons _
      · rw [if_neg hemp]
        simp only [List.map_cons]
        exact (List.Sublist.refl _).cons₂ _
    · rw [if_neg ha]
      simp only [List.map_cons]
      exact ih.cons₂ _

lemma consumeLevel_ids_sublist (m q : Nat) (sd : BookSide) :
    (sideIds (consumeLevel m q sd)).Sublist (sideIds sd) := by
  induction sd with
  | nil => simp [consumeLevel, sideIds, OrderBook.sideEntries]
  | cons lv rest ih =>
    rcases lv with ⟨p, es⟩
    simp only [consumeLevel]
    by_cases ha : es.any (fun e => e.order_id = m)
    · rw [if_pos ha]
      by_cases hemp : (consumeEntry m q es).isEmpty
      · rw [if_pos hemp]
        simp only [sideIds, sideEntries_cons, List.map_append]
        exact List.sublist_append_right _ _
      · rw [if_neg hemp]
        simp only [sideIds, sideEntries_cons, List.map_append]
        exact (consumeEntry_ids_sublist m q es).append (List.Sublist.refl _)
    · rw [if_neg ha]
      simp only [sideIds, sideEntries_cons, List.map_append] at ih ⊢
      exact (List.Sublist.refl _).append ih

lemma consumeLevel_keep (m q : Nat) (sd : BookSide) (x : OrderBookEntry)
    (hx : x ∈ OrderBook.sideEntries sd) (hne : x.order_id ≠ m) :
    x ∈ OrderBook.sideEntries (consumeLevel m q sd) := by
  induction sd with
  | nil => cases hx
  | cons lv rest ih =>
    rcases lv with ⟨p, es⟩
    rw [sideEntries_cons] at hx
    simp only [consumeLevel]
    by_cases ha : es.any (fun e => e.order_id = m)
    · rw [if_pos ha]
      rcases List.mem_append.mp hx with h | h
      · have hk := consumeEntry_keep m q es x h hne
        have hne2 : ¬ (consumeEntry m q es).isEmpty := by
          intro hc
          rw [List.isEmpty_iff] at hc
          rw [hc] at hk
          cases hk
        rw [if_neg hne2, sideEntries_cons]
        exact List.mem_append.mpr (Or.inl hk)
      · by_cases hemp : (consumeEntry m q es).isEmpty
        · rw [if_pos hemp]
          exact h
        · rw [if_neg hemp, sideEntries_cons]
          exact List.mem_append.mpr (Or.inr h)
    · rw [if_neg ha, sideEntries_cons]
      rcases List.mem_append.mp hx with h | h
      · exact List.mem_append.mpr (Or.inl h)
      · exact List.mem_append.mpr (Or.inr (ih h))

lemma consumeLevel_mem (m q : Nat) (sd : BookSide)
    (hnd : (sideIds sd).Nodup)
    (x : OrderBookEntry) (hx : x ∈ OrderBook.sideEntries (consumeLevel m q sd)) :
    (x ∈ OrderBook.sideEntries sd ∧ x.order_id ≠ m) ∨
    (∃ e ∈ OrderBook.sideEntries sd, e.order_id = m ∧
      e.remaining_quantity - q ≠ 0 ∧
      x = { e with remaining_quantity := e.remaining_quantity - q }) := by
  induction sd with
  | nil =>
    simp [consumeLevel, OrderBook.sideEntries] at hx
  | cons lv rest ih =>
    rcases lv with ⟨p, es⟩
    simp only [sideIds, sideEntries_cons, List.map_append, List.nodup_append] at hnd
    simp only [consumeLevel] at hx
    by_cases ha : es.any (fun e => e.order_id = m)
    · rw [if_pos ha] at hx
      have hm : m ∈ es.map OrderBookEntry.order_id := by
        obtain ⟨e, he, heq⟩ := List.any_eq_true.mp ha
        simp only [decide_eq_true_eq] at heq
        exact heq ▸ List.mem_map_of_mem OrderBookEntry.order_id he
      by_cases hemp : (consumeEntry m q es).isEmpty
      · rw [if_pos hemp] at hx
        refine Or.inl ⟨by rw [sideEntries_cons]; exact List.mem_append.mpr (Or.inr hx), ?_⟩
        intro hc
        exact hnd.2.2 hm (hc ▸ List.mem_map_of_mem OrderBookEntry.order_id hx)
      · rw [if_neg hemp, sideEntries_cons] at hx
        rcases List.mem_append.mp hx with h | h
        · rcases consumeEntry_mem m q es hnd.1 x h with ⟨h1, h2⟩ | ⟨e, he, h1, h2, h3⟩
          · exact Or.inl ⟨by rw [sideEntries_cons]; exact List.mem_append.mpr (Or.inl h1), h2⟩
          · exact Or.inr ⟨e, by rw [sideEntries_cons]; exact List.mem_append.mpr (Or.inl he),
              h1, h2, h3⟩
        · refine Or.inl ⟨by rw [sideEntries_cons]; exact List.mem_append.mpr (Or.inr h), ?_⟩
          intro hc
          exact hnd.2.2 hm (hc ▸ List.mem_map_of_mem OrderBookEntry.order_id h)
    · rw [if_neg ha, sideEntries_cons] at hx
      have hnom : ∀ e ∈ es, e.order_id ≠ m := by
        intro e he hc
        refine absurd ?_ ha
        refine List.any_eq_true.mpr ⟨e, he, ?_⟩
        show decide (e.order_id = m) = true
        exact decide_eq_true hc
      rcases List.mem_append.mp hx with h | h
      · exact Or.inl ⟨by rw [sideEntries_cons]; exact List.mem_append.mpr (Or.inl h),
          hnom x h⟩
      · rcases ih hnd.2.1 h with ⟨h1, h2⟩ | ⟨e, he, h1, h2, h3⟩
        · exact Or.inl ⟨by rw [sideEntries_cons]; exact List.mem_append.mpr (Or.inr h1), h2⟩
        · exact Or.inr ⟨e, by rw [sideEntries_cons]; exact List.mem_append.mpr (Or.inr he),
            h1, h2, h3⟩

lemma consumeLevel_kept_mem (m q : Nat) (sd : BookSide)
    (hnd : (sideIds sd).Nodup)
    (e : OrderBookEntry) (he : e ∈ OrderBook.sideEntries sd) (hid : e.order_id = m)
    (hz : e.remaining_quantity - q ≠ 0) :
    { e with remaining_quantity := e.remaining_quantity - q } ∈
      OrderBook.sideEntries (consumeLevel m q sd) := by
  induction sd with
  | nil => cases he
  | cons lv rest ih =>
    rcases lv with ⟨p, es⟩
    simp only [sideIds, sideEntries_cons, List.map_append, List.nodup_append] at hnd
    rw [sideEntries_cons] at he
    simp only [consumeLevel]
    rcases List.mem_append.mp he with h | h
    · have ha : es.any (fun e => e.order_id = m) = true := by
        refine List.any_eq_true.mpr ⟨e, h, ?_⟩
        show decide (e.order_id = m) = true
        exact decide_eq_true hid
      rw [if_pos ha]
      have hk := consumeEntry_kept_mem m q es e h hid hnd.1 hz
      have hne2 : ¬ (consumeEntry m q es).isEmpty := by
        intro hc
        rw [List.isEmpty_iff] at hc
        rw [hc] at hk
        cases hk
      rw [if_neg hne2, sideEntries_cons]
      exact List.mem_append.mpr (Or.inl hk)
    · have ha : es.any (fun e => e.order_id = m) = false := by
        refine List.any_eq_false.mpr ?_
        intro x hx hc
        simp only [decide_eq_true_eq] at hc
        refine hnd.2.2 (hc ▸ List.mem_map_of_mem OrderBookEntry.order_id hx) ?_
        exact hid ▸ List.mem_map_of_mem OrderBookEntry.order_id h
      rw [if_neg (by simp [ha]), sideEntries_cons]
      exact List.mem_append.mpr (Or.inr (ih hnd.2.1 h))

lemma consumeLevel_gone (m q : Nat) (sd : BookSide)
    (hnd : (sideIds sd).Nodup)
    (e : OrderBookEntry) (he : e ∈ OrderBook.sideEntries sd) (hid : e.order_id = m)
    (hz : e.remaining_quantity - q = 0) :
    m ∉ sideIds (consumeLevel m q sd) := by
  induction sd with
  | nil => cases he
  | cons lv rest ih =>
    rcases lv with ⟨p, es⟩
    simp only [sideIds, sideEntries_cons, List.map_append, List.nodup_append] at hnd
    rw [sideEntries_cons] at he
    simp only [consumeLevel]
    rcases List.mem_append.mp he with h | h
    · have ha : es.any (fun e => e.order_id = m) = true := by
        refine List.any_eq_true.mpr ⟨e, h, ?_⟩
        show decide (e.order_id = m) = true
        exact decide_eq_true hid
      rw [if_pos ha]
      have hgone := consumeEntry_gone m q es hnd.1 e h hid hz
      by_cases hemp : (consumeEntry m q es).isEmpty
      · rw [if_pos hemp]
        intro hc
        refine hnd.2.2 ?_ hc
        exact hid ▸ List.mem_map_of_mem OrderBookEntry.order_id h
      · rw [if_neg hemp]
        intro hc
        simp only [sideIds, sideEntries_cons, List.map_append] at hc
        rcases List.mem_append.mp hc with hc | hc
        · exact hgone hc
        · refine hnd.2.2 ?_ hc
          exact hid ▸ List.mem_map_of_mem OrderBookEntry.order_id h
    · have ha : es.any (fun e => e.order_id = m) = false := by
        refine List.any_eq_false.mpr ?_
        intro x hx hc
        simp only [decide_eq_true_eq] at hc
        refine hnd.2.2 (hc ▸ List.mem_map_of_mem OrderBookEntry.order_id hx) ?_
        exact hid ▸ List.mem_map_of_mem OrderBookEntry.order_id h
      rw [if_neg (by simp [ha])]
      intro hc
      simp only [sideIds, sideEntries_cons, List.map_append] at hc
      rcases List.mem_append.mp hc with hc | hc
      · obtain ⟨y, hy, hyid⟩ := List.mem_map.mp hc
        have := List.any_eq_false.mp ha y hy
        simp only [decide_eq_true_eq] at this
        exact this hyid
      · exact ih hnd.2.1 h hc

lemma consumeLevel_sidewf (kord : Nat → Nat → Prop) (m q : Nat) (sd : BookSide)
    (hwf : SideWf kord sd) : SideWf kord (consumeLevel m q sd) := by
  induction sd with
  | nil => exact hwf
  | cons lv rest ih =>
    rcases lv with ⟨p, es⟩
    obtain ⟨hkeys, hne, hprices, hseqs⟩ := hwf
    simp only [List.map_cons, List.pairwise_cons] at hkeys
    have hwfrest : SideWf kord rest :=
      ⟨hkeys.2, fun y hy => hne y (List.mem_cons_of_mem _ hy),
       fun y hy => hprices y (List.mem_cons_of_mem _ hy),
       fun y hy => hseqs y (List.mem_cons_of_mem _ hy)⟩
    simp only [consumeLevel]
    by_cases ha : es.any (fun e => e.order_id = m)
    · rw [if_pos ha]
      by_cases hemp : (consumeEntry m q es).isEmpty
      · rw [if_pos hemp]
        exact hwfrest
      · rw [if_neg hemp]
        refine ⟨?_, ?_, ?_, ?_⟩
        · simp only [List.map_cons, List.pairwise_cons]
          exact ⟨hkeys.1, hkeys.2⟩
        · intro y hy
          rcases List.mem_cons.mp hy with h | h
          · subst h
            intro hc
            have hc2 : consumeEntry m q es = [] := hc
            rw [hc2] at hemp
            exact hemp rfl
          · exact hne y (List.mem_cons_of_mem _ h)
        · intro y hy
          rcases List.mem_cons.mp hy with h | h
          · subst h
            intro x hx
            rcases consumeEntry_mem_weak m q es x hx with h2 | ⟨e2, he2, h2⟩
            · exact hprices (p, es) (List.mem_cons_self _ _) x h2
            · rw [h2]
              exact hprices (p, es) (List.mem_cons_self _ _) e2 he2
          · exact hprices y (List.mem_cons_of_mem _ h)
        · intro y hy
          rcases List.mem_cons.mp hy with h | h
          · subst h
            exact List.Pairwise.sublist (consumeEntry_seq_sublist m q es)
              (hseqs (p, es) (List.mem_cons_self _ _))
          · exact hseqs y (List.mem_cons_of_mem _ h)
    · rw [if_neg ha]
      obtain ⟨hk2, hn2, hp2, hs2⟩ := ih hwfrest
      refine ⟨?_, ?_, ?_, ?_⟩
      · simp only [List.map_cons, List.pairwise_cons]
        refine ⟨?_, hk2⟩
        intro b hb
        obtain ⟨lv2, hlv2, hlv2b⟩ := List.mem_map.mp hb
        have := (consumeLevel_keys_sublist m q rest).mem
          (hlv2b ▸ List.mem_map_of_mem Prod.fst hlv2)
        exact hkeys.1 b this
      · intro y hy
        rcases List.mem_cons.mp hy with h | h
        · subst h
          exact hne (p, es) (List.mem_cons_self _ _)
        · exact hn2 y h
      · intro y hy
        rcases List.mem_cons.mp hy with h | h
        · subst h
          exact hprices (p, es) (List.mem_cons_self _ _)
        · exact hp2 y h
      · intro y hy
        rcases List.mem_cons.mp hy with h | h
        · subst h
          exact hseqs (p, es) (List.mem_cons_self _ _)
        · exact hs2 y h

/-- A trade the matcher can emit from the given side state: built by
`_create_trade` from a resting maker with a positive fill within the
maker's remaining quantity, at the maker's level price. -/
def TradeFrom (taker : DBOrder) (tk : String) (sd : BookSide) (t : TradeData) : Prop :=
  ∃ lv ∈ sd, ∃ e ∈ lv.2, ∃ q, 0 < q ∧ q ≤ e.remaining_quantity ∧
    t = OrderBookMatcher.create_trade taker e q lv.1 tk

/-- The trade list is a valid sequential consumption of the side: each
trade fits the side state produced by consuming the previous trades. -/
inductive SeqConsumable (taker : DBOrder) (tk : String) : BookSide → List TradeData → Prop where
  | nil (sd : BookSide) : SeqConsumable taker tk sd []
  | cons (sd : BookSide) (t : TradeData) (ts : List TradeData) :
      TradeFrom taker tk sd t →
      SeqConsumable taker tk (consumeLevel t.maker_order_id t.quantity sd) ts →
      SeqConsumable taker tk sd (t :: ts)

lemma seq_append (taker : DBOrder) (tk : String) :
    ∀ (ts1 : List TradeData) (sd : BookSide) (ts2 : List TradeData),
      SeqConsumable taker tk sd ts1 →
      SeqConsumable taker tk (consumeSide sd ts1) ts2 →
      SeqConsumable taker tk sd (ts1 ++ ts2) := by
  intro ts1
  induction ts1 with
  | nil =>
    intro sd ts2 _ h2
    exact h2
  | cons t ts ih =>
    intro sd ts2 h1 h2
    cases h1 with
    | cons _ _ _ hfrom hrest =>
      refine SeqConsumable.cons _ _ _ hfrom ?_
      refine ih _ ts2 hrest ?_
      simpa [consumeSide] using h2

namespace OrderBookMatcher

lemma mpl_seq (taker : DBOrder) (tk : String) (p : Nat) :
    ∀ (es : List OrderBookEntry) (rem : Nat) ts r es2 (rest : BookSide),
      match_at_price_level taker tk p es rem = (ts, r, es2) →
      (∀ e ∈ es, 0 < e.remaining_quantity) →
      SeqConsumable taker tk ((p, es) :: rest) ts := by
  intro es
  induction es with
  | nil =>
    intro rem ts r es2 rest h _
    simp [match_at_price_level] at h
    rw [h.1]
    exact SeqConsumable.nil _
  | cons e es ih =>
    intro rem ts r es2 rest h hwf
    by_cases h0 : rem = 0
    · subst h0
      simp [match_at_price_level] at h
      rw [h.1]
      exact SeqConsumable.nil _
    · simp only [match_at_price_level, if_neg h0] at h
      rcases hrec : match_at_price_level taker tk p es (rem - min rem e.remaining_quantity)
        with ⟨ts', r', es2'⟩
      rw [hrec] at h
      simp only [] at h
      have hepos := hwf e (List.mem_cons_self _ _)
      have hfrom : TradeFrom taker tk ((p, e :: es) :: rest)
          (create_trade taker e (min rem e.remaining_quantity) p tk) :=
        ⟨(p, e :: es), List.mem_cons_self _ _, e, List.mem_cons_self _ _,
         min rem e.remaining_quantity, by omega, by omega, rfl⟩
      by_cases hz : e.remaining_quantity - min rem e.remaining_quantity = 0
      · rw [if_pos hz] at h
        cases h
        refine SeqConsumable.cons _ _ _ hfrom ?_
        have hcl : consumeLevel e.order_id (min rem e.remaining_quantity)
            ((p, e :: es) :: rest) = if es.isEmpty then rest else (p, es) :: rest := by
          simp [consumeLevel, consumeEntry, hz]
        simp only [create_trade_maker, create_trade_quantity, hcl]
        cases es with
        | nil =>
          simp [match_at_price_level] at hrec
          rw [hrec.1]
          simp
          exact SeqConsumable.nil _
        | cons e2 es3 =>
          simp only [List.isEmpty_cons, if_neg Bool.false_ne_true]
          exact ih _ _ _ _ rest hrec (fun y hy => hwf y (List.mem_cons_of_mem _ hy))
      · rw [if_neg hz] at h
        have hfill : min rem e.remaining_quantity = rem := by omega
        rw [hfill, Nat.sub_self, mpl_zero] at hrec
        cases hrec
        cases h
        refine SeqConsumable.cons _ _ _ hfrom ?_
        exact SeqConsumable.nil _

lemma matchLevels_seq (taker : DBOrder) (tk : String) (g : Nat → Bool) :
    ∀ (levels : BookSide) (rem : Nat) ts r lv2,
      matchLevels taker tk g levels rem = (ts, r, lv2) →
      (∀ lv ∈ levels, ∀ e ∈ lv.2, 0 < e.remaining_quantity) →
      (∀ lv ∈ levels, lv.2 ≠ []) →
      SeqConsumable taker tk levels ts := by
  intro levels
  induction levels with
  | nil =>
    intro rem ts r lv2 h _ _
    simp [matchLevels] at h
    rw [h.1]
    exact SeqConsumable.nil _
  | cons lv0 rest ih =>
    rcases lv0 with ⟨price, es⟩
    intro rem ts r lv2 h hwf hne
    by_cases h0 : rem = 0
    · subst h0
      simp [matchLevels] at h
      rw [h.1]
      exact SeqConsumable.nil _
    · by_cases hg : g price
      · simp only [matchLevels, if_neg h0, if_pos hg] at h
        rcases hmpl : match_at_price_level taker tk price es rem with ⟨ts1, r1, es2⟩
        rw [hmpl] at h
        simp only [] at h
        have hseq1 : SeqConsumable taker tk ((price, es) :: rest) ts1 :=
          mpl_seq taker tk price es rem ts1 r1 es2 rest hmpl
            (fun y hy => hwf (price, es) (List.mem_cons_self _ _) y hy)
        by_cases hemp : es2.isEmpty
        · rw [if_pos hemp] at h
          rcases hrec : matchLevels taker tk g rest r1 with ⟨ts2, r2, lv3⟩
          rw [hrec] at h
          simp only [] at h
          cases h
          have hseq2 : SeqConsumable taker tk rest ts2 :=
            ih _ _ _ _ hrec (fun y hy => hwf y (List.mem_cons_of_mem _ hy))
              (fun y hy => hne y (List.mem_cons_of_mem _ hy))
          refine seq_append taker tk ts1 _ ts2 hseq1 ?_
          have hlift := mpl_consume_lift taker tk price es rem ts1 r1 es2
            (hne (price, es) (List.mem_cons_self _ _)) hmpl rest
          rw [if_pos hemp] at hlift
          rw [hlift]
          exact hseq2
        · rw [if_neg hemp] at h
          cases h
          exact hseq1
      · simp only [matchLevels, if_neg h0, if_neg hg] at h
        cases h
        exact SeqConsumable.nil _

end OrderBookMatcher

namespace OrderBook

lemma removeFirstEntry_sublist (oid : Nat) :
    ∀ (es es2 : List OrderBookEntry), removeFirstEntry oid es = some es2 →
      es2.Sublist es := by
  intro es
  induction es with
  | nil => intro es2 h; cases h
  | cons e t ih =>
    intro es2 h
    simp only [removeFirstEntry] at h
    by_cases he : e.order_id = oid
    · rw [if_pos he] at h
      injection h with h
      rw [← h]
      exact List.sublist_cons_self _ _
    · rw [if_neg he] at h
      rcases ht : removeFirstEntry oid t with _ | t2
      · rw [ht] at h
        cases h
      · rw [ht] at h
        simp only [Option.map] at h
        injection h with h
        rw [← h]
        exact (ih t2 ht).cons₂ _

lemma removeFirstEntry_keep (oid : Nat) :
    ∀ (es es2 : List OrderBookEntry), removeFirstEntry oid es = some es2 →
      ∀ x ∈ es, x.order_id ≠ oid → x ∈ es2 := by
  intro es
  induction es with
  | nil => intro es2 h; cases h
  | cons e t ih =>
    intro es2 h x hx hne
    simp only [removeFirstEntry] at h
    by_cases he : e.order_id = oid
    · rw [if_pos he] at h
      injection h with h
      rcases List.mem_cons.mp hx with h2 | h2
      · exact absurd (h2 ▸ he) hne
      · exact h ▸ h2
    · rw [if_neg he] at h
      rcases ht : removeFirstEntry oid t with _ | t2
      · rw [ht] at h
        cases h
      · rw [ht] at h
        simp only [Option.map] at h
        injection h with h
        rcases List.mem_cons.mp hx with h2 | h2
        · rw [← h, h2]
          exact List.mem_cons_self _ _
        · rw [← h]
          exact List.mem_cons_of_mem _ (ih t2 ht x h2 hne)

lemma removeFirstEntry_gone (oid : Nat) :
    ∀ (es es2 : List OrderBookEntry),
      (es.map OrderBookEntry.order_id).Nodup →
      removeFirstEntry oid es = some es2 →
      oid ∉ es2.map OrderBookEntry.order_id := by
  intro es
  induction es with
  | nil => intro es2 _ h; cases h
  | cons e t ih =>
    intro es2 hnd h
    simp only [List.map_cons, List.nodup_cons] at hnd
    simp only [removeFirstEntry] at h
    by_cases he : e.order_id = oid
    · rw [if_pos he] at h
      injection h with h
      rw [← h]
      intro hc
      exact hnd.1 (he ▸ hc)
    · rw [if_neg he] at h
      rcases ht : removeFirstEntry oid t with _ | t2
      · rw [ht] at h
        cases h
      · rw [ht] at h
        simp only [Option.map] at h
        injection h with h
        rw [← h]
        simp only [List.map_cons]
        intro hc
        rcases List.mem_cons.mp hc with hc | hc
        · exact he hc.symm
        · exact ih t2 hnd.2 ht hc

lemma removeFromSide_false (price oid : Nat) :
    ∀ sd : BookSide, (removeFromSide price oid sd).1 = false →
      (removeFromSide price oid sd).2 = sd := by
  intro sd
  induction sd with
  | nil => intro _; rfl
  | cons lv rest ih =>
    rcases lv with ⟨p, es⟩
    intro h
    simp only [removeFromSide] at h ⊢
    by_cases hp : p = price
    · rw [if_pos hp] at h ⊢
      rcases hr : removeFirstEntry oid es with _ | es2
      · rfl
      · rw [hr] at h
        by_cases hemp : es2.isEmpty
        · simp [hemp] at h
        · simp [hemp] at h
    · rw [if_neg hp] at h ⊢
      simp only [] at h ⊢
      rw [ih h]

lemma removeFromSide_entries_sub (price oid : Nat) :
    ∀ sd : BookSide,
      (sideEntries (removeFromSide price oid sd).2).Sublist (sideEntries sd) := by
  intro sd
  induction sd with
  | nil => simp [removeFromSide]
  | cons lv rest ih =>
    rcases lv with ⟨p, es⟩
    simp only [removeFromSide]
    by_cases hp : p = price
    · rw [if_pos hp]
      rcases hr : removeFirstEntry oid es with _ | es2
      · exact List.Sublist.refl _
      · simp only []
        by_cases hemp : es2.isEmpty
        · rw [if_pos hemp]
          simp only [sideEntries_cons]
          exact List.sublist_append_right _ _
        · rw [if_neg hemp]
          simp only [sideEntries_cons]
          exact (removeFirstEntry_sublist oid es es2 hr).append (List.Sublist.refl _)
    · rw [if_neg hp]
      simp only [sideEntries_cons]
      exact (List.Sublist.refl _).append ih

lemma removeFromSide_keys_sublist (price oid : Nat) :
    ∀ sd : BookSide,
      (((removeFromSide price oid sd).2).map Prod.fst).Sublist (sd.map Prod.fst) := by
  intro sd
  induction sd with
  | nil => simp [removeFromSide]
  | cons lv rest ih =>
    rcases lv with ⟨p, es⟩
    simp only [removeFromSide]
    by_cases hp : p = price
    · rw [if_pos hp]
      rcases hr : removeFirstEntry oid es with _ | es2
      · exact List.Sublist.refl _
      · simp only []
        by_cases hemp : es2.isEmpty
        · rw [if_pos hemp]
          simp only [List.map_cons]
          exact (List.Sublist.refl _).cons _
        · rw [if_neg hemp]
          simp only [List.map_cons]
          exact (List.Sublist.refl _).cons₂ _
    · rw [if_neg hp]
      simp only [List.map_cons]
      exact ih.cons₂ _

lemma removeFromSide_keep (price oid : Nat) :
    ∀ sd : BookSide, ∀ x ∈ sideEntries sd, x.order_id ≠ oid →
      x ∈ sideEntries (removeFromSide price oid sd).2 := by
  intro sd
  induction sd with
  | nil => intro x hx; cases hx
  | cons lv rest ih =>
    rcases lv with ⟨p, es⟩
    intro x hx hne
    rw [sideEntries_cons] at hx
    simp only [removeFromSide]
    by_cases hp : p = price
    · rw [if_pos hp]
      rcases hr : removeFirstEntry oid es with _ | es2
      · rw [sideEntries_cons]
        exact hx
      · simp only []
        rcases List.mem_append.mp hx with h | h
        · have hk := removeFirstEntry_keep oid es es2 hr x h hne
          have hne2 : ¬ es2.isEmpty := by
            intro hc
            rw [List.isEmpty_iff] at hc
            rw [hc] at hk
            cases hk
          rw [if_neg hne2, sideEntries_cons]
          exact List.mem_append.mpr (Or.inl hk)
        · by_cases hemp : es2.isEmpty
          · rw [if_pos hemp]
            exact h
          · rw [if_neg hemp, sideEntries_cons]
            exact List.mem_append.mpr (Or.inr h)
    · rw [if_neg hp]
      simp only [sideEntries_cons]
      rcases List.mem_append.mp hx with h | h
      · exact List.mem_append.mpr (Or.inl h)
      · exact List.mem_append.mpr (Or.inr (ih x h hne))

lemma removeFirstEntry_succeeds (oid : Nat) :
    ∀ (es : List OrderBookEntry), ∀ e ∈ es, e.order_id = oid →
      ∃ es2, removeFirstEntry oid es = some es2 := by
  intro es
  induction es with
  | nil => intro e he; cases he
  | cons x t ih =>
    intro e he hid
    simp only [removeFirstEntry]
    by_cases hx : x.order_id = oid
    · exact ⟨t, by rw [if_pos hx]⟩
    · rcases List.mem_cons.mp he with h | h
      · exact absurd (h ▸ hid) hx
      · obtain ⟨t2, ht2⟩ := ih e h hid
        exact ⟨x :: t2, by rw [if_neg hx, ht2]; rfl⟩

lemma removeFromSide_gone (price oid : Nat) :
    ∀ sd : BookSide,
      (sideIds sd).Nodup →
      (sd.map Prod.fst).Nodup →
      (∀ lv ∈ sd, ∀ e ∈ lv.2, e.price_in_cents = lv.1) →
      ∀ e ∈ sideEntries sd, e.order_id = oid → e.price_in_cents = price →
      oid ∉ sideIds (removeFromSide price oid sd).2 := by
  intro sd
  induction sd with
  | nil => intro _ _ _ e he; cases he
  | cons lv rest ih =>
    rcases lv with ⟨p, es⟩
    intro hnd hkeys hprices e he hid hp
    simp only [sideIds, sideEntries_cons, List.map_append, List.nodup_append] at hnd
    simp only [List.map_cons, List.nodup_cons] at hkeys
    rw [sideEntries_cons] at he
    simp only [removeFromSide]
    by_cases hpp : p = price
    · rw [if_pos hpp]
      have herest : e ∈ OrderBook.sideEntries rest → False := by
        intro h
        have h2 : e ∈ rest.flatMap Prod.snd := h
        obtain ⟨lv2, hlv2, helv2⟩ := List.mem_flatMap.mp h2
        have : e.price_in_cents = lv2.1 :=
          hprices lv2 (List.mem_cons_of_mem _ hlv2) e helv2
        refine hkeys.1 ?_
        rw [hpp, ← hp, this]
        exact List.mem_map_of_mem Prod.fst hlv2
      have hees : e ∈ es := by
        rcases List.mem_append.mp he with h | h
        · exact h
        · exact absurd h (fun h2 => herest h2)
      obtain ⟨es2, hes2⟩ := removeFirstEntry_succeeds oid es e hees hid
      rw [hes2]
      simp only []
      have hnotrest : oid ∉ (OrderBook.sideEntries rest).map OrderBookEntry.order_id := by
        intro hc
        exact hnd.2.2 (hid ▸ List.mem_map_of_mem OrderBookEntry.order_id hees) hc
      by_cases hemp : es2.isEmpty
      · rw [if_pos hemp]
        exact hnotrest
      · rw [if_neg hemp]
        intro hc
        simp only [sideIds, sideEntries_cons, List.map_append] at hc
        rcases List.mem_append.mp hc with hc | hc
        · exact removeFirstEntry_gone oid es es2 hnd.1 hes2 hc
        · exact hnotrest hc
    · rw [if_neg hpp]
      have hees : e ∈ es → False := by
        intro h
        exact hpp ((hprices (p, es) (List.mem_cons_self _ _) e h).symm.trans hp)
      have herest : e ∈ OrderBook.sideEntries rest := by
        rcases List.mem_append.mp he with h | h
        · exact absurd h (fun h2 => hees h2)
        · exact h
      have hnotes : oid ∉ es.map OrderBookEntry.order_id := by
        intro hc
        exact hnd.2.2 hc (hid ▸ List.mem_map_of_mem OrderBookEntry.order_id herest)
      intro hc
      simp only [sideIds, sideEntries_cons, List.map_append] at hc
      rcases List.mem_append.mp hc with hc | hc
      · exact hnotes hc
      · exact ih hnd.2.1 hkeys.2 (fun y hy => hprices y (List.mem_cons_of_mem _ hy))
          e herest hid hp hc

lemma removeFromSide_sidewf (kord : Nat → Nat → Prop) (price oid : Nat) :
    ∀ sd : BookSide, SideWf kord sd → SideWf kord (removeFromSide price oid sd).2 := by
  intro sd
  induction sd with
  | nil => intro hwf; exact hwf
  | cons lv rest ih =>
    rcases lv with ⟨p, es⟩
    intro hwf
    obtain ⟨hkeys, hne, hprices, hseqs⟩ := hwf
    simp only [List.map_cons, List.pairwise_cons] at hkeys
    have hwfrest : SideWf kord rest :=
      ⟨hkeys.2, fun y hy => hne y (List.mem_cons_of_mem _ hy),
       fun y hy => hprices y (List.mem_cons_of_mem _ hy),
       fun y hy => hseqs y (List.mem_cons_of_mem _ hy)⟩
    simp only [removeFromSide]
    by_cases hpp : p = price
    · rw [if_pos hpp]
      rcases hr : removeFirstEntry oid es with _ | es2
      · exact ⟨by simp only [List.map_cons, List.pairwise_cons]; exact ⟨hkeys.1, hkeys.2⟩,
          hne, hprices, hseqs⟩
      · simp only []
        by_cases hemp : es2.isEmpty
        · rw [if_pos hemp]
          exact hwfrest
        · rw [if_neg hemp]
          refine ⟨?_, ?_, ?_, ?_⟩
          · simp only [List.map_cons, List.pairwise_cons]
            exact ⟨hkeys.1, hkeys.2⟩
          · intro y hy
            rcases List.mem_cons.mp hy with h | h
            · subst h
              intro hc
              have hc2 : es2 = [] := hc
              rw [hc2] at hemp
              exact hemp rfl
            · exact hne y (List.mem_cons_of_mem _ h)
          · intro y hy
            rcases List.mem_cons.mp hy with h | h
            · subst h
              intro x hx
              exact hprices (p, es) (List.mem_cons_self _ _) x
                ((removeFirstEntry_sublist oid es es2 hr).mem hx)
            · exact hprices y (List.mem_cons_of_mem _ h)
          · intro y hy
            rcases List.mem_cons.mp hy with h | h
            · subst h
              exact List.Pairwise.sublist
                ((removeFirstEntry_sublist oid es es2 hr).map OrderBookEntry.sequence)
                (hseqs (p, es) (List.mem_cons_self _ _))
            · exact hseqs y (List.mem_cons_of_mem _ h)
    · rw [if_neg hpp]
      obtain ⟨hk2, hn2, hp2, hs2⟩ := ih hwfrest
      refine ⟨?_, ?_, ?_, ?_⟩
      · simp only [List.map_cons, List.pairwise_cons]
        refine ⟨?_, hk2⟩
        intro b hb
        obtain ⟨lv2, hlv2, hlv2b⟩ := List.mem_map.mp hb
        have := (removeFromSide_keys_sublist price oid rest).mem
          (hlv2b ▸ List.mem_map_of_mem Prod.fst hlv2)
        exact hkeys.1 b this
      · intro y hy
        rcases List.mem_cons.mp hy with h | h
        · subst h
          exact hne (p, es) (List.mem_cons_self _ _)
        · exact hn2 y h
      · intro y hy
        rcases List.mem_cons.mp hy with h | h
        · subst h
          exact hprices (p, es) (List.mem_cons_self _ _)
        · exact hp2 y h
      · intro y hy
        rcases List.mem_cons.mp hy with h | h
        · subst h
          exact hseqs (p, es) (List.mem_cons_self _ _)
        · exact hs2 y h

lemma insertEntry_entries_perm (bf : Nat → Nat → Bool) (p : Nat) (e : OrderBookEntry) :
    ∀ sd : BookSide,
      (OrderBook.sideEntries (insertEntry bf p e sd)).Perm
        (OrderBook.sideEntries sd ++ [e]) := by
  intro sd
  induction sd with
  | nil =>
    simp [insertEntry, OrderBook.sideEntries]
  | cons lv rest ih =>
    rcases lv with ⟨q, es⟩
    simp only [insertEntry]
    by_cases hpq : p = q
    · rw [if_pos hpq]
      simp only [sideEntries_cons, List.append_assoc]
      exact List.Perm.append_left es
        (List.perm_append_comm.trans (List.Perm.refl _))
    · rw [if_neg hpq]
      by_cases hb : bf p q
      · rw [if_pos hb]
        simp only [sideEntries_cons]
        exact (@List.perm_append_comm _ [e] _).trans (List.Perm.refl _)
      · rw [if_neg (by simp [hb])]
        simp only [sideEntries_cons, List.append_assoc]
        exact List.Perm.append_left es ih

lemma insertEntry_keys_mem (bf : Nat → Nat → Bool) (p : Nat) (e : OrderBookEntry) :
    ∀ sd : BookSide, ∀ k ∈ (insertEntry bf p e sd).map Prod.fst,
      k ∈ sd.map Prod.fst ∨ k = p := by
  intro sd
  induction sd with
  | nil =>
    intro k hk
    simp [insertEntry] at hk
    exact Or.inr hk
  | cons lv rest ih =>
    rcases lv with ⟨q, es⟩
    intro k hk
    simp only [insertEntry] at hk
    by_cases hpq : p = q
    · rw [if_pos hpq] at hk
      simp only [List.map_cons] at hk ⊢
      exact Or.inl hk
    · rw [if_neg hpq] at hk
      by_cases hb : bf p q
      · rw [if_pos hb] at hk
        simp only [List.map_cons, List.mem_cons] at hk ⊢
        rcases hk with hk | hk | hk
        · exact Or.inr hk
        · exact Or.inl (Or.inl hk)
        · exact Or.inl (Or.inr hk)
      · rw [if_neg (by simp [hb])] at hk
        simp only [List.map_cons, List.mem_cons] at hk ⊢
        rcases hk with hk | hk
        · exact Or.inl (Or.inl hk)
        · rcases ih k hk with h | h
          · exact Or.inl (Or.inr h)
          · exact Or.inr h

lemma insertEntry_sidewf (kord : Nat → Nat → Prop) (bf : Nat → Nat → Bool)
    (p : Nat) (e : OrderBookEntry)
    (hbt : ∀ a b, bf a b = true → kord a b)
    (hbf : ∀ a b, a ≠ b → bf a b = false → kord b a)
    (htr : ∀ a b c, kord a b → kord b c → kord a c)
    (hep : e.price_in_cents = p) :
    ∀ sd : BookSide, SideWf kord sd →
      (∀ x ∈ OrderBook.sideEntries sd, x.sequence < e.sequence) →
      SideWf kord (insertEntry bf p e sd) := by
  intro sd
  induction sd with
  | nil =>
    intro _ _
    refine ⟨by simp [insertEntry], ?_, ?_, ?_⟩
    · intro lv hlv
      simp only [insertEntry, List.mem_singleton] at hlv
      rw [hlv]
      simp
    · intro lv hlv x hx
      simp only [insertEntry, List.mem_singleton] at hlv
      rw [hlv] at hx ⊢
      simp only [List.mem_singleton] at hx
      rw [hx]
      exact hep
    · intro lv hlv
      simp only [insertEntry, List.mem_singleton] at hlv
      rw [hlv]
      simp
  | cons lv rest ih =>
    rcases lv with ⟨q, es⟩
    intro hwf hseq
    obtain ⟨hkeys, hne, hprices, hseqs⟩ := hwf
    simp only [List.map_cons, List.pairwise_cons] at hkeys
    have hwfrest : SideWf kord rest :=
      ⟨hkeys.2, fun y hy => hne y (List.mem_cons_of_mem _ hy),
       fun y hy => hprices y (List.mem_cons_of_mem _ hy),
       fun y hy => hseqs y (List.mem_cons_of_mem _ hy)⟩
    have hseqrest : ∀ x ∈ OrderBook.sideEntries rest, x.sequence < e.sequence := by
      intro x hx
      refine hseq x ?_
      rw [sideEntries_cons]
      exact List.mem_append.mpr (Or.inr hx)
    simp only [insertEntry]
    by_cases hpq : p = q
    · rw [if_pos hpq]
      refine ⟨?_, ?_, ?_, ?_⟩
      · simp only [List.map_cons, List.pairwise_cons]
        exact ⟨hkeys.1, hkeys.2⟩
      · intro y hy
        rcases List.mem_cons.mp hy with h | h
        · rw [h]
          simp
        · exact hne y (List.mem_cons_of_mem _ h)
      · intro y hy x hx
        rcases List.mem_cons.mp hy with h | h
        · rw [h] at hx ⊢
          rcases List.mem_append.mp hx with h2 | h2
          · exact hprices (q, es) (List.mem_cons_self _ _) x h2
          · simp only [List.mem_singleton] at h2
            rw [h2, hep, hpq]
        · exact hprices y (List.mem_cons_of_mem _ h) x hx
      · intro y hy
        rcases List.mem_cons.mp hy with h | h
        · rw [h]
          simp only [List.map_append, List.map_cons, List.map_nil]
          rw [List.pairwise_append]
          refine ⟨hseqs (q, es) (List.mem_cons_self _ _), List.pairwise_singleton _ _, ?_⟩
          intro a ha b hb
          simp only [List.mem_singleton] at hb
          rw [hb]
          obtain ⟨x, hx, hxa⟩ := List.mem_map.mp ha
          refine hxa ▸ hseq x ?_
          rw [sideEntries_cons]
          exact List.mem_append.mpr (Or.inl hx)
        · exact hseqs y (List.mem_cons_of_mem _ h)
    · rw [if_neg hpq]
      by_cases hb : bf p q
      · rw [if_pos hb]
        refine ⟨?_, ?_, ?_, ?_⟩
        · simp only [List.map_cons, List.pairwise_cons]
          refine ⟨?_, hkeys.1, hkeys.2⟩
          intro b hb2
          rcases List.mem_cons.mp hb2 with h | h
          · rw [h]
            exact hbt p q hb
          · exact htr p q b (hbt p q hb) (hkeys.1 b h)
        · intro y hy
          rcases List.mem_cons.mp hy with h | h
          · rw [h]; simp
          · exact hne y h
        · intro y hy x hx
          rcases List.mem_cons.mp hy with h | h
          · rw [h] at hx ⊢
            simp only [List.mem_singleton] at hx
            rw [hx]
            exact hep
          · exact hprices y h x hx
        · intro y hy
          rcases List.mem_cons.mp hy with h | h
          · rw [h]; simp
          · exact hseqs y h
      · rw [if_neg (by simp [hb])]
        obtain ⟨hk2, hn2, hp2, hs2⟩ := ih hwfrest hseqrest
        refine ⟨?_, ?_, ?_, ?_⟩
        · simp only [List.map_cons, List.pairwise_cons]
          refine ⟨?_, hk2⟩
          intro b hb2
          rcases insertEntry_keys_mem bf p e rest b hb2 with h | h
          · exact hkeys.1 b h
          · rw [h]
            exact hbf p q hpq (by simpa using hb)
        · intro y hy
          rcases List.mem_cons.mp hy with h | h
          · rw [h]
            exact hne (q, es) (List.mem_cons_self _ _)
          · exact hn2 y h
        · intro y hy
          rcases List.mem_cons.mp hy with h | h
          · rw [h]
            exact hprices (q, es) (List.mem_cons_self _ _)
          · exact hp2 y h
        · intro y hy
          rcases List.mem_cons.mp hy with h | h
          · rw [h]
            exact hseqs (q, es) (List.mem_cons_self _ _)
          · exact hs2 y h

lemma getOrder?_mem (st : OrderStore) (i : Nat) (o : DBOrder)
    (h : getOrder? st i = some o) : o ∈ st :=
  List.mem_of_find?_eq_some h

lemma getOrder?_none_of_not_mem (st : OrderStore) (i : Nat)
    (h : i ∉ st.map DBOrder.order_id) : getOrder? st i = none := by
  induction st with
  | nil => rfl
  | cons x t ih =>
    simp only [List.map_cons, List.mem_cons, not_or] at h
    simp only [getOrder?, List.find?_cons]
    have h2 : (decide (x.order_id = i)) = false := by
      simp only [decide_eq_false_iff_not]
      exact fun hc => h.1 hc.symm
    simp only [h2]
    exact ih h.2

lemma getOrder?_append (st st2 : OrderStore) (i : Nat) :
    getOrder? (st ++ st2) i =
      match getOrder? st i with
      | some o => some o
      | none => getOrder? st2 i := by
  induction st with
  | nil => rfl
  | cons x t ih =>
    simp only [getOrder?, List.cons_append, List.find?_cons] at ih ⊢
    by_cases hx : x.order_id = i
    · have h2 : (decide (x.order_id = i)) = true := by simp [hx]
      simp only [h2]
    · have h2 : (decide (x.order_id = i)) = false := by
        simp only [decide_eq_false_iff_not]
        exact hx
      simp only [h2]
      exact ih

lemma getOrder?_append_fresh (st : OrderStore) (o : DBOrder)
    (h : o.order_id ∉ st.map DBOrder.order_id) :
    getOrder? (st ++ [o]) o.order_id = some o := by
  rw [getOrder?_append, getOrder?_none_of_not_mem st o.order_id h]
  simp [getOrder?]

lemma getOrder?_append_old (st : OrderStore) (o2 : DBOrder) (i : Nat)
    (x : DBOrder) (h : getOrder? st i = some x) :
    getOrder? (st ++ [o2]) i = some x := by
  rw [getOrder?_append, h]

lemma consumeSide_cons (sd : BookSide) (t : TradeData) (ts : List TradeData) :
    consumeSide sd (t :: ts) =
      consumeSide (consumeLevel t.maker_order_id t.quantity sd) ts := rfl

lemma consumeSide_ids_sublist (ts : List TradeData) :
    ∀ sd : BookSide, (sideIds (consumeSide sd ts)).Sublist (sideIds sd) := by
  induction ts with
  | nil => intro sd; exact List.Sublist.refl _
  | cons t ts ih =>
    intro sd
    rw [consumeSide_cons]
    exact (ih _).trans (consumeLevel_ids_sublist _ _ sd)

lemma consumeSide_sidewf (kord : Nat → Nat → Prop) (ts : List TradeData) :
    ∀ sd : BookSide, SideWf kord sd → SideWf kord (consumeSide sd ts) := by
  induction ts with
  | nil => intro sd h; exact h
  | cons t ts ih =>
    intro sd h
    rw [consumeSide_cons]
    exact ih _ (consumeLevel_sidewf kord _ _ sd h)

lemma entryAligned_mono (st st2 : OrderStore) (side : Side) (e : OrderBookEntry)
    (h : EntryAligned st side e)
    (hrow : getOrder? st2 e.order_id = getOrder? st e.order_id) :
    EntryAligned st2 side e := by
  obtain ⟨o, ho, hrest⟩ := h
  exact ⟨o, by rw [hrow]; exact ho, hrest⟩

lemma bumpFold_core (ts : List TradeData) :
    ∀ tr : DBOrder,
      sameCore tr (List.foldl (fun r t => bumpRow r t.quantity) tr ts) := by
  induction ts with
  | nil => intro tr; exact sameCore_refl tr
  | cons t ts ih =>
    intro tr
    simp only [List.foldl_cons]
    exact sameCore_trans _ _ _ (bumpRow_core tr t.quantity) (ih _)

lemma bumpFold_filled (ts : List TradeData) :
    ∀ tr : DBOrder,
      (List.foldl (fun r t => bumpRow r t.quantity) tr ts).filled_quantity =
        tr.filled_quantity + sumQty ts := by
  induction ts with
  | nil => intro tr; simp [sumQty]
  | cons t ts ih =>
    intro tr
    simp only [List.foldl_cons]
    rw [ih, bumpRow_filled]
    simp [sumQty]
    omega

lemma bumpFold_status_pos (ts : List TradeData) :
    ∀ tr : DBOrder, ts ≠ [] → (∀ t ∈ ts, 0 < t.quantity) →
      (List.foldl (fun r t => bumpRow r t.quantity) tr ts).status =
        if tr.quantity ≤ tr.filled_quantity + sumQty ts then OrderStatus.FILLED
        else OrderStatus.PARTIAL := by
  induction ts with
  | nil => intro tr h; exact absurd rfl h
  | cons t ts ih =>
    intro tr _ hpos
    simp only [List.foldl_cons]
    cases ts with
    | nil =>
      simp only [List.foldl_nil]
      rw [bumpRow_status]
      have hq : 0 < t.quantity := hpos t (List.mem_cons_self _ _)
      have hs : sumQty [t] = t.quantity := by simp [sumQty]
      by_cases hle : tr.quantity ≤ tr.filled_quantity + t.quantity
      · rw [if_pos hle, if_pos (by rw [hs]; omega)]
      · rw [if_neg hle, if_pos (by omega), if_neg (by rw [hs]; omega)]
    | cons t2 ts2 =>
      rw [ih _ (by simp) (fun x hx => hpos x (List.mem_cons_of_mem _ hx))]
      rw [bumpRow_filled]
      have hcore := bumpRow_core tr t.quantity
      rw [← hcore.2.2.2.2.2.1]
      have hs : sumQty (t :: t2 :: ts2) = t.quantity + sumQty (t2 :: ts2) := by
        simp [sumQty]
      by_cases hle : tr.quantity ≤ tr.filled_quantity + sumQty (t :: t2 :: ts2)
      · rw [if_pos (by omega : tr.quantity ≤ tr.filled_quantity + t.quantity + sumQty (t2 :: ts2)),
          if_pos hle]
      · rw [if_neg (by omega : ¬ tr.quantity ≤ tr.filled_quantity + t.quantity + sumQty (t2 :: ts2)),
          if_neg hle]

end OrderBook

namespace SymbolOrderProcessor

open OrderBook

lemma applyTrade_store (tk : String) (s : EngineState) (t : TradeData)
    (s2 : EngineState) (h : applyTrade tk s t = Except.ok s2) :
    ∃ oB oS,
      getOrder? s.store t.buy_order_id = some oB ∧
      oB.filled_quantity + t.quantity ≤ oB.quantity ∧
      getOrder? (setOrder s.store (bumpRow oB t.quantity)) t.sell_order_id = some oS ∧
      oS.filled_quantity + t.quantity ≤ oS.quantity ∧
      s2.store = setOrder (setOrder s.store (bumpRow oB t.quantity)) (bumpRow oS t.quantity) := by
  simp only [applyTrade] at h
  rcases hsell : PositionRepository.update_for_sell_without_commit
      (PositionRepository.update_for_buy_without_commit s.positions t.buyer_id
        tk t.quantity t.price_in_cents) t.seller_id tk t.quantity
    with e | pos2
  · rw [hsell] at h
    cases h
  · rw [hsell] at h
    simp only [] at h
    rcases hbuy : OrderRepository.update_filled_without_commit s.store
        t.buy_order_id t.quantity with e | store1
    · rw [hbuy] at h
      cases h
    · rw [hbuy] at h
      simp only [] at h
      rcases hsello : OrderRepository.update_filled_without_commit store1
          t.sell_order_id t.quantity with e | store2
      · rw [hsello] at h
        cases h
      · rw [hsello] at h
        simp only [] at h
        cases h
        obtain ⟨oB, hB, hvB, hst1⟩ := update_filled_store_ok s.store t.buy_order_id
          t.quantity store1 hbuy
        obtain ⟨oS, hS, hvS, hst2⟩ := update_filled_store_ok store1 t.sell_order_id
          t.quantity store2 hsello
        subst hst1
        exact ⟨oB, oS, hB, hvB, hS, hvS, by rw [← hst2]⟩

lemma bumpRow_id (o : DBOrder) (d : Nat) : (bumpRow o d).order_id = o.order_id :=
  ((bumpRow_core o d).1).symm

lemma applyTrade_rows (tk : String) (s : EngineState) (t : TradeData)
    (s2 : EngineState) (h : applyTrade tk s t = Except.ok s2) :
    s2.store.map DBOrder.order_id = s.store.map DBOrder.order_id ∧
    ∀ i o2, getOrder? s2.store i = some o2 →
      ∃ o, getOrder? s.store i = some o ∧ sameCore o o2 ∧
        (o2 = o ∨ o2.filled_quantity ≤ o2.quantity) := by
  obtain ⟨oB, oS, hB, hvB, hS, hvS, hst⟩ := applyTrade_store tk s t s2 h
  have hidB : oB.order_id = t.buy_order_id := getOrder?_some_id _ _ _ hB
  have hidS : oS.order_id = t.sell_order_id := getOrder?_some_id _ _ _ hS
  constructor
  · rw [hst, setOrder_ids, setOrder_ids]
  · intro i o2 hget
    rw [hst] at hget
    by_cases hiS : i = t.sell_order_id
    · subst hiS
      rw [← hidS, ← bumpRow_id oS t.quantity, getOrder?_setOrder_eq,
        bumpRow_id oS t.quantity, hidS, hS] at hget
      simp only [Option.map] at hget
      injection hget with hget
      subst hget
      by_cases hiB : t.sell_order_id = t.buy_order_id
      · rw [hiB, ← hidB, ← bumpRow_id oB t.quantity, getOrder?_setOrder_eq,
          bumpRow_id oB t.quantity, hidB, hB] at hS
        simp only [Option.map] at hS
        injection hS with hS
        refine ⟨oB, by rw [← hiB] at hB; exact hB, ?_, ?_⟩
        · rw [← hS]
          exact sameCore_trans _ _ _ (bumpRow_core oB t.quantity)
            (bumpRow_core (bumpRow oB t.quantity) t.quantity)
        · right
          rw [bumpRow_filled]
          have := (bumpRow_core oS t.quantity).2.2.2.2.2.1
          omega
      · rw [getOrder?_setOrder_ne _ _ _ (by rw [bumpRow_id, hidB]; exact hiB)] at hS
        refine ⟨oS, hS, bumpRow_core oS t.quantity, ?_⟩
        right
        rw [bumpRow_filled]
        have := (bumpRow_core oS t.quantity).2.2.2.2.2.1
        omega
    · rw [getOrder?_setOrder_ne _ _ _ (by rw [bumpRow_id, hidS]; exact hiS)] at hget
      by_cases hiB : i = t.buy_order_id
      · subst hiB
        rw [← hidB, ← bumpRow_id oB t.quantity, getOrder?_setOrder_eq,
          bumpRow_id oB t.quantity, hidB, hB] at hget
        simp only [Option.map] at hget
        injection hget with hget
        subst hget
        refine ⟨oB, hB, bumpRow_core oB t.quantity, ?_⟩
        right
        rw [bumpRow_filled]
        have := (bumpRow_core oB t.quantity).2.2.2.2.2.1
        omega
      · rw [getOrder?_setOrder_ne _ _ _ (by rw [bumpRow_id, hidB]; exact hiB)] at hget
        exact ⟨o2, hget, sameCore_refl o2, Or.inl rfl⟩

lemma applyTrades_rows (tk : String) :
    ∀ (ts : List TradeData) (s s2 : EngineState),
      applyTrades tk s ts = Except.ok s2 →
      s2.store.map DBOrder.order_id = s.store.map DBOrder.order_id ∧
      ∀ i o2, getOrder? s2.store i = some o2 →
        ∃ o, getOrder? s.store i = some o ∧ sameCore o o2 ∧
          (o2 = o ∨ o2.filled_quantity ≤ o2.quantity) := by
  intro ts
  induction ts with
  | nil =>
    intro s s2 h
    simp only [applyTrades] at h
    cases h
    exact ⟨rfl, fun i o2 hget => ⟨o2, hget, sameCore_refl o2, Or.inl rfl⟩⟩
  | cons t ts ih =>
    intro s s2 h
    simp only [applyTrades] at h
    rcases h1 : applyTrade tk s t with e | s1
    · rw [h1] at h
      cases h
    · rw [h1] at h
      simp only [] at h
      obtain ⟨hids1, hrows1⟩ := applyTrade_rows tk s t s1 h1
      obtain ⟨hids2, hrows2⟩ := ih s1 s2 h
      refine ⟨hids2.trans hids1, ?_⟩
      intro i o2 hget
      obtain ⟨ob, hb, hcb, hdb⟩ := hrows2 i o2 hget
      obtain ⟨oa, ha, hca, hda⟩ := hrows1 i ob hb
      refine ⟨oa, ha, sameCore_trans _ _ _ hca hcb, ?_⟩
      rcases hdb with hdb | hdb
      · subst hdb
        exact hda
      · exact Or.inr hdb

end SymbolOrderProcessor

namespace SymbolOrderProcessor

open OrderBook OrderBookMatcher

lemma mem_sideEntries (sd : BookSide) (lv : Nat × List OrderBookEntry)
    (e : OrderBookEntry) (hlv : lv ∈ sd) (he : e ∈ lv.2) :
    e ∈ OrderBook.sideEntries sd :=
  List.mem_flatMap.mpr ⟨lv, hlv, he⟩

lemma sideIds_mem (sd : BookSide) (e : OrderBookEntry)
    (he : e ∈ OrderBook.sideEntries sd) : e.order_id ∈ sideIds sd :=
  List.mem_map_of_mem OrderBookEntry.order_id he

lemma sideEntries_id_inj (sd : BookSide) (hnd : (sideIds sd).Nodup)
    (a b : OrderBookEntry) (ha : a ∈ OrderBook.sideEntries sd)
    (hb : b ∈ OrderBook.sideEntries sd) (hid : a.order_id = b.order_id) : a = b :=
  List.inj_on_of_nodup_map hnd ha hb hid

lemma create_trade_ids_buy (o : DBOrder) (e : OrderBookEntry) (q p : Nat)
    (tk : String) (h : o.side = Side.BUY) :
    (create_trade o e q p tk).buy_order_id = o.order_id ∧
    (create_trade o e q p tk).sell_order_id = e.order_id := by
  simp [create_trade, h]

lemma create_trade_ids_sell (o : DBOrder) (e : OrderBookEntry) (q p : Nat)
    (tk : String) (h : o.side = Side.SELL) :
    (create_trade o e q p tk).buy_order_id = e.order_id ∧
    (create_trade o e q p tk).sell_order_id = o.order_id := by
  simp [create_trade, h]

lemma twoBump_rows (st : OrderStore) (a b q : Nat) (oA oB2 : DBOrder)
    (hab : a ≠ b)
    (hA : getOrder? st a = some oA)
    (hB : getOrder? (setOrder st (bumpRow oA q)) b = some oB2) :
    getOrder? st b = some oB2 ∧
    getOrder? (setOrder (setOrder st (bumpRow oA q)) (bumpRow oB2 q)) a =
      some (bumpRow oA q) ∧
    getOrder? (setOrder (setOrder st (bumpRow oA q)) (bumpRow oB2 q)) b =
      some (bumpRow oB2 q) ∧
    (∀ i, i ≠ a → i ≠ b →
      getOrder? (setOrder (setOrder st (bumpRow oA q)) (bumpRow oB2 q)) i =
        getOrder? st i) := by
  have hidA : oA.order_id = a := getOrder?_some_id st a oA hA
  have hB0 : getOrder? st b = some oB2 := by
    rw [← hB, getOrder?_setOrder_ne st (bumpRow oA q) b (by rw [bumpRow_id, hidA]; exact fun hc => hab hc.symm)]
  have hidB : oB2.order_id = b := getOrder?_some_id st b oB2 hB0
  refine ⟨hB0, ?_, ?_, ?_⟩
  · rw [getOrder?_setOrder_ne _ (bumpRow oB2 q) a (by rw [bumpRow_id, hidB]; exact hab)]
    have := getOrder?_setOrder_eq st (bumpRow oA q)
    rw [bumpRow_id, hidA] at this
    rw [this, hA]
    rfl
  · have := getOrder?_setOrder_eq (setOrder st (bumpRow oA q)) (bumpRow oB2 q)
    rw [bumpRow_id, hidB] at this
    rw [this, hB]
    rfl
  · intro i hia hib
    rw [getOrder?_setOrder_ne _ (bumpRow oB2 q) i (by rw [bumpRow_id, hidB]; exact hib),
      getOrder?_setOrder_ne _ (bumpRow oA q) i (by rw [bumpRow_id, hidA]; exact hia)]

lemma lockstep_conclude (order : DBOrder) (mside : Side) (vsd : BookSide)
    (st st2 : OrderStore) (e : OrderBookEntry) (ro : DBOrder) (q0 : Nat)
    (hnd : (sideIds vsd).Nodup)
    (halign : ∀ x ∈ OrderBook.sideEntries vsd, EntryAligned st mside x)
    (hfresh : order.order_id ∉ sideIds vsd)
    (hee : e ∈ OrderBook.sideEntries vsd)
    (hq0 : 0 < q0) (hq0le : q0 ≤ e.remaining_quantity)
    (hro : getOrder? st e.order_id = some ro)
    (F1 : ∀ tr, getOrder? st order.order_id = some tr →
      getOrder? st2 order.order_id = some (bumpRow tr q0) ∧
      tr.filled_quantity + q0 ≤ tr.quantity)
    (F2 : getOrder? st2 e.order_id = some (bumpRow ro q0))
    (F3 : ∀ i, i ≠ order.order_id → i ≠ e.order_id →
      getOrder? st2 i = getOrder? st i) :
    (∀ x ∈ OrderBook.sideEntries (consumeLevel e.order_id q0 vsd),
      EntryAligned st2 mside x) ∧
    (∀ i, i ∈ sideIds vsd → i ∉ sideIds (consumeLevel e.order_id q0 vsd) →
      ∃ ro2, getOrder? st2 i = some ro2 ∧ ro2.status = OrderStatus.FILLED) := by
  obtain ⟨ro0, hro0, hside0, htype0, hlive0, hlp0, htid0, hseq0, hqty0, hfil0, hrem0⟩ :=
    halign e hee
  rw [hro] at hro0
  injection hro0 with hro0
  subst hro0
  have hm_ne : e.order_id ≠ order.order_id := by
    intro hc
    exact hfresh (hc ▸ sideIds_mem vsd e hee)
  constructor
  · intro x hx
    rcases consumeLevel_mem e.order_id q0 vsd hnd x hx with ⟨hxm, hxne⟩ | ⟨e2, he2, hid2, hz2, hx2⟩
    · have hxid_ne_oid : x.order_id ≠ order.order_id := by
        intro hc
        exact hfresh (hc ▸ sideIds_mem vsd x hxm)
      exact entryAligned_mono st st2 mside x (halign x hxm)
        (F3 x.order_id hxid_ne_oid hxne)
    · have he2e : e2 = e := sideEntries_id_inj vsd hnd e2 e he2 hee hid2
      subst he2e
      subst hx2
      refine ⟨bumpRow ro q0, F2, ?_, ?_, ?_, ?_, ?_, ?_, ?_, ?_, ?_⟩
      · rw [← (bumpRow_core ro q0).2.2.2.1]
        exact hside0
      · rw [← (bumpRow_core ro q0).2.2.2.2.1]
        exact htype0
      · right
        rw [bumpRow_status]
        have hqle : ro.filled_quantity + q0 < ro.quantity := by omega
        rw [if_neg (by omega), if_pos (by omega)]
      · rw [← (bumpRow_core ro q0).2.2.2.2.2.2.1]
        exact hlp0
      · rw [← (bumpRow_core ro q0).2.1]
        exact htid0
      · rw [← (bumpRow_core ro q0).2.2.2.2.2.2.2]
        exact hseq0
      · rw [← (bumpRow_core ro q0).2.2.2.2.2.1]
        exact hqty0
      · rw [bumpRow_filled, ← (bumpRow_core ro q0).2.2.2.2.2.1]
        omega
      · rw [bumpRow_filled, ← (bumpRow_core ro q0).2.2.2.2.2.1]
        simp only []
        omega
  · intro i hi hnoti
    have him : i = e.order_id := by
      by_contra hc
      obtain ⟨x, hxmem, hxid⟩ := List.mem_map.mp hi
      have hxkeep := consumeLevel_keep e.order_id q0 vsd x hxmem
        (by rw [hxid]; exact hc)
      exact hnoti (hxid ▸ sideIds_mem _ x hxkeep)
    subst him
    have hz : e.remaining_quantity - q0 = 0 := by
      by_contra hc
      have hkept := consumeLevel_kept_mem e.order_id q0 vsd hnd e hee rfl hc
      refine hnoti ?_
      have : ({ e with remaining_quantity := e.remaining_quantity - q0 } :
          OrderBookEntry).order_id = e.order_id := rfl
      exact this ▸ sideIds_mem _ _ hkept
    refine ⟨bumpRow ro q0, F2, ?_⟩
    rw [bumpRow_status, if_pos (by omega)]

lemma applyTrade_lockstep (order : DBOrder) (tk : String) (mside : Side)
    (vsd : BookSide) (s : EngineState) (t : TradeData) (s2 : EngineState)
    (hfrom : TradeFrom order tk vsd t)
    (h : applyTrade tk s t = Except.ok s2)
    (hnd : (sideIds vsd).Nodup)
    (halign : ∀ x ∈ OrderBook.sideEntries vsd, EntryAligned s.store mside x)
    (hfresh : order.order_id ∉ sideIds vsd) :
    (∀ x ∈ OrderBook.sideEntries (consumeLevel t.maker_order_id t.quantity vsd),
      EntryAligned s2.store mside x) ∧
    (∀ tr, getOrder? s.store order.order_id = some tr →
      getOrder? s2.store order.order_id = some (bumpRow tr t.quantity) ∧
      tr.filled_quantity + t.quantity ≤ tr.quantity) ∧
    (∀ i, i ≠ order.order_id → i ∉ sideIds vsd →
      getOrder? s2.store i = getOrder? s.store i) ∧
    (∀ i, i ∈ sideIds vsd → i ∉ sideIds (consumeLevel t.maker_order_id t.quantity vsd) →
      ∃ ro2, getOrder? s2.store i = some ro2 ∧ ro2.status = OrderStatus.FILLED) ∧
    0 < t.quantity := by
  obtain ⟨lv, hlv, e, he, q0, hq0, hq0le, ht⟩ := hfrom
  subst ht
  simp only [create_trade_quantity, create_trade_maker]
  have hee : e ∈ OrderBook.sideEntries vsd := mem_sideEntries vsd lv e hlv he
  obtain ⟨ro, hro, hrest⟩ := halign e hee
  have hm_ne : e.order_id ≠ order.order_id := by
    intro hc
    exact hfresh (hc ▸ sideIds_mem vsd e hee)
  obtain ⟨oB, oS, hB, hvB, hS, hvS, hst⟩ := applyTrade_store tk s _ s2 h
  cases hside : order.side with
  | BUY =>
    obtain ⟨hbuy, hsell⟩ := create_trade_ids_buy order e q0 lv.1 tk hside
    simp only [create_trade_quantity, hbuy, hsell] at hB hvB hS hvS hst
    obtain ⟨hB0, hfa, hfb, hunch⟩ := twoBump_rows s.store order.order_id e.order_id q0
      oB oS (fun hc => hm_ne hc.symm) hB hS
    rw [hro] at hB0
    injection hB0 with hB0
    subst hB0
    rw [← hst] at hfa hfb hunch
    have F1 : ∀ tr, getOrder? s.store order.order_id = some tr →
        getOrder? s2.store order.order_id = some (bumpRow tr q0) ∧
        tr.filled_quantity + q0 ≤ tr.quantity := by
      intro tr htr
      rw [hB] at htr
      injection htr with htr
      subst htr
      exact ⟨hfa, hvB⟩
    have F3 : ∀ i, i ≠ order.order_id → i ≠ e.order_id →
        getOrder? s2.store i = getOrder? s.store i := hunch
    have C := lockstep_conclude order mside vsd s.store s2.store e ro q0
      hnd halign hfresh hee hq0 hq0le hro F1 hfb F3
    refine ⟨C.1, F1, ?_, C.2, hq0⟩
    intro i hioid hivsd
    refine F3 i hioid ?_
    intro hc
    exact hivsd (hc ▸ sideIds_mem vsd e hee)
  | SELL =>
    obtain ⟨hbuy, hsell⟩ := create_trade_ids_sell order e q0 lv.1 tk hside
    simp only [create_trade_quantity, hbuy, hsell] at hB hvB hS hvS hst
    obtain ⟨hB0, hfa, hfb, hunch⟩ := twoBump_rows s.store e.order_id order.order_id q0
      oB oS hm_ne hB hS
    rw [hB] at hro
    injection hro with hro2
    rw [← hst] at hfa hfb hunch
    have F1 : ∀ tr, getOrder? s.store order.order_id = some tr →
        getOrder? s2.store order.order_id = some (bumpRow tr q0) ∧
        tr.filled_quantity + q0 ≤ tr.quantity := by
      intro tr htr
      rw [hB0] at htr
      injection htr with htr
      subst htr
      exact ⟨hfb, hvS⟩
    have F3 : ∀ i, i ≠ order.order_id → i ≠ e.order_id →
        getOrder? s2.store i = getOrder? s.store i := by
      intro i hioid hie
      exact hunch i hie hioid
    have F2 : getOrder? s2.store e.order_id = some (bumpRow ro q0) := by
      rw [← hro2]
      exact hfa
    have C := lockstep_conclude order mside vsd s.store s2.store e ro q0
      hnd halign hfresh hee hq0 hq0le (by rw [← hro2]; exact hB) F1 F2 F3
    refine ⟨C.1, F1, ?_, C.2, hq0⟩
    intro i hioid hivsd
    refine F3 i hioid ?_
    intro hc
    exact hivsd (hc ▸ sideIds_mem vsd e hee)

lemma applyTrades_lockstep (order : DBOrder) (tk : String) (mside : Side) :
    ∀ (ts : List TradeData) (vsd : BookSide) (s s2 : EngineState),
      SeqConsumable order tk vsd ts →
      applyTrades tk s ts = Except.ok s2 →
      (sideIds vsd).Nodup →
      (∀ x ∈ OrderBook.sideEntries vsd, EntryAligned s.store mside x) →
      order.order_id ∉ sideIds vsd →
      (∀ tr, getOrder? s.store order.order_id = some tr →
        tr.filled_quantity ≤ tr.quantity) →
      (∀ x ∈ OrderBook.sideEntries (consumeSide vsd ts), EntryAligned s2.store mside x) ∧
      (∀ tr, getOrder? s.store order.order_id = some tr →
        getOrder? s2.store order.order_id =
          some (List.foldl (fun r t => bumpRow r t.quantity) tr ts) ∧
        tr.filled_quantity + sumQty ts ≤ tr.quantity) ∧
      (∀ i, i ≠ order.order_id → i ∉ sideIds vsd →
        getOrder? s2.store i = getOrder? s.store i) ∧
      (∀ i, i ∈ sideIds vsd → i ∉ sideIds (consumeSide vsd ts) →
        ∃ ro2, getOrder? s2.store i = some ro2 ∧ ro2.status = OrderStatus.FILLED) ∧
      (∀ t ∈ ts, 0 < t.quantity) := by
  intro ts
  induction ts with
  | nil =>
    intro vsd s s2 _ h hnd halign hfresh htrwf
    simp only [applyTrades] at h
    cases h
    refine ⟨?_, ?_, ?_, ?_, ?_⟩
    · intro x hx
      exact halign x hx
    · intro tr htr
      refine ⟨htr, ?_⟩
      have := htrwf tr htr
      simp [sumQty]
      omega
    · intro i _ _
      rfl
    · intro i hi hni
      exact absurd hi hni
    · intro t ht
      cases ht
  | cons t ts ih =>
    intro vsd s s2 hseq h hnd halign hfresh htrwf
    cases hseq with
    | cons _ _ _ hfrom hrest =>
      simp only [applyTrades] at h
      rcases h1 : applyTrade tk s t with e | s1
      · rw [h1] at h
        cases h
      · rw [h1] at h
        simp only [] at h
        obtain ⟨A1, F1s, F3s, F4s, hposq⟩ :=
          applyTrade_lockstep order tk mside vsd s t s1 hfrom h1 hnd halign hfresh
        have hnd1 : (sideIds (consumeLevel t.maker_order_id t.quantity vsd)).Nodup :=
          (consumeLevel_ids_sublist _ _ vsd).nodup hnd
        have hfresh1 : order.order_id ∉ sideIds (consumeLevel t.maker_order_id t.quantity vsd) :=
          fun hc => hfresh ((consumeLevel_ids_sublist _ _ vsd).mem hc)
        have htrwf1 : ∀ tr, getOrder? s1.store order.order_id = some tr →
            tr.filled_quantity ≤ tr.quantity := by
          intro tr htr
          obtain ⟨o0, ho0, hcore, hdisj⟩ := (applyTrade_rows tk s t s1 h1).2 _ tr htr
          rcases hdisj with hdisj | hdisj
          · subst hdisj
            exact htrwf tr ho0
          · exact hdisj
        obtain ⟨A2, F12, F32, F42, hpos2⟩ :=
          ih (consumeLevel t.maker_order_id t.quantity vsd) s1 s2 hrest h hnd1 A1 hfresh1 htrwf1
        rw [consumeSide_cons]
        refine ⟨A2, ?_, ?_, ?_, ?_⟩
        · intro tr htr
          obtain ⟨hrow1, hv1⟩ := F1s tr htr
          obtain ⟨hrow2, hv2⟩ := F12 _ hrow1
          rw [bumpRow_filled] at hv2
          have hqeq := (bumpRow_core tr t.quantity).2.2.2.2.2.1
          refine ⟨by rw [hrow2]; rfl, ?_⟩
          have hs : sumQty (t :: ts) = t.quantity + sumQty ts := by simp [sumQty]
          omega
        · intro i hioid hivsd
          have hi1 : i ∉ sideIds (consumeLevel t.maker_order_id t.quantity vsd) :=
            fun hc => hivsd ((consumeLevel_ids_sublist _ _ vsd).mem hc)
          rw [F32 i hioid hi1, F3s i hioid hivsd]
        · intro i hi hni
          by_cases hi1 : i ∈ sideIds (consumeLevel t.maker_order_id t.quantity vsd)
          · exact F42 i hi1 hni
          · obtain ⟨ro2, hro2, hstat⟩ := F4s i hi hi1
            have hioid : i ≠ order.order_id := fun hc => hfresh (hc ▸ hi)
            refine ⟨ro2, ?_, hstat⟩
            rw [F32 i hioid hi1]
            exact hro2
        · intro x hx
          rcases List.mem_cons.mp hx with hx | hx
          · exact hx ▸ hposq
          · exact hpos2 x hx




lemma match_order_shape (book : OrderBook) (o : DBOrder) (res : MatchResult)
    (h : match_order book o = some res) :
    ∃ g r,
      matchLevels o book.ticker g (oppSide book o.side) (o.quantity - o.filled_quantity)
        = (res.trades, r, oppSide res.book o.side) ∧
      ownSide res.book o.side = ownSide book o.side ∧
      res.book.ticker = book.ticker ∧
      sameCore o res.order ∧
      res.order.filled_quantity = o.filled_quantity ∧
      (o.order_type = OrderType.LIMIT → res.order = o ∧ res.remaining = r) := by
  simp only [match_order] at h
  rcases htype : o.order_type with _ | _ | _
  -- MARKET
  · rw [htype] at h
    simp only [] at h
    injection h with h
    subst h
    simp only [match_market_order, match_aggressive]
    rcases hside : o.side with _ | _
    · refine ⟨fun _ => true, (matchLevels o book.ticker (fun _ => true) book.asks
        (o.quantity - o.filled_quantity)).2.1, rfl, rfl, rfl, sameCore_refl o, trivial, ?_⟩
      intro hc
      cases hc
    · refine ⟨fun _ => true, (matchLevels o book.ticker (fun _ => true) book.bids
        (o.quantity - o.filled_quantity)).2.1, rfl, rfl, rfl, sameCore_refl o, trivial, ?_⟩
      intro hc
      cases hc
  -- LIMIT
  · rw [htype] at h
    simp only [Option.map] at h
    rcases hml : match_limit_order book o with _ | trip
    · rw [hml] at h
      cases h
    · rw [hml] at h
      injection h with h
      subst h
      simp only [match_limit_order] at hml
      rcases hlp : o.limit_price with _ | lp
      · rw [hlp] at hml
        cases hml
      · rw [hlp] at hml
        simp only [] at hml
        rcases hside : o.side with _ | _
        · rw [hside] at hml
          injection hml with hml
          subst hml
          exact ⟨limitGuard Side.BUY lp, (matchLevels o book.ticker
            (limitGuard Side.BUY lp) book.asks (o.quantity - o.filled_quantity)).2.1,
            rfl, rfl, rfl, sameCore_refl o, rfl, fun _ => ⟨rfl, rfl⟩⟩
        · rw [hside] at hml
          injection hml with hml
          subst hml
          exact ⟨limitGuard Side.SELL lp, (matchLevels o book.ticker
            (limitGuard Side.SELL lp) book.bids (o.quantity - o.filled_quantity)).2.1,
            rfl, rfl, rfl, sameCore_refl o, rfl, fun _ => ⟨rfl, rfl⟩⟩
  -- IOC
  · rw [htype] at h
    simp only [] at h
    injection h with h
    subst h
    simp only [match_ioc_order, match_aggressive]
    rcases hside : o.side with _ | _
    · refine ⟨fun _ => true, (matchLevels o book.ticker (fun _ => true) book.asks
        (o.quantity - o.filled_quantity)).2.1, ?_, ?_, ?_, ?_, ?_, ?_⟩
      · split <;> rfl
      · split <;> rfl
      · split <;> rfl
      · split
        · exact ⟨rfl, rfl, rfl, hside, rfl, rfl, rfl, rfl⟩
        · exact sameCore_refl o
      · split <;> rfl
      · intro hc
        cases hc
    · refine ⟨fun _ => true, (matchLevels o book.ticker (fun _ => true) book.bids
        (o.quantity - o.filled_quantity)).2.1, ?_, ?_, ?_, ?_, ?_, ?_⟩
      · split <;> rfl
      · split <;> rfl
      · split <;> rfl
      · split
        · exact ⟨rfl, rfl, rfl, hside, rfl, rfl, rfl, rfl⟩
        · exact sameCore_refl o
      · split <;> rfl
      · intro hc
        cases hc

/-- The opposite side. -/
def oppOf : Side → Side
  | Side.BUY => Side.SELL
  | Side.SELL => Side.BUY

/-- The strict key order of a side's level list: bids descending, asks
ascending. -/
def kordOf : Side → Nat → Nat → Prop
  | Side.BUY => fun a b => b < a
  | Side.SELL => fun a b => a < b

lemma engineInv_sides (s : EngineState) (side : Side) (hinv : EngineInv s) :
    SideWf (kordOf side) (ownSide s.book side) ∧
    SideWf (kordOf (oppOf side)) (oppSide s.book side) ∧
    (sideIds (ownSide s.book side) ++ sideIds (oppSide s.book side)).Nodup ∧
    (∀ e ∈ OrderBook.sideEntries (ownSide s.book side), EntryAligned s.store side e) ∧
    (∀ e ∈ OrderBook.sideEntries (oppSide s.book side),
      EntryAligned s.store (oppOf side) e) ∧
    (∀ x ∈ s.store, x.order_type = OrderType.LIMIT →
      (x.status = OrderStatus.PENDING ∨ x.status = OrderStatus.PARTIAL) →
      x.order_id ∈ sideIds (ownSide s.book side) ++ sideIds (oppSide s.book side)) := by
  cases side
  · exact ⟨hinv.bidsWf, hinv.asksWf, hinv.bookNodup, hinv.bidsAligned,
      hinv.asksAligned, hinv.covered⟩
  · refine ⟨hinv.asksWf, hinv.bidsWf, ?_, hinv.asksAligned, hinv.bidsAligned, ?_⟩
    · exact (List.perm_append_comm.nodup_iff).mp hinv.bookNodup
    · intro x hx h1 h2
      have := hinv.covered x hx h1 h2
      rw [List.mem_append] at this ⊢
      exact this.symm

lemma engineInv_mk (s : EngineState) (side : Side)
    (hnd : (s.store.map DBOrder.order_id).Nodup)
    (hwf : ∀ x ∈ s.store, x.filled_quantity ≤ x.quantity ∧ 0 < x.quantity ∧
      (x.order_type = OrderType.LIMIT → x.limit_price.isSome))
    (hOwnWf : SideWf (kordOf side) (ownSide s.book side))
    (hOppWf : SideWf (kordOf (oppOf side)) (oppSide s.book side))
    (hbNd : (sideIds (ownSide s.book side) ++ sideIds (oppSide s.book side)).Nodup)
    (hOwnAl : ∀ e ∈ OrderBook.sideEntries (ownSide s.book side),
      EntryAligned s.store side e)
    (hOppAl : ∀ e ∈ OrderBook.sideEntries (oppSide s.book side),
      EntryAligned s.store (oppOf side) e)
    (hCov : ∀ x ∈ s.store, x.order_type = OrderType.LIMIT →
      (x.status = OrderStatus.PENDING ∨ x.status = OrderStatus.PARTIAL) →
      x.order_id ∈ sideIds (ownSide s.book side) ++ sideIds (oppSide s.book side)) :
    EngineInv s := by
  cases side
  · exact ⟨hnd, hwf, hOwnWf, hOppWf, hbNd, hOwnAl, hOppAl, hCov⟩
  · refine ⟨hnd, hwf, hOppWf, hOwnWf, ?_, hOppAl, hOwnAl, ?_⟩
    · exact (List.perm_append_comm.nodup_iff).mp hbNd
    · intro x hx h1 h2
      have := hCov x hx h1 h2
      rw [List.mem_append] at this ⊢
      exact this.symm

lemma add_order_sides (book : OrderBook) (side : Side) (p : Nat)
    (e : OrderBookEntry) :
    ownSide (book.add_order side p e) side =
      OrderBook.insertEntry (OrderBook.sideBefore side) p e (ownSide book side) ∧
    oppSide (book.add_order side p e) side = oppSide book side ∧
    (book.add_order side p e).ticker = book.ticker := by
  cases side
  · exact ⟨rfl, rfl, rfl⟩
  · exact ⟨rfl, rfl, rfl⟩

lemma sideBefore_true (side : Side) (a b : Nat)
    (h : OrderBook.sideBefore side a b = true) : kordOf side a b := by
  cases side
  · simpa [OrderBook.sideBefore, kordOf] using h
  · simpa [OrderBook.sideBefore, kordOf] using h

lemma sideBefore_false (side : Side) (a b : Nat) (hne : a ≠ b)
    (h : OrderBook.sideBefore side a b = false) : kordOf side b a := by
  cases side
  · simp only [OrderBook.sideBefore, decide_eq_false_iff_not] at h
    simp only [kordOf]
    omega
  · simp only [OrderBook.sideBefore, decide_eq_false_iff_not] at h
    simp only [kordOf]
    omega

lemma kordOf_trans (side : Side) (a b c : Nat) (h1 : kordOf side a b)
    (h2 : kordOf side b c) : kordOf side a c := by
  cases side
  · simp only [kordOf] at h1 h2 ⊢
    omega
  · simp only [kordOf] at h1 h2 ⊢
    omega

lemma oppSide_congr (b1 b2 : OrderBook) (side : Side)
    (hb : b1.bids = b2.bids) (ha : b1.asks = b2.asks) :
    ownSide b1 side = ownSide b2 side ∧ oppSide b1 side = oppSide b2 side := by
  cases side
  · exact ⟨hb, ha⟩
  · exact ⟨ha, hb⟩

lemma bookIds_sub_store (s : EngineState) (hinv : EngineInv s) :
    ∀ i, i ∈ sideIds s.book.bids ++ sideIds s.book.asks →
      i ∈ s.store.map DBOrder.order_id := by
  intro i hi
  rcases List.mem_append.mp hi with hi | hi
  · obtain ⟨e, he, hei⟩ := List.mem_map.mp hi
    obtain ⟨ro, hro, _⟩ := hinv.bidsAligned e he
    have := getOrder?_some_id _ _ _ hro
    rw [← hei, ← this]
    exact List.mem_map_of_mem DBOrder.order_id (getOrder?_mem _ _ _ hro)
  · obtain ⟨e, he, hei⟩ := List.mem_map.mp hi
    obtain ⟨ro, hro, _⟩ := hinv.asksAligned e he
    have := getOrder?_some_id _ _ _ hro
    rw [← hei, ← this]
    exact List.mem_map_of_mem DBOrder.order_id (getOrder?_mem _ _ _ hro)

lemma bookIds_sub_store_sides (s : EngineState) (side : Side) (hinv : EngineInv s) :
    ∀ i, i ∈ sideIds (ownSide s.book side) ++ sideIds (oppSide s.book side) →
      i ∈ s.store.map DBOrder.order_id := by
  intro i hi
  refine bookIds_sub_store s hinv i ?_
  rw [List.mem_append] at hi ⊢
  cases side
  · exact hi
  · exact hi.symm

lemma processNewOrder_inv (s0 : EngineState) (o : DBOrder) (s3 : EngineState)
    (hinv : EngineInv s0)
    (hfresh : o.order_id ∉ s0.store.map DBOrder.order_id)
    (hseqb : ∀ x ∈ s0.store, x.sequence < o.sequence)
    (hst : o.status = OrderStatus.PENDING)
    (hfq : o.filled_quantity = 0)
    (hqty : 0 < o.quantity)
    (hlim : o.order_type = OrderType.LIMIT → o.limit_price.isSome)
    (h : processNewOrder { s0 with store := s0.store ++ [o] } o.order_id = Except.ok s3) :
    EngineInv s3 ∧
    s3.store.map DBOrder.order_id = s0.store.map DBOrder.order_id ++ [o.order_id] ∧
    (∀ x ∈ s3.store, x.sequence = o.sequence ∨ ∃ y ∈ s0.store, x.sequence = y.sequence) := by
  have hget0 : getOrder? (s0.store ++ [o]) o.order_id = some o :=
    getOrder?_append_fresh s0.store o hfresh
  simp only [processNewOrder] at h
  rw [hget0] at h
  simp only [] at h
  rcases hmatch : match_order s0.book o with _ | res
  · rw [hmatch] at h
    cases h
  · rw [hmatch] at h
    simp only [] at h
    obtain ⟨g, r, hml, hown, htick, hcore, hfill, hlimit⟩ := match_order_shape s0.book o res hmatch
    obtain ⟨hOwnWf, hOppWf, hbNd0, hOwnAl, hOppAl, hCov⟩ := engineInv_sides s0 o.side hinv
    have hbNd := hbNd0
    rw [List.nodup_append] at hbNd
    obtain ⟨hNdOwn, hNdOpp, hDisjOO⟩ := hbNd
    have hposE : ∀ lv ∈ oppSide s0.book o.side, ∀ e ∈ lv.2, 0 < e.remaining_quantity := by
      intro lv hlv e he
      obtain ⟨ro, _, _, _, _, _, _, _, _, hfl, hrem⟩ :=
        hOppAl e (mem_sideEntries _ lv e hlv he)
      omega
    have hneE : ∀ lv ∈ oppSide s0.book o.side, lv.2 ≠ [] := hOppWf.2.1
    have hseq := matchLevels_seq o s0.book.ticker g (oppSide s0.book o.side)
      (o.quantity - o.filled_quantity) res.trades r (oppSide res.book o.side) hml hposE hneE
    have hfold := matchLevels_fold o s0.book.ticker g (oppSide s0.book o.side)
      (o.quantity - o.filled_quantity) res.trades r (oppSide res.book o.side) hneE hml
    have hcons := matchLevels_conservation o s0.book.ticker g (oppSide s0.book o.side)
      (o.quantity - o.filled_quantity) res.trades r (oppSide res.book o.side) hml
    have hresid : res.order.order_id = o.order_id := hcore.1.symm
    -- the store after writing the matcher's taker copy back
    have hrow1 : getOrder? (setOrder (s0.store ++ [o]) res.order) o.order_id =
        some res.order := by
      rw [← hresid, getOrder?_setOrder_eq, hresid, hget0]
      rfl
    have hold : ∀ i, i ≠ o.order_id →
        getOrder? (setOrder (s0.store ++ [o]) res.order) i = getOrder? s0.store i := by
      intro i hi
      rw [getOrder?_setOrder_ne _ _ _ (by rw [hresid]; exact hi), getOrder?_append]
      rcases hx : getOrder? s0.store i with _ | x
      · simp only [getOrder?, List.find?]
        have : (decide (o.order_id = i)) = false := by
          simp only [decide_eq_false_iff_not]
          exact fun hc => hi hc.symm
        rw [this]
      · rfl
    have hids1 : (setOrder (s0.store ++ [o]) res.order).map DBOrder.order_id =
        s0.store.map DBOrder.order_id ++ [o.order_id] := by
      rw [setOrder_ids, List.map_append]
      rfl
    have hfreshOpp : o.order_id ∉ sideIds (oppSide s0.book o.side) := by
      intro hc
      refine hfresh (bookIds_sub_store_sides s0 o.side hinv o.order_id ?_)
      exact List.mem_append.mpr (Or.inr hc)
    have hfreshOwn : o.order_id ∉ sideIds (ownSide s0.book o.side) := by
      intro hc
      refine hfresh (bookIds_sub_store_sides s0 o.side hinv o.order_id ?_)
      exact List.mem_append.mpr (Or.inl hc)
    rcases happ : applyTrades s0.book.ticker
        { s0 with store := setOrder (s0.store ++ [o]) res.order, book := res.book }
        res.trades with e | s2
    · rw [happ] at h
      cases h
    · rw [happ] at h
      simp only [] at h
      have halign1 : ∀ x ∈ OrderBook.sideEntries (oppSide s0.book o.side),
          EntryAligned (setOrder (s0.store ++ [o]) res.order) (oppOf o.side) x := by
        intro x hx
        refine entryAligned_mono s0.store _ (oppOf o.side) x (hOppAl x hx) ?_
        refine hold x.order_id ?_
        intro hc
        exact hfreshOpp (hc ▸ sideIds_mem _ x hx)
      have htrwf1 : ∀ tr, getOrder? (setOrder (s0.store ++ [o]) res.order) o.order_id =
          some tr → tr.filled_quantity ≤ tr.quantity := by
        intro tr htr
        rw [hrow1] at htr
        injection htr with htr
        subst htr
        rw [hfill, hfq]
        omega
      obtain ⟨A2, F12, F32, F42, hposT⟩ := applyTrades_lockstep o s0.book.ticker
        (oppOf o.side) res.trades (oppSide s0.book o.side)
        { s0 with store := setOrder (s0.store ++ [o]) res.order, book := res.book }
        s2 hseq happ hNdOpp halign1 hfreshOpp htrwf1
      obtain ⟨hids2, hrows2⟩ := applyTrades_rows s0.book.ticker res.trades
        { s0 with store := setOrder (s0.store ++ [o]) res.order, book := res.book }
        s2 happ
      obtain ⟨hb2, ha2, ht2, htr2, _⟩ := applyTrades_ok s0.book.ticker res.trades
        { s0 with store := setOrder (s0.store ++ [o]) res.order, book := res.book }
        s2 happ
      have hids2' : s2.store.map DBOrder.order_id =
          s0.store.map DBOrder.order_id ++ [o.order_id] := by
        rw [hids2]
        exact hids1
      have hnd2 : (s2.store.map DBOrder.order_id).Nodup := by
        rw [hids2']
        refine List.nodup_append.mpr ⟨hinv.storeNodup, List.nodup_singleton _, ?_⟩
        intro a ha hb
        rw [List.mem_singleton] at hb
        exact hfresh (hb ▸ ha)
      obtain ⟨hrowO2, hvalO2⟩ := F12 res.order hrow1
      have hbooks2 : ownSide s2.book o.side = ownSide s0.book o.side ∧
          oppSide s2.book o.side = oppSide res.book o.side := by
        obtain ⟨h1, h2⟩ := oppSide_congr s2.book res.book o.side hb2 ha2
        exact ⟨h1.trans hown, h2⟩
      -- row evolution back to s0 for every current row
      have hback : ∀ x ∈ s2.store, x.order_id = o.order_id ∨
          (x.order_id ≠ o.order_id ∧ ∃ ro, getOrder? s0.store x.order_id = some ro ∧
            sameCore ro x ∧ (x = ro ∨ x.filled_quantity ≤ x.quantity)) := by
        intro x hx
        by_cases hxid : x.order_id = o.order_id
        · exact Or.inl hxid
        · refine Or.inr ⟨hxid, ?_⟩
          have hgx : getOrder? s2.store x.order_id = some x := mem_getOrder s2.store x hnd2 hx
          obtain ⟨ro, hro, hcr, hd⟩ := hrows2 x.order_id x hgx
          rw [hold x.order_id hxid] at hro
          refine ⟨ro, hro, hcr, ?_⟩
          rcases hd with hd | hd
          · exact Or.inl hd
          · exact Or.inr hd
      have hwf2 : ∀ x ∈ s2.store, x.filled_quantity ≤ x.quantity ∧ 0 < x.quantity ∧
          (x.order_type = OrderType.LIMIT → x.limit_price.isSome) := by
        intro x hx
        rcases hback x hx with hxid | ⟨hxid, ro, hro, hcr, hd⟩
        · have hgx : getOrder? s2.store x.order_id = some x := mem_getOrder s2.store x hnd2 hx
          rw [hxid, hrowO2] at hgx
          injection hgx with hgx
          have hcx : sameCore o x := by
            rw [← hgx]
            exact sameCore_trans _ _ _ hcore (bumpFold_core res.trades res.order)
          have hfx : x.filled_quantity = sumQty res.trades := by
            rw [← hgx, bumpFold_filled, hfill, hfq]
            omega
          refine ⟨?_, ?_, ?_⟩
          · rw [hfx, ← hcx.2.2.2.2.2.1]
            rw [hfill, hfq] at hvalO2
            omega
          · rw [← hcx.2.2.2.2.2.1]
            exact hqty
          · intro hlt
            rw [← hcx.2.2.2.2.1] at hlt
            rw [← hcx.2.2.2.2.2.2.1]
            exact hlim hlt
        · obtain ⟨hwa, hwb, hwc⟩ := hinv.storeWf ro (getOrder?_mem _ _ _ hro)
          refine ⟨?_, ?_, ?_⟩
          · rcases hd with hd | hd
            · rw [← hd] at hwa
              exact hwa
            · exact hd
          · rw [← hcr.2.2.2.2.2.1]
            exact hwb
          · intro hlt
            rw [← hcr.2.2.2.2.1] at hlt
            rw [← hcr.2.2.2.2.2.2.1]
            exact hwc hlt
      have hseqc : ∀ x ∈ s2.store, x.sequence = o.sequence ∨
          ∃ y ∈ s0.store, x.sequence = y.sequence := by
        intro x hx
        rcases hback x hx with hxid | ⟨hxid, ro, hro, hcr, _⟩
        · have hgx : getOrder? s2.store x.order_id = some x := mem_getOrder s2.store x hnd2 hx
          rw [hxid, hrowO2] at hgx
          injection hgx with hgx
          left
          rw [← hgx]
          have hcx : sameCore o (List.foldl (fun r t => bumpRow r t.quantity)
              res.order res.trades) :=
            sameCore_trans _ _ _ hcore (bumpFold_core res.trades res.order)
          exact hcx.2.2.2.2.2.2.2.symm
        · exact Or.inr ⟨ro, getOrder?_mem _ _ _ hro, hcr.2.2.2.2.2.2.2.symm⟩
      -- alignment of untouched own-side entries
      have hOwnAl2 : ∀ x ∈ OrderBook.sideEntries (ownSide s0.book o.side),
          EntryAligned s2.store o.side x := by
        intro x hx
        have hxo : x.order_id ≠ o.order_id := by
          intro hc
          exact hfreshOwn (hc ▸ sideIds_mem _ x hx)
        have hxopp : x.order_id ∉ sideIds (oppSide s0.book o.side) := by
          intro hc
          exact hDisjOO (sideIds_mem _ x hx) hc
        refine entryAligned_mono s0.store s2.store o.side x (hOwnAl x hx) ?_
        rw [F32 x.order_id hxo hxopp, hold x.order_id hxo]
      -- coverage for rows other than the taker
      have hCov2 : ∀ x ∈ s2.store, x.order_id ≠ o.order_id →
          x.order_type = OrderType.LIMIT →
          (x.status = OrderStatus.PENDING ∨ x.status = OrderStatus.PARTIAL) →
          x.order_id ∈ sideIds (ownSide s0.book o.side) ∨
          x.order_id ∈ sideIds (consumeSide (oppSide s0.book o.side) res.trades) := by
        intro x hx hxo hxt hxl
        by_cases hxopp : x.order_id ∈ sideIds (oppSide s0.book o.side)
        · by_cases hxc : x.order_id ∈ sideIds (consumeSide (oppSide s0.book o.side) res.trades)
          · exact Or.inr hxc
          · obtain ⟨ro2, hro2, hstat⟩ := F42 x.order_id hxopp hxc
            have hgx : getOrder? s2.store x.order_id = some x := mem_getOrder s2.store x hnd2 hx
            rw [hgx] at hro2
            injection hro2 with hro2
            rw [← hro2] at hstat
            rw [hstat] at hxl
            rcases hxl with hc | hc
            · cases hc
            · cases hc
        · have hgx : getOrder? s2.store x.order_id = some x := mem_getOrder s2.store x hnd2 hx
          rw [F32 x.order_id hxo hxopp, hold x.order_id hxo] at hgx
          have hxmem : x ∈ s0.store := getOrder?_mem _ _ _ hgx
          have := hCov x hxmem hxt hxl
          rcases List.mem_append.mp this with hc | hc
          · exact Or.inl hc
          · exact absurd hc hxopp
      -- the committed taker row
      have hO2core : sameCore o (List.foldl (fun r t => bumpRow r t.quantity)
          res.order res.trades) :=
        sameCore_trans _ _ _ hcore (bumpFold_core res.trades res.order)
      have hO2fill : (List.foldl (fun r t => bumpRow r t.quantity)
          res.order res.trades).filled_quantity = sumQty res.trades := by
        rw [bumpFold_filled, hfill, hfq]
        omega
      rcases hget2 : getOrder? s2.store o.order_id with _ | order2
      · rw [hget2] at h
        cases h
      · rw [hget2] at h
        simp only [] at h
        rw [hrowO2] at hget2
        injection hget2 with hget2
        by_cases hcond : 0 < res.remaining ∧ order2.order_type = OrderType.LIMIT
        · rw [if_pos hcond] at h
          injection h with h
          subst h
          -- the taker is a LIMIT order with a positive remainder: it rests
          have hotype : o.order_type = OrderType.LIMIT := by
            rw [hO2core.2.2.2.2.1, hget2]
            exact hcond.2
          obtain ⟨ho_res, hrem_r⟩ := hlimit hotype
          obtain ⟨lp, hlp⟩ := Option.isSome_iff_exists.mp (hlim hotype)
          have hfil2 : order2.filled_quantity = sumQty res.trades := by
            rw [← hget2]
            exact hO2fill
          have hq2 : order2.quantity = o.quantity := by
            rw [← hget2, ← hO2core.2.2.2.2.2.1]
          have hfll : order2.filled_quantity < order2.quantity := by
            rw [hfil2, hq2]
            rw [hfq] at hcons
            rw [hrem_r] at hcond
            omega
          have hcore2 : sameCore o order2 := by
            rw [← hget2]
            exact hO2core
          -- the resting book write
          set eE : OrderBookEntry :=
            { order_id := order2.order_id, trader_id := order2.trader_id,
              quantity := order2.quantity,
              remaining_quantity := order2.quantity - order2.filled_quantity,
              price_in_cents := lp, sequence := order2.sequence } with hEdef
          have hbook3 : add_order_to_book s2.book order2 =
              s2.book.add_order o.side lp eE := by
            rw [add_order_to_book, if_neg (by simp [hcond.2]),
              if_neg (by omega : ¬ order2.quantity ≤ order2.filled_quantity)]
            have hlp2 : order2.limit_price = some lp := by
              rw [← hcore2.2.2.2.2.2.2.1]
              exact hlp
            rw [hlp2]
            have hside2 : order2.side = o.side := hcore2.2.2.2.1.symm
            rw [hside2]
          have hstat2 : order2.status = OrderStatus.PENDING ∨
              order2.status = OrderStatus.PARTIAL := by
            by_cases hts : res.trades = []
            · left
              rw [← hget2, hts]
              simp only [List.foldl_nil]
              rw [ho_res]
              exact hst
            · right
              rw [← hget2, bumpFold_status_pos res.trades res.order hts hposT]
              have e1 : res.order.quantity = o.quantity := hcore.2.2.2.2.2.1.symm
              have e2 : res.order.filled_quantity = 0 := by rw [hfill, hfq]
              have e3 : sumQty res.trades = order2.filled_quantity := hfil2.symm
              rw [if_neg (by omega)]
          have hlp2 : order2.limit_price = some lp := by
            rw [← hcore2.2.2.2.2.2.2.1]
            exact hlp
          have hrow2f : getOrder? s2.store o.order_id = some order2 := by
            rw [hrowO2, hget2]
          have hpermEnt := insertEntry_entries_perm (OrderBook.sideBefore o.side) lp
            eE (ownSide s0.book o.side)
          have hEid : eE.order_id = o.order_id := by
            rw [hEdef]
            exact hcore2.1.symm
          have hpermIds : (sideIds (OrderBook.insertEntry (OrderBook.sideBefore o.side) lp
              eE (ownSide s0.book o.side))).Perm
              (sideIds (ownSide s0.book o.side) ++ [o.order_id]) := by
            have h1 := hpermEnt.map OrderBookEntry.order_id
            rw [List.map_append] at h1
            have h2 : List.map OrderBookEntry.order_id [eE] = [o.order_id] := by
              simp only [List.map_cons, List.map_nil]
              rw [← hcore2.1]
            rw [h2] at h1
            exact h1
          refine ⟨?_, hids2', hseqc⟩
          refine engineInv_mk _ o.side hnd2 hwf2 ?_ ?_ ?_ ?_ ?_ ?_
          · show SideWf (kordOf o.side)
              (ownSide (add_order_to_book s2.book order2) o.side)
            rw [hbook3, (add_order_sides s2.book o.side lp _).1, hbooks2.1]
            refine insertEntry_sidewf (kordOf o.side) (OrderBook.sideBefore o.side) lp _
              (fun a b hab => sideBefore_true o.side a b hab)
              (fun a b hne hab => sideBefore_false o.side a b hne hab)
              (fun a b c h1 h2 => kordOf_trans o.side a b c h1 h2)
              rfl (ownSide s0.book o.side) hOwnWf ?_
            intro x hx
            obtain ⟨y, hy, _, _, _, _, _, hyseq, _, _, _⟩ := hOwnAl x hx
            have hymem : y ∈ s0.store := getOrder?_mem _ _ _ hy
            have := hseqb y hymem
            show x.sequence < order2.sequence
            rw [← hcore2.2.2.2.2.2.2.2]
            omega
          · show SideWf (kordOf (oppOf o.side))
              (oppSide (add_order_to_book s2.book order2) o.side)
            rw [hbook3, (add_order_sides s2.book o.side lp _).2.1, hbooks2.2, hfold]
            exact consumeSide_sidewf _ res.trades _ hOppWf
          · show (sideIds (ownSide (add_order_to_book s2.book order2) o.side) ++
              sideIds (oppSide (add_order_to_book s2.book order2) o.side)).Nodup
            rw [hbook3, (add_order_sides s2.book o.side lp _).1,
              (add_order_sides s2.book o.side lp _).2.1, hbooks2.1, hbooks2.2, hfold]
            refine (List.Perm.nodup_iff (hpermIds.append_right _)).mpr ?_
            rw [List.append_assoc]
            refine List.nodup_append.mpr ⟨hNdOwn, ?_, ?_⟩
            · refine List.nodup_append.mpr ⟨List.nodup_singleton _, ?_, ?_⟩
              · exact ((consumeSide_ids_sublist res.trades _)).nodup hNdOpp
              · intro a ha hb
                rw [List.mem_singleton] at ha
                exact hfreshOpp (ha ▸ (consumeSide_ids_sublist res.trades _).mem hb)
            · intro a ha hb
              rcases List.mem_append.mp hb with hb | hb
              · rw [List.mem_singleton] at hb
                exact hfreshOwn (hb ▸ ha)
              · exact hDisjOO ha ((consumeSide_ids_sublist res.trades _).mem hb)
          · show ∀ e ∈ OrderBook.sideEntries
              (ownSide (add_order_to_book s2.book order2) o.side),
              EntryAligned s2.store o.side e
            rw [hbook3, (add_order_sides s2.book o.side lp _).1, hbooks2.1]
            intro x hx
            rcases List.mem_append.mp (hpermEnt.mem_iff.mp hx) with hx2 | hx2
            · exact hOwnAl2 x hx2
            · rw [List.mem_singleton] at hx2
              subst hx2
              refine ⟨order2, ?_, hcore2.2.2.2.1.symm, hcond.2, hstat2, hlp2,
                rfl, rfl, rfl, hfll, rfl⟩
              show getOrder? s2.store order2.order_id = some order2
              rw [← hcore2.1]
              exact hrow2f
          · show ∀ e ∈ OrderBook.sideEntries
              (oppSide (add_order_to_book s2.book order2) o.side),
              EntryAligned s2.store (oppOf o.side) e
            rw [hbook3, (add_order_sides s2.book o.side lp _).2.1, hbooks2.2, hfold]
            exact A2
          · show ∀ x ∈ s2.store, x.order_type = OrderType.LIMIT →
              (x.status = OrderStatus.PENDING ∨ x.status = OrderStatus.PARTIAL) →
              x.order_id ∈ sideIds (ownSide (add_order_to_book s2.book order2) o.side) ++
                sideIds (oppSide (add_order_to_book s2.book order2) o.side)
            rw [hbook3, (add_order_sides s2.book o.side lp _).1,
              (add_order_sides s2.book o.side lp _).2.1, hbooks2.1, hbooks2.2, hfold]
            intro x hx hxt hxl
            by_cases hxid : x.order_id = o.order_id
            · refine List.mem_append.mpr (Or.inl ?_)
              refine (hpermIds.mem_iff).mpr ?_
              exact List.mem_append.mpr (Or.inr (List.mem_singleton.mpr hxid))
            · rcases hCov2 x hx hxid hxt hxl with hc | hc
              · refine List.mem_append.mpr (Or.inl ?_)
                refine (hpermIds.mem_iff).mpr ?_
                exact List.mem_append.mpr (Or.inl hc)
              · exact List.mem_append.mpr (Or.inr hc)
        · rw [if_neg hcond] at h
          injection h with h
          subst h
          refine ⟨?_, hids2', hseqc⟩
          refine engineInv_mk s2 o.side hnd2 hwf2 ?_ ?_ ?_ ?_ ?_ ?_
          · rw [hbooks2.1]
            exact hOwnWf
          · rw [hbooks2.2, hfold]
            exact consumeSide_sidewf _ res.trades _ hOppWf
          · rw [hbooks2.1, hbooks2.2, hfold]
            exact ((consumeSide_ids_sublist res.trades _).append_left _).nodup hbNd0
          · rw [hbooks2.1]
            exact hOwnAl2
          · rw [hbooks2.2, hfold]
            exact A2
          · rw [hbooks2.1, hbooks2.2, hfold]
            intro x hx hxt hxl
            by_cases hxid : x.order_id = o.order_id
            · exfalso
              have hgx : getOrder? s2.store x.order_id = some x :=
                mem_getOrder s2.store x hnd2 hx
              rw [hxid, hrowO2] at hgx
              injection hgx with hgx
              have hxo2 : x = order2 := by rw [← hgx, hget2]
              rw [hxo2] at hxt hxl
              have hotype : o.order_type = OrderType.LIMIT := by
                rw [hO2core.2.2.2.2.1, hget2]
                exact hxt
              obtain ⟨ho_res, hrem_r⟩ := hlimit hotype
              have hr0 : r = 0 := by
                by_contra hc
                refine hcond ⟨?_, hxt⟩
                rw [hrem_r]
                exact Nat.pos_of_ne_zero hc
              rw [hfq] at hcons
              have hsum : sumQty res.trades = o.quantity := by omega
              have hts : res.trades ≠ [] := by
                intro hc
                rw [hc] at hsum
                simp [sumQty] at hsum
                omega
              have hstatF : order2.status = OrderStatus.FILLED := by
                rw [← hget2, bumpFold_status_pos res.trades res.order hts hposT]
                rw [ho_res, hfq, hsum]
                rw [if_pos (by omega)]
              rw [hstatF] at hxl
              rcases hxl with hc | hc
              · cases hc
              · cases hc
            · rcases hCov2 x hx hxid hxt hxl with hc | hc
              · exact List.mem_append.mpr (Or.inl hc)
              · exact List.mem_append.mpr (Or.inr hc)

lemma oppOf_ne (side : Side) : oppOf side ≠ side := by
  cases side
  · intro hc
    cases hc
  · intro hc
    cases hc

lemma kordOf_keys_nodup (side : Side) (l : List Nat)
    (h : l.Pairwise (kordOf side)) : l.Nodup := by
  cases side
  · exact h.imp (fun hab => by simp only [kordOf] at hab; omega)
  · exact h.imp (fun hab => by simp only [kordOf] at hab; omega)

lemma mem_setOrder_cases (st : OrderStore) (o2 : DBOrder) (x : DBOrder)
    (h : x ∈ setOrder st o2) :
    x = o2 ∨ (x ∈ st ∧ x.order_id ≠ o2.order_id) := by
  induction st with
  | nil => cases h
  | cons y t ih =>
    simp only [setOrder, List.map_cons] at h
    rcases List.mem_cons.mp h with h | h
    · by_cases hy : y.order_id = o2.order_id
      · rw [if_pos hy] at h
        exact Or.inl h
      · rw [if_neg hy] at h
        subst h
        exact Or.inr ⟨List.mem_cons_self _ _, hy⟩
    · rcases ih h with h2 | h2
      · exact Or.inl h2
      · exact Or.inr ⟨List.mem_cons_of_mem _ h2.1, h2.2⟩

lemma remove_order_sides (book : OrderBook) (side : Side) (p i : Nat) :
    ownSide (book.remove_order side p i).2 side =
      (OrderBook.removeFromSide p i (ownSide book side)).2 ∧
    oppSide (book.remove_order side p i).2 side = oppSide book side := by
  cases side
  · exact ⟨rfl, rfl⟩
  · exact ⟨rfl, rfl⟩

lemma cancel_order_row_ok (o : DBOrder) (reason : CancelReason) (o2 : DBOrder)
    (h : OrderRepository.cancel_order_row o reason = Except.ok o2) :
    (o.status = OrderStatus.PENDING ∨ o.status = OrderStatus.PARTIAL) ∧
    sameCore o o2 ∧ o2.filled_quantity = o.filled_quantity ∧
    (o2.status = OrderStatus.CANCELLED ∨ o2.status = OrderStatus.EXPIRED) := by
  simp only [OrderRepository.cancel_order_row] at h
  by_cases hs : o.status = OrderStatus.PENDING ∨ o.status = OrderStatus.PARTIAL
  · rw [if_pos hs] at h
    injection h with h
    subst h
    refine ⟨hs, ⟨rfl, rfl, rfl, rfl, rfl, rfl, rfl, rfl⟩, rfl, ?_⟩
    by_cases hr : reason = CancelReason.USER
    · left
      simp only [if_pos hr]
    · right
      simp only [if_neg hr]
  · rw [if_neg hs] at h
    cases h

lemma processCancellation_inv (s0 : EngineState) (oid : Nat) (reason : CancelReason)
    (hinv : EngineInv s0) :
    EngineInv (processCancellation s0 oid reason) ∧
    (processCancellation s0 oid reason).store.map DBOrder.order_id =
      s0.store.map DBOrder.order_id ∧
    (∀ x ∈ (processCancellation s0 oid reason).store,
      ∃ y ∈ s0.store, x.sequence = y.sequence) := by
  simp only [processCancellation]
  rcases hfind : getOrder? s0.store oid with _ | o
  · exact ⟨hinv, rfl, fun x hx => ⟨x, hx, rfl⟩⟩
  · simp only []
    rcases hrow : OrderRepository.cancel_order_row o reason with e | o2
    · exact ⟨hinv, rfl, fun x hx => ⟨x, hx, rfl⟩⟩
    · simp only []
      obtain ⟨holive, hcore, hfil, hterm⟩ := cancel_order_row_ok o reason o2 hrow
      have hid : o.order_id = oid := getOrder?_some_id _ _ _ hfind
      have hid2 : o2.order_id = oid := hcore.1 ▸ hid
      have homem : o ∈ s0.store := getOrder?_mem _ _ _ hfind
      have howf := hinv.storeWf o homem
      -- store facts shared by every book branch
      have hids' : (setOrder s0.store o2).map DBOrder.order_id =
          s0.store.map DBOrder.order_id := setOrder_ids s0.store o2
      have hnd' : ((setOrder s0.store o2).map DBOrder.order_id).Nodup := by
        rw [hids']
        exact hinv.storeNodup
      have hwf' : ∀ x ∈ setOrder s0.store o2, x.filled_quantity ≤ x.quantity ∧
          0 < x.quantity ∧ (x.order_type = OrderType.LIMIT → x.limit_price.isSome) := by
        intro x hx
        rcases mem_setOrder_cases s0.store o2 x hx with hx2 | ⟨hx2, _⟩
        · subst hx2
          refine ⟨?_, ?_, ?_⟩
          · rw [hfil, ← hcore.2.2.2.2.2.1]
            exact howf.1
          · rw [← hcore.2.2.2.2.2.1]
            exact howf.2.1
          · intro hlt
            rw [← hcore.2.2.2.2.1] at hlt
            rw [← hcore.2.2.2.2.2.2.1]
            exact howf.2.2 hlt
        · exact hinv.storeWf x hx2
      have hseqs' : ∀ x ∈ setOrder s0.store o2, ∃ y ∈ s0.store,
          x.sequence = y.sequence := by
        intro x hx
        rcases mem_setOrder_cases s0.store o2 x hx with hx2 | ⟨hx2, _⟩
        · subst hx2
          exact ⟨o, homem, hcore.2.2.2.2.2.2.2.symm⟩
        · exact ⟨x, hx2, rfl⟩
      have hrowKeep : ∀ i2, i2 ≠ oid →
          getOrder? (setOrder s0.store o2) i2 = getOrder? s0.store i2 := by
        intro i2 hi2
        exact getOrder?_setOrder_ne s0.store o2 i2 (by rw [hid2]; exact hi2)
      by_cases htype : o2.order_type = OrderType.LIMIT
      · -- LIMIT: the row is removed from its side of the book
        have hlp : o2.limit_price.isSome := by
          have := howf.2.2 (hcore.2.2.2.2.1 ▸ htype)
          rw [hcore.2.2.2.2.2.2.1] at this
          exact this
        obtain ⟨lp, hlp2⟩ := Option.isSome_iff_exists.mp hlp
        obtain ⟨hOwnWf, hOppWf, hbNd0, hOwnAl, hOppAl, hCov⟩ :=
          engineInv_sides s0 o2.side hinv
        have hbNd := hbNd0
        rw [List.nodup_append] at hbNd
        obtain ⟨hNdOwn, hNdOpp, hDisjOO⟩ := hbNd
        -- the live LIMIT row rests on its own side at its limit price
        have holf : o.order_type = OrderType.LIMIT := hcore.2.2.2.2.1 ▸ htype
        have hcov := hCov o homem holf holive
        have hgone0 : ∃ e ∈ OrderBook.sideEntries (ownSide s0.book o2.side),
            e.order_id = oid ∧ e.price_in_cents = lp := by
          rcases List.mem_append.mp hcov with hc | hc
          · obtain ⟨e, he, hei⟩ := List.mem_map.mp hc
            obtain ⟨ro, hro, _, _, _, hrolp, _⟩ := hOwnAl e he
            rw [hei, hid] at hro
            rw [hfind] at hro
            injection hro with hro
            subst hro
            refine ⟨e, he, by rw [hei, hid], ?_⟩
            rw [hcore.2.2.2.2.2.2.1, hlp2] at hrolp
            injection hrolp with hrolp
            exact hrolp.symm
          · exfalso
            obtain ⟨e, he, hei⟩ := List.mem_map.mp hc
            obtain ⟨ro, hro, hroside, _⟩ := hOppAl e he
            rw [hei, hid] at hro
            rw [hfind] at hro
            injection hro with hro
            subst hro
            refine oppOf_ne o2.side ?_
            rw [← hroside, ← hcore.2.2.2.1]
          -- side of the row matches the cancel side
        obtain ⟨eG, heG, heGid, heGlp⟩ := hgone0
        have hkeysNd : ((ownSide s0.book o2.side).map Prod.fst).Nodup :=
          kordOf_keys_nodup o2.side _ hOwnWf.1
        have hgone : oid ∉ sideIds
            (OrderBook.removeFromSide lp oid (ownSide s0.book o2.side)).2 :=
          OrderBook.removeFromSide_gone lp oid (ownSide s0.book o2.side) hNdOwn hkeysNd
            hOwnWf.2.2.1 eG heG heGid heGlp
        have hcib : (cancel_order_in_book s0.book o2).2 =
            (s0.book.remove_order o2.side lp o2.order_id).2 := by
          unfold cancel_order_in_book
          rw [if_neg (show ¬ o2.order_type ≠ OrderType.LIMIT from fun hc => hc htype),
            hlp2]
        rw [hcib]
        refine ⟨?_, hids', hseqs'⟩
        refine engineInv_mk _ o2.side hnd' hwf' ?_ ?_ ?_ ?_ ?_ ?_
        · show SideWf (kordOf o2.side)
            (ownSide (s0.book.remove_order o2.side lp o2.order_id).2 o2.side)
          rw [(remove_order_sides s0.book o2.side lp o2.order_id).1, hid2]
          exact OrderBook.removeFromSide_sidewf (kordOf o2.side) lp oid _ hOwnWf
        · show SideWf (kordOf (oppOf o2.side))
            (oppSide (s0.book.remove_order o2.side lp o2.order_id).2 o2.side)
          rw [(remove_order_sides s0.book o2.side lp o2.order_id).2]
          exact hOppWf
        · rw [(remove_order_sides s0.book o2.side lp o2.order_id).1,
            (remove_order_sides s0.book o2.side lp o2.order_id).2, hid2]
          refine List.Sublist.nodup ?_ hbNd0
          refine List.Sublist.append_right ?_ _
          exact (OrderBook.removeFromSide_entries_sub lp oid _).map OrderBookEntry.order_id
        · rw [(remove_order_sides s0.book o2.side lp o2.order_id).1, hid2]
          intro x hx
          have hxmem : x ∈ OrderBook.sideEntries (ownSide s0.book o2.side) :=
            (OrderBook.removeFromSide_entries_sub lp oid _).mem hx
          have hxid : x.order_id ≠ oid := by
            intro hc
            have hmem := sideIds_mem _ x hx
            rw [hc] at hmem
            exact hgone hmem
          exact entryAligned_mono s0.store _ o2.side x (hOwnAl x hxmem)
            (hrowKeep x.order_id hxid)
        · rw [(remove_order_sides s0.book o2.side lp o2.order_id).2]
          intro x hx
          have hxid : x.order_id ≠ oid := by
            intro hc
            refine oppOf_ne o2.side ?_
            obtain ⟨ro, hro, hroside, _⟩ := hOppAl x hx
            rw [hc, hfind] at hro
            injection hro with hro
            subst hro
            rw [← hroside, ← hcore.2.2.2.1]
          exact entryAligned_mono s0.store _ (oppOf o2.side) x (hOppAl x hx)
            (hrowKeep x.order_id hxid)
        · rw [(remove_order_sides s0.book o2.side lp o2.order_id).1,
            (remove_order_sides s0.book o2.side lp o2.order_id).2, hid2]
          intro x hx hxt hxl
          rcases mem_setOrder_cases s0.store o2 x hx with hx2 | ⟨hx2, hxid⟩
          · subst hx2
            rcases hterm with hc | hc
            · rw [hc] at hxl
              rcases hxl with h2 | h2
              · cases h2
              · cases h2
            · rw [hc] at hxl
              rcases hxl with h2 | h2
              · cases h2
              · cases h2
          · have := hCov x hx2 hxt hxl
            rw [hid2] at hxid
            rcases List.mem_append.mp this with hc | hc
            · refine List.mem_append.mpr (Or.inl ?_)
              obtain ⟨e, he, hei⟩ := List.mem_map.mp hc
              have hkeep := OrderBook.removeFromSide_keep lp oid _ e he
                (by rw [hei]; exact hxid)
              exact hei ▸ sideIds_mem _ e hkeep
            · exact List.mem_append.mpr (Or.inr hc)
      · -- non-LIMIT: the book is untouched and the row was never in it
        have hcib : (cancel_order_in_book s0.book o2).2 = s0.book := by
          unfold cancel_order_in_book
          rw [if_pos htype]
        rw [hcib]
        refine ⟨?_, hids', hseqs'⟩
        have hnotin : ∀ e ∈ OrderBook.sideEntries s0.book.bids ++
            OrderBook.sideEntries s0.book.asks, e.order_id ≠ oid := by
          intro e he hc
          rcases List.mem_append.mp he with he2 | he2
          · obtain ⟨ro, hro, _, hrot, _⟩ := hinv.bidsAligned e he2
            rw [hc, hfind] at hro
            injection hro with hro
            subst hro
            exact htype (hcore.2.2.2.2.1 ▸ hrot)
          · obtain ⟨ro, hro, _, hrot, _⟩ := hinv.asksAligned e he2
            rw [hc, hfind] at hro
            injection hro with hro
            subst hro
            exact htype (hcore.2.2.2.2.1 ▸ hrot)
        refine ⟨hnd', hwf', hinv.bidsWf, hinv.asksWf, hinv.bookNodup, ?_, ?_, ?_⟩
        · intro e he
          refine entryAligned_mono s0.store _ Side.BUY e (hinv.bidsAligned e he) ?_
          exact hrowKeep e.order_id (hnotin e (List.mem_append.mpr (Or.inl he)))
        · intro e he
          refine entryAligned_mono s0.store _ Side.SELL e (hinv.asksAligned e he) ?_
          exact hrowKeep e.order_id (hnotin e (List.mem_append.mpr (Or.inr he)))
        · intro x hx hxt hxl
          rcases mem_setOrder_cases s0.store o2 x hx with hx2 | ⟨hx2, _⟩
          · subst hx2
            exact absurd hxt htype
          · exact hinv.covered x hx2 hxt hxl

/-- The order carried by a `newOrder` message. -/
def msgOrder? : EngineMsg → Option DBOrder
  | EngineMsg.newOrder o => some o
  | EngineMsg.cancel _ _ => none

/-- A `newOrder` message carries a freshly inserted row: PENDING, nothing
filled, a positive quantity, and a price when it is a LIMIT order (the
API validation guarantees exactly this before `_submit_order` inserts). -/
def goodNewOrder : EngineMsg → Bool
  | EngineMsg.newOrder o =>
      decide (o.status = OrderStatus.PENDING) && decide (o.filled_quantity = 0) &&
      decide (0 < o.quantity) &&
      (!(decide (o.order_type = OrderType.LIMIT)) || o.limit_price.isSome)
  | EngineMsg.cancel _ _ => true

/-- Distinct later submissions get fresh ids and larger sequence numbers
(the database assigns both monotonically). -/
def freshSeq : EngineMsg → EngineMsg → Bool
  | EngineMsg.newOrder o1, EngineMsg.newOrder o2 =>
      decide (o1.order_id ≠ o2.order_id) && decide (o1.sequence < o2.sequence)
  | _, _ => true

/-- Well-formed inbox: every new order is a fresh PENDING row and ids /
sequences increase along the stream. -/
def WfMsgs (msgs : List EngineMsg) : Prop :=
  (∀ m ∈ msgs, goodNewOrder m = true) ∧
  List.Pairwise (fun a b => freshSeq a b = true) msgs

lemma goodNewOrder_props (o : DBOrder)
    (h : goodNewOrder (EngineMsg.newOrder o) = true) :
    o.status = OrderStatus.PENDING ∧ o.filled_quantity = 0 ∧ 0 < o.quantity ∧
    (o.order_type = OrderType.LIMIT → o.limit_price.isSome) := by
  simp only [goodNewOrder, Bool.and_eq_true, decide_eq_true_eq, Bool.or_eq_true,
    Bool.not_eq_true', decide_eq_false_iff_not] at h
  obtain ⟨⟨⟨h1, h2⟩, h3⟩, h4⟩ := h
  refine ⟨h1, h2, h3, ?_⟩
  intro hl
  rcases h4 with h4 | h4
  · exact absurd hl h4
  · exact h4

lemma freshSeq_props (o1 o2 : DBOrder)
    (h : freshSeq (EngineMsg.newOrder o1) (EngineMsg.newOrder o2) = true) :
    o1.order_id ≠ o2.order_id ∧ o1.sequence < o2.sequence := by
  simp only [freshSeq, Bool.and_eq_true, decide_eq_true_eq] at h
  exact h

lemma runMsgs_inv :
    ∀ (msgs : List EngineMsg) (s0 s : EngineState),
      EngineInv s0 →
      (∀ m ∈ msgs, goodNewOrder m = true) →
      List.Pairwise (fun a b => freshSeq a b = true) msgs →
      (∀ m ∈ msgs, ∀ o, msgOrder? m = some o →
        o.order_id ∉ s0.store.map DBOrder.order_id ∧
        (∀ x ∈ s0.store, x.sequence < o.sequence)) →
      runMsgs s0 msgs = Except.ok s →
      EngineInv s := by
  intro msgs
  induction msgs with
  | nil =>
    intro s0 s hinv _ _ _ h
    simp only [runMsgs] at h
    cases h
    exact hinv
  | cons m ms ih =>
    intro s0 s hinv hgood hpw hrel h
    simp only [runMsgs] at h
    rcases hstep : stepMsg s0 m with e | s1
    · rw [hstep] at h
      cases h
    · rw [hstep] at h
      simp only [] at h
      obtain ⟨hpwh, hpwt⟩ := List.pairwise_cons.mp hpw
      cases m with
      | newOrder o =>
        simp only [stepMsg] at hstep
        obtain ⟨h1, h2, h3, h4⟩ := goodNewOrder_props o (hgood _ (List.mem_cons_self _ _))
        obtain ⟨hfr, hsq⟩ := hrel _ (List.mem_cons_self _ _) o rfl
        obtain ⟨hinv1, hids1, hseqs1⟩ :=
          processNewOrder_inv s0 o s1 hinv hfr hsq h1 h2 h3 h4 hstep
        refine ih s1 s hinv1 (fun m2 hm2 => hgood m2 (List.mem_cons_of_mem _ hm2))
          hpwt ?_ h
        intro m2 hm2 o2 ho2
        obtain ⟨hfr2, hsq2⟩ := hrel m2 (List.mem_cons_of_mem _ hm2) o2 ho2
        have hm2n : m2 = EngineMsg.newOrder o2 := by
          cases m2 with
          | newOrder o3 =>
            simp only [msgOrder?] at ho2
            injection ho2 with ho2
            rw [ho2]
          | cancel a b =>
            simp only [msgOrder?] at ho2
            cases ho2
        obtain ⟨hne, hlt⟩ := freshSeq_props o o2 (by
          have := hpwh m2 hm2
          rw [hm2n] at this
          exact this)
        constructor
        · rw [hids1]
          intro hc
          rcases List.mem_append.mp hc with hc | hc
          · exact hfr2 hc
          · rw [List.mem_singleton] at hc
            exact hne hc.symm
        · intro x hx
          rcases hseqs1 x hx with hxs | ⟨y, hy, hxs⟩
          · rw [hxs]
            exact hlt
          · rw [hxs]
            exact hsq2 y hy
      | cancel oid reason =>
        simp only [stepMsg] at hstep
        injection hstep with hstep
        obtain ⟨hinv1, hids1, hseqs1⟩ := processCancellation_inv s0 oid reason hinv
        rw [hstep] at hinv1 hids1 hseqs1
        refine ih s1 s hinv1 (fun m2 hm2 => hgood m2 (List.mem_cons_of_mem _ hm2))
          hpwt ?_ h
        intro m2 hm2 o2 ho2
        obtain ⟨hfr2, hsq2⟩ := hrel m2 (List.mem_cons_of_mem _ hm2) o2 ho2
        constructor
        · rw [hids1]
          exact hfr2
        · intro x hx
          obtain ⟨y, hy, hxs⟩ := hseqs1 x hx
          rw [hxs]
          exact hsq2 y hy

lemma limitBookMatchesStore_of_inv (s : EngineState) (hinv : EngineInv s) :
    limitBookMatchesStore s := by
  refine ⟨?_, bookIds_sub_store s hinv, ?_, ?_⟩
  · intro o ho
    constructor
    · intro ⟨h1, h2⟩
      exact hinv.covered o ho h1 h2
    · intro hmem
      have hgo : getOrder? s.store o.order_id = some o :=
        mem_getOrder s.store o hinv.storeNodup ho
      rcases List.mem_append.mp hmem with hc | hc
      · obtain ⟨e, he, hei⟩ := List.mem_map.mp hc
        obtain ⟨ro, hro, _, hrot, hrol, _⟩ := hinv.bidsAligned e he
        rw [hei, hgo] at hro
        injection hro with hro
        subst hro
        exact ⟨hrot, hrol⟩
      · obtain ⟨e, he, hei⟩ := List.mem_map.mp hc
        obtain ⟨ro, hro, _, hrot, hrol, _⟩ := hinv.asksAligned e he
        rw [hei, hgo] at hro
        injection hro with hro
        subst hro
        exact ⟨hrot, hrol⟩
  · exact hinv.bidsWf.2.2.2
  · exact hinv.asksWf.2.2.2

lemma engineInv_empty : EngineInv emptyState := by
  refine ⟨?_, ?_, ?_, ?_, ?_, ?_, ?_, ?_⟩
  · simp [emptyState]
  · intro o ho
    simp [emptyState] at ho
  · exact ⟨by simp [emptyState], by simp [emptyState], by simp [emptyState],
      by simp [emptyState]⟩
  · exact ⟨by simp [emptyState], by simp [emptyState], by simp [emptyState],
      by simp [emptyState]⟩
  · simp [emptyState, sideIds, OrderBook.sideEntries]
  · intro e he
    simp [emptyState, OrderBook.sideEntries] at he
  · intro e he
    simp [emptyState, OrderBook.sideEntries] at he
  · intro o ho
    simp [emptyState] at ho

end SymbolOrderProcessor

open SymbolOrderProcessor in
/-- C5 (corrected): for every well-formed message stream processed from the
empty exchange — fresh ids and increasing sequences, every new order
inserted PENDING and unfilled, every message committing — the in-memory
book ends up containing exactly the LIMIT orders whose durable status is
PENDING or PARTIAL (the original claim, without the restriction to LIMIT
orders, is refuted by `c5_counterexample`: a committed MARKET order into
an empty book stays durably PENDING yet never rests), every book entry is
backed by a durable row, and the FIFO queue at each price level is
ordered by sequence ascending. -/
theorem c5_book_reflects_live_limit_orders (msgs : List EngineMsg)
    (s : EngineState) (hwf : WfMsgs msgs)
    (h : runMsgs emptyState msgs = Except.ok s) :
    limitBookMatchesStore s := by
  refine limitBookMatchesStore_of_inv s ?_
  refine runMsgs_inv msgs emptyState s engineInv_empty hwf.1 hwf.2 ?_ h
  intro m _ o _
  exact ⟨by simp [emptyState], by intro x hx; simp [emptyState] at hx⟩

/-- Witness LIMIT BUY 5 @ 50 for the corrected C5. -/
def c5WitnessOrder : DBOrder :=
  { order_id := 100, trader_id := 7, ticker := "X", side := Side.BUY,
    order_type := OrderType.LIMIT, quantity := 5, limit_price := some 50,
    filled_quantity := 0, status := OrderStatus.PENDING, cancel_reason := none,
    sequence := 1 }

/-- The witness message stream: submit the LIMIT BUY into the empty book. -/
def c5WitnessMsgs : List SymbolOrderProcessor.EngineMsg :=
  [SymbolOrderProcessor.EngineMsg.newOrder c5WitnessOrder]

/-- The state the witness stream commits. -/
def c5WitnessState : EngineState :=
  (SymbolOrderProcessor.runMsgs emptyState c5WitnessMsgs).toOption.getD emptyState

/-- Witness for the corrected C5 at a concrete input. -/
theorem c5_book_reflects_witness :
    SymbolOrderProcessor.WfMsgs c5WitnessMsgs ∧
    SymbolOrderProcessor.runMsgs emptyState c5WitnessMsgs =
      Except.ok c5WitnessState ∧
    limitBookMatchesStore c5WitnessState :=
  ⟨⟨by decide, by decide⟩, rfl,
    c5_book_reflects_live_limit_orders c5WitnessMsgs c5WitnessState
      ⟨by decide, by decide⟩ rfl⟩
